import Mathlib

/-!
# Adaptive bitrate controller (processing/cpp/abr_controller.cpp)

A shallow embedding of the bandwidth-prediction and quality-selection core.

* C `float` is IEEE-754 binary32 with round-to-nearest-even (the module targets
  WebAssembly, whose `f32` operations are exactly that).  `F32` below is an executable
  model of binary32: NaN, the two infinities and finite values `(-1)^neg * m * 2^e`.
  Every arithmetic operation computes the exact result and rounds it once.
* The program is written once, over any carrier of class `FloatArith`; the instance
  for `F32` is the program as compiled, the instance for `ℚ` is the same program in
  exact arithmetic.
* C `int` is `Int`.  The one `int` computation that can leave the 32-bit range for a
  history the caller can pass, `i * i` in `detect_bandwidth_trend`, is reduced modulo
  `2^32`; indices, counters and quality levels stay far inside the range.
* A read of `QUALITY_BITRATES` outside `0..5` is undefined behaviour in the source;
  the functions that index the ladder return `Option`, and `none` stands for such a
  read.
* A history `(float* history, int history_length)` is a `List`; the null pointer and
  the empty list take the same early return in every function.
-/

namespace Abr

/-! ## IEEE-754 binary32 -/

/-- Binary32 values.  `fin neg m e` denotes `(-1)^neg * m * 2^e`. -/
inductive F32 where
  | nan : F32
  | inf (neg : Bool) : F32
  | fin (neg : Bool) (m : Nat) (e : Int) : F32
  deriving DecidableEq

namespace F32

/-- The values that binary32 can hold, each in its unique representation: subnormals and
zero have exponent `-149` and a mantissa below `2^23`, normal numbers a 24-bit mantissa
with the top bit set and an exponent in `-149..104`. -/
def valid : F32 → Bool
  | nan => true
  | inf _ => true
  | fin _ m e => (decide (m < 2 ^ 23) && decide (e = -149)) ||
      (decide (2 ^ 23 ≤ m) && decide (m < 2 ^ 24) && decide (-149 ≤ e) && decide (e ≤ 104))

/-- Floor of the binary logarithm, by halving; `fuel` bounds the number of halvings. -/
def log2Aux : Nat → Nat → Nat
  | 0, _ => 0
  | fuel + 1, n => if n < 2 then 0 else log2Aux fuel (n / 2) + 1

/-- Floor of the binary logarithm of `n` (`0` for `n ≤ 1`). -/
def ilog2 (n : Nat) : Nat := log2Aux n n

/-- Floor of the binary logarithm of the ratio `n / d`, for positive `n` and `d`. -/
def ratioLog2 (n d : Nat) : Int :=
  let k : Int := (ilog2 n : Int) - (ilog2 d : Int)
  if 0 ≤ k then (if d * 2 ^ k.toNat ≤ n then k else k - 1)
  else (if d ≤ n * 2 ^ (-k).toNat then k else k - 1)

/-- The integer nearest to `num / den` (`den > 0`), ties to the even one. -/
def roundDiv (num den : Nat) : Nat :=
  let q : Nat := num / den
  let r : Nat := num % den
  if den < 2 * r ∨ (2 * r = den ∧ q % 2 = 1) then q + 1 else q

/-- The integer nearest to `(n / d) * 2^s`, ties to the even one. -/
def mantissa (n d : Nat) (s : Int) : Nat :=
  if 0 ≤ s then roundDiv (n * 2 ^ s.toNat) d else roundDiv n (d * 2 ^ (-s).toNat)

/-- The binary32 value of sign `neg`, mantissa `m ≤ 2^24` and exponent `t`: a mantissa
that rounding carried up to `2^24` is renormalised, an exponent above 104 overflows to
infinity. -/
def pack (neg : Bool) (m : Nat) (t : Int) : F32 :=
  if m = 2 ^ 24 then (if 104 < t + 1 then inf neg else fin neg (2 ^ 23) (t + 1))
  else if 104 < t then inf neg else fin neg m t

/-- The exponent at which `(n / d) * 2^e` is rounded: 24 significant bits, but not below
the subnormal exponent `-149`. -/
def roundExp (n d : Nat) (e : Int) : Int := max (ratioLog2 n d + e - 23) (-149)

/-- Round-to-nearest, ties-to-even, of the exact value `(-1)^neg * (n / d) * 2^e`
(`d > 0`) to binary32, with gradual underflow and overflow to infinity. -/
def round (neg : Bool) (n d : Nat) (e : Int) : F32 :=
  if n = 0 then fin neg 0 (-149)
  else pack neg (mantissa n d (e - roundExp n d e)) (roundExp n d e)

/-- The signed integer `(-1)^neg * m * 2^(e - k)`, for `k ≤ e`. -/
def scaled (neg : Bool) (m : Nat) (e k : Int) : Int :=
  if neg then -((m * 2 ^ (e - k).toNat : Nat) : Int) else ((m * 2 ^ (e - k).toNat : Nat) : Int)

def neg : F32 → F32
  | nan => nan
  | inf s => inf (!s)
  | fin s m e => fin (!s) m e

def add : F32 → F32 → F32
  | nan, _ => nan
  | _, nan => nan
  | inf s, inf t => if s = t then inf s else nan
  | inf s, fin _ _ _ => inf s
  | fin _ _ _, inf t => inf t
  | fin s1 m1 e1, fin s2 m2 e2 =>
    let k := min e1 e2
    let z := scaled s1 m1 e1 k + scaled s2 m2 e2 k
    if z = 0 then fin (s1 && s2) 0 (-149)
    else round (decide (z < 0)) z.natAbs 1 k

def sub (a b : F32) : F32 := add a (neg b)

def mul : F32 → F32 → F32
  | nan, _ => nan
  | _, nan => nan
  | inf s, inf t => inf (xor s t)
  | inf s, fin t m _ => if m = 0 then nan else inf (xor s t)
  | fin s m _, inf t => if m = 0 then nan else inf (xor s t)
  | fin s1 m1 e1, fin s2 m2 e2 => round (xor s1 s2) (m1 * m2) 1 (e1 + e2)

def div : F32 → F32 → F32
  | nan, _ => nan
  | _, nan => nan
  | inf _, inf _ => nan
  | inf s, fin t _ _ => inf (xor s t)
  | fin s _ _, inf t => fin (xor s t) 0 (-149)
  | fin s1 m1 e1, fin s2 m2 e2 =>
    if m2 = 0 then (if m1 = 0 then nan else inf (xor s1 s2))
    else round (xor s1 s2) m1 m2 (e1 - e2)

/-- Integer square root by bisection on the bits: `sqrtAux n b r` adds to `r` every power
`2^i`, `i < b`, from the highest down, that keeps the square at most `n`. -/
def sqrtAux (n : Nat) : Nat → Nat → Nat
  | 0, r => r
  | b + 1, r => if (r + 2 ^ b) * (r + 2 ^ b) ≤ n then sqrtAux n b (r + 2 ^ b) else sqrtAux n b r

/-- Floor of the square root of `n`. -/
def isqrt (n : Nat) : Nat := sqrtAux n (ilog2 n / 2 + 1) 0

/-- Correctly rounded square root (`sqrtf`). -/
def sqrt : F32 → F32
  | nan => nan
  | inf s => if s then nan else inf false
  | fin s m e =>
    if m = 0 then fin s 0 (-149)
    else if s then nan
    else
      -- scale the mantissa to at least 52 bits with an even exponent left over
      let j : Int := if (e - 52) % 2 = 0 then 52 else 53
      let big : Nat := m * 2 ^ j.toNat
      let q : Nat := isqrt big
      -- an inexact root lies strictly between q and q + 1; q + 1/2 rounds the same way
      if q * q = big then round false q 1 ((e - j) / 2)
      else round false (2 * q + 1) 2 ((e - j) / 2)

/-- The comparison `a < b`; false when either side is NaN. -/
def lt : F32 → F32 → Bool
  | nan, _ => false
  | _, nan => false
  | inf s, inf t => s && !t
  | inf s, fin _ _ _ => s
  | fin _ _ _, inf t => !t
  | fin s1 m1 e1, fin s2 m2 e2 =>
    let k := min e1 e2
    decide (scaled s1 m1 e1 k < scaled s2 m2 e2 k)

/-- The comparison `a <= b`; false when either side is NaN. -/
def le : F32 → F32 → Bool
  | nan, _ => false
  | _, nan => false
  | inf s, inf t => s || !t
  | inf s, fin _ _ _ => s
  | fin _ _ _, inf t => !t
  | fin s1 m1 e1, fin s2 m2 e2 =>
    let k := min e1 e2
    decide (scaled s1 m1 e1 k ≤ scaled s2 m2 e2 k)

def isNaN : F32 → Bool
  | nan => true
  | _ => false

/-- Finite values: neither NaN nor an infinity. -/
def isFinite : F32 → Bool
  | fin _ _ _ => true
  | _ => false

def signbit : F32 → Bool
  | nan => false
  | inf s => s
  | fin s _ _ => s

/-- C `fminf`: a NaN argument is ignored, `-0` counts as smaller than `+0`. -/
def fminf (x y : F32) : F32 :=
  if x.isNaN then y
  else if y.isNaN then x
  else if x.signbit != y.signbit then (if x.signbit then x else y)
  else if lt x y then x else y

/-- C `fmaxf`: a NaN argument is ignored, `-0` counts as smaller than `+0`. -/
def fmaxf (x y : F32) : F32 :=
  if x.isNaN then y
  else if y.isNaN then x
  else if x.signbit != y.signbit then (if x.signbit then y else x)
  else if lt x y then y else x

/-- The rational value of a finite binary32 value (`0` for NaN and the infinities). -/
def toRat : F32 → ℚ
  | fin s m e => (if s then -1 else 1) * (m : ℚ) * (2 : ℚ) ^ e
  | _ => 0

/-- The position of a binary32 value on the extended rational line (NaN, which is
unordered, sits at the bottom by convention). -/
def key : F32 → WithBot (WithTop ℚ)
  | nan => ⊥
  | inf s => if s then ⊥ else ((⊤ : WithTop ℚ) : WithBot (WithTop ℚ))
  | fin s m e => (((toRat (fin s m e) : ℚ) : WithTop ℚ) : WithBot (WithTop ℚ))

/-- Finite values of magnitude at most `2^k`. -/
def MagLe (x : F32) (k : Int) : Prop :=
  ∃ s m e, x = fin s m e ∧ (m : ℚ) * (2 : ℚ) ^ e ≤ (2 : ℚ) ^ k

/-- Values whose exponent, when they are finite, is at least the subnormal exponent `-149`:
every valid binary32 value and every result of an arithmetic operation. -/
def ExpOk (x : F32) : Prop := ∀ s m e, x = fin s m e → -149 ≤ e

/-- The negative zero, in any representation. -/
def IsNegZero (x : F32) : Prop := ∃ e, x = fin true 0 e

/-- Conversion `(float)i` of an `int`. -/
def ofInt (i : Int) : F32 := round (decide (i < 0)) i.natAbs 1 0

/-- The decimal literal `m * 10^(-k)` with suffix `f`, e.g. `0.3f` is `ofDecimal 3 1`. -/
def ofDecimal (m k : Nat) : F32 := round false m (10 ^ k) 0

end F32

/-! ## The arithmetic the program is written over -/

/-- The operations on `float` that the controller uses.  `ofInt` is the implicit or
explicit conversion of an `int`, `ofDecimal m k` the literal `m * 10^(-k)` (`0.3f` is
`ofDecimal 3 1`), `fminf` and `fmaxf` the C library functions. -/
class FloatArith (α : Type) extends Add α, Sub α, Mul α, Div α, Neg α, LT α, LE α where
  ofInt : Int → α
  ofDecimal : Nat → Nat → α
  fminf : α → α → α
  fmaxf : α → α → α
  decLt : ∀ a b : α, Decidable (a < b)
  decLe : ∀ a b : α, Decidable (a ≤ b)

/-- The C library function `sqrtf`. -/
class FloatSqrt (α : Type) where
  sqrtf : α → α

instance {α : Type} [FloatArith α] (a b : α) : Decidable (a < b) := FloatArith.decLt a b

instance {α : Type} [FloatArith α] (a b : α) : Decidable (a ≤ b) := FloatArith.decLe a b

/-- Binary32: the arithmetic of the compiled program. -/
instance : FloatArith F32 where
  add := F32.add
  sub := F32.sub
  mul := F32.mul
  div := F32.div
  neg := F32.neg
  lt a b := F32.lt a b = true
  le a b := F32.le a b = true
  ofInt := F32.ofInt
  ofDecimal := F32.ofDecimal
  fminf := F32.fminf
  fmaxf := F32.fmaxf
  decLt a b := inferInstanceAs (Decidable (F32.lt a b = true))
  decLe a b := inferInstanceAs (Decidable (F32.le a b = true))

instance : FloatSqrt F32 where
  sqrtf := F32.sqrt

/-- Exact arithmetic: the rationals, with the convention `x / 0 = 0`. -/
instance : FloatArith ℚ where
  ofInt i := (i : ℚ)
  ofDecimal m k := (m : ℚ) / 10 ^ k
  fminf := min
  fmaxf := max
  decLt _ _ := inferInstance
  decLe _ _ := inferInstance

open FloatArith FloatSqrt

/-! ## The controller -/

section Controller

variable {α : Type} [FloatArith α]

/-- Source: `static const int QUALITY_BITRATES[] = {400, 800, 1500, 3000, 6000, 12000};` -/
def QUALITY_BITRATES : List Int := [400, 800, 1500, 3000, 6000, 12000]

/-- Source: `static const int NUM_QUALITIES = 6;` -/
def NUM_QUALITIES : Int := 6

/-- The read `QUALITY_BITRATES[i]`; `none` is a read outside the array. -/
def bitrateAt (i : Int) : Option Int :=
  if 0 ≤ i then QUALITY_BITRATES[i.toNat]? else none

/-- Source: `predict_bandwidth` (EWMA with alpha = 0.3f, result scaled by 0.8f). -/
def predict_bandwidth (history : List α) : α :=
  match history with
  | [] => ofDecimal 0 1
  | h0 :: rest =>
    let alpha : α := ofDecimal 3 1
    let ewma := rest.foldl (fun ewma h => alpha * h + (ofDecimal 10 1 - alpha) * ewma) h0
    ewma * ofDecimal 8 1

/-- State of the loop of `predict_bandwidth_harmonic`: `sum_reciprocal`, `valid_count`. -/
def harmonicStep (st : α × Int) (h : α) : α × Int :=
  if ofInt 0 < h then (st.1 + ofDecimal 10 1 / h, st.2 + 1) else st

/-- Source: `predict_bandwidth_harmonic`. -/
def predict_bandwidth_harmonic (history : List α) : α :=
  if history.length < 1 then ofDecimal 0 1
  else
    let st := history.foldl harmonicStep (ofDecimal 0 1, 0)
    if st.2 = 0 then ofDecimal 0 1
    else ofInt st.2 / st.1

/-- The sums of the regression loop of `detect_bandwidth_trend`. -/
structure TrendSums (α : Type) where
  i : Int
  sum_x : α
  sum_y : α
  sum_xy : α
  sum_xx : α

/-- A 32-bit `int` result, reduced to the range `-2^31 .. 2^31 - 1`. -/
def wrapInt32 (x : Int) : Int := (x + 2 ^ 31) % 2 ^ 32 - 2 ^ 31

/-- One iteration of the regression loop: `sum_x += i; sum_y += history[i];
sum_xy += i * history[i]; sum_xx += i * i;`.  The product `i * i` is an `int` product: it
is exact up to index 46340 and wraps at 32 bits beyond, as the compiled module does (in
C++ the overflow is undefined). -/
def trendStep (st : TrendSums α) (h : α) : TrendSums α :=
  { i := st.i + 1
    sum_x := st.sum_x + ofInt st.i
    sum_y := st.sum_y + h
    sum_xy := st.sum_xy + ofInt st.i * h
    sum_xx := st.sum_xx + ofInt (wrapInt32 (st.i * st.i)) }

/-- Source: `detect_bandwidth_trend`; 1 = increasing, 0 = stable, -1 = decreasing. -/
def detect_bandwidth_trend (history : List α) : Int :=
  if history.length < 3 then 0
  else
    let st := history.foldl trendStep
      { i := 0, sum_x := ofInt 0, sum_y := ofInt 0, sum_xy := ofInt 0, sum_xx := ofInt 0 }
    let n : α := ofInt history.length
    let slope := (n * st.sum_xy - st.sum_x * st.sum_y) / (n * st.sum_xx - st.sum_x * st.sum_x)
    let avg := st.sum_y / n
    let norm_slope := slope / avg
    if ofDecimal 1 1 < norm_slope then 1
    else if norm_slope < -(ofDecimal 1 1) then -1
    else 0

/-- Source: `select_quality_level`, the scan for the highest level that fits the
bandwidth: `steps` iterations starting at index `i`. -/
def bandwidthQualityLoop (bandwidth : α) : Nat → Int → Int → Option Int
  | 0, _, bandwidth_quality => some bandwidth_quality
  | steps + 1, i, bandwidth_quality =>
    match bitrateAt i with
    | none => none
    | some rate =>
      bandwidthQualityLoop bandwidth steps (i + 1)
        (if ofInt rate ≤ bandwidth * ofDecimal 9 1 then i else bandwidth_quality)

/-- Source: `select_quality_level`. -/
def select_quality_level (bandwidth buffer_level : α) (current_quality max_quality : Int) :
    Option Int :=
  if bandwidth ≤ ofInt 0 then some 0
  else
    let actual_max : Int := if max_quality < NUM_QUALITIES then max_quality else NUM_QUALITIES - 1
    let LOW_BUFFER : α := ofDecimal 50 1
    let HIGH_BUFFER : α := ofDecimal 300 1
    let CRITICAL_BUFFER : α := ofDecimal 20 1
    if buffer_level < CRITICAL_BUFFER then some 0
    else
      match bandwidthQualityLoop bandwidth (actual_max + 1).toNat 0 0 with
      | none => none
      | some bandwidth_quality =>
        let target : Option Int :=
          if buffer_level < LOW_BUFFER then
            let t : Int := if 0 < current_quality then current_quality - 1 else 0
            some (if t < bandwidth_quality then t else bandwidth_quality)
          else if HIGH_BUFFER < buffer_level then
            let t : Int := if current_quality < actual_max then current_quality + 1
              else current_quality
            some (if t ≤ bandwidth_quality then t else bandwidth_quality)
          else if current_quality < bandwidth_quality then
            -- the right operand of `&&` is evaluated only here
            match bitrateAt (current_quality + 1) with
            | none => none
            | some next =>
              if ofInt next * ofDecimal 12 1 < bandwidth then some (current_quality + 1)
              else if bandwidth_quality < current_quality then some bandwidth_quality
              else some current_quality
          else if bandwidth_quality < current_quality then some bandwidth_quality
          else some current_quality
        match target with
        | none => none
        | some target_quality =>
          let t1 : Int := if target_quality < 0 then 0 else target_quality
          some (if actual_max < t1 then actual_max else t1)

/-- Source: `select_quality_stable`, the count of the entries among the last five of the
switch history that differ from `current_quality`.  The source loop starts at
`history_length - 5` and stops as soon as `i >= 0` fails, so a history of fewer than
five entries is not scanned at all. -/
def recentSwitches (switch_history : List Int) (current_quality : Int) : Int :=
  if 0 < switch_history.length then
    if (switch_history.length : Int) - 5 < 0 then 0
    else ((switch_history.drop (switch_history.length - 5)).filter
      (fun x => x ≠ current_quality)).length
  else 0

/-- Source: `select_quality_stable`. -/
def select_quality_stable (bandwidth buffer_level : α) (current_quality max_quality : Int)
    (switch_history : List Int) : Option Int :=
  match select_quality_level bandwidth buffer_level current_quality max_quality with
  | none => none
  | some recommended =>
    let recent_switches := recentSwitches switch_history current_quality
    if 3 ≤ recent_switches ∧ (recommended - current_quality).natAbs = 1 then some current_quality
    else some recommended

/-- Source: `calculate_buffer_health`. -/
def calculate_buffer_health (buffer_seconds segment_duration : α) : α :=
  if segment_duration ≤ ofInt 0 then ofDecimal 0 1
  else
    let target_buffer := segment_duration * ofDecimal 50 1
    if buffer_seconds ≤ ofInt 0 then ofDecimal 0 1
    else if target_buffer ≤ buffer_seconds then ofDecimal 10 1
    else buffer_seconds / target_buffer

/-- Source: `calculate_rebuffer_probability`. -/
def calculate_rebuffer_probability (buffer_seconds download_time segment_duration : α) : α :=
  if buffer_seconds ≤ ofInt 0 then ofDecimal 10 1
  else if download_time ≤ ofInt 0 then ofDecimal 0 1
  else
    let download_rate := download_time / segment_duration
    if ofDecimal 10 1 ≤ download_rate then ofDecimal 10 1
    else
      let time_to_rebuffer := buffer_seconds / (ofDecimal 10 1 - download_rate)
      if ofDecimal 300 1 < time_to_rebuffer then ofDecimal 0 1
      else if time_to_rebuffer < ofDecimal 50 1 then ofDecimal 9 1
      else ofDecimal 10 1 - time_to_rebuffer / ofDecimal 300 1

/-- Source: `estimate_qoe`. -/
def estimate_qoe (quality_level : Int) (rebuffer_probability switch_penalty : α) : α :=
  if quality_level < 0 ∨ NUM_QUALITIES ≤ quality_level then ofDecimal 0 1
  else
    let quality_score : α := ofInt quality_level / ofInt (NUM_QUALITIES - 1)
    let rebuffer_cost := rebuffer_probability * ofDecimal 5 1
    let switch_cost := switch_penalty * ofDecimal 1 1
    let qoe := quality_score - rebuffer_cost - switch_cost
    fmaxf (ofDecimal 0 1) (fminf (ofDecimal 10 1) qoe)

/-- The value `qoe` computed in the body of the loop of `select_quality_maximize_qoe` for
the candidate whose ladder bitrate is `rate`. -/
def candidateQoe (bandwidth buffer_seconds segment_duration : α) (current_quality : Int)
    (q rate : Int) : α :=
  let download_time := (ofInt rate * segment_duration) / bandwidth
  let rebuffer_prob := calculate_rebuffer_probability buffer_seconds download_time segment_duration
  let switch_penalty : α := if q ≠ current_quality then ofDecimal 10 1 else ofDecimal 0 1
  estimate_qoe q rebuffer_prob switch_penalty

/-- The ladder bitrate of level `q` (`0` for a level outside the ladder). -/
def ladderRate (q : Int) : Int := (bitrateAt q).getD 0

/-- The utility of candidate level `q`:
`estimate_qoe(q, calculate_rebuffer_probability(buffer, bitrate(q) * segDur / bandwidth,
segDur), q != current ? 1 : 0)`. -/
def utility (bandwidth buffer_seconds segment_duration : α) (current_quality q : Int) : α :=
  estimate_qoe q
    (calculate_rebuffer_probability buffer_seconds
      ((ofInt (ladderRate q) * segment_duration) / bandwidth) segment_duration)
    (if q ≠ current_quality then ofDecimal 10 1 else ofDecimal 0 1)

/-- Source: `select_quality_maximize_qoe`, the loop: `steps` iterations starting at
candidate `q`, on the state `(best_quality, best_qoe)`. -/
def maximizeLoop (bandwidth buffer_seconds segment_duration : α) (current_quality : Int) :
    Nat → Int → Int × α → Option (Int × α)
  | 0, _, st => some st
  | steps + 1, q, st =>
    match bitrateAt q with
    | none => none
    | some rate =>
      let qoe := candidateQoe bandwidth buffer_seconds segment_duration current_quality q rate
      maximizeLoop bandwidth buffer_seconds segment_duration current_quality steps (q + 1)
        (if st.2 < qoe then (q, qoe) else st)

/-- Source: `select_quality_maximize_qoe`. -/
def select_quality_maximize_qoe (bandwidth buffer_seconds segment_duration : α)
    (current_quality max_quality : Int) : Option Int :=
  let actual_max : Int := if max_quality < NUM_QUALITIES then max_quality else NUM_QUALITIES - 1
  match maximizeLoop bandwidth buffer_seconds segment_duration current_quality
      (actual_max + 1).toNat 0 (0, -(ofDecimal 10 1)) with
  | none => none
  | some st => some st.1

/-- Source: `calculate_bandwidth_variance`. -/
def calculate_bandwidth_variance (history : List α) : α :=
  if history.length < 2 then ofDecimal 0 1
  else
    let total := history.foldl (fun mean h => mean + h) (ofDecimal 0 1)
    let mean := total / ofInt history.length
    let variance := history.foldl (fun variance h => variance + (h - mean) * (h - mean))
      (ofDecimal 0 1)
    variance / ofInt ((history.length : Int) - 1)

/-- The four floats written by `get_comprehensive_recommendation`:
`[quality_level, confidence, rebuffer_risk, estimated_qoe]`. -/
structure Recommendation (α : Type) where
  quality : α
  confidence : α
  rebuffer_risk : α
  qoe : α

/-- The bandwidth that `get_comprehensive_recommendation` works with: the prediction,
scaled by 0.85f when the trend is -1 and by 1.1f when it is 1. -/
def adjusted_bandwidth (history : List α) : α :=
  let predicted_bw := predict_bandwidth history
  let trend := detect_bandwidth_trend history
  let predicted_bw := if trend = -1 then predicted_bw * ofDecimal 85 2 else predicted_bw
  if trend = 1 then predicted_bw * ofDecimal 11 1 else predicted_bw

/-- Source: `get_comprehensive_recommendation` (the allocation of the result buffer is
taken to succeed). -/
def get_comprehensive_recommendation [FloatSqrt α] (bandwidth_history : List α)
    (buffer_seconds segment_duration : α) (current_quality max_quality : Int) :
    Option (Recommendation α) :=
  let predicted_bw := adjusted_bandwidth bandwidth_history
  let bw_variance := calculate_bandwidth_variance bandwidth_history
  let avg_bw := predicted_bw
  let confidence := ofDecimal 10 1 - fminf (sqrtf bw_variance / avg_bw) (ofDecimal 10 1)
  match select_quality_maximize_qoe predicted_bw buffer_seconds segment_duration
      current_quality max_quality with
  | none => none
  | some quality =>
    match bitrateAt quality with
    | none => none
    | some rate =>
      let download_time := (ofInt rate * segment_duration) / predicted_bw
      let rebuffer_risk :=
        calculate_rebuffer_probability buffer_seconds download_time segment_duration
      let qoe := estimate_qoe quality rebuffer_risk
        (if quality ≠ current_quality then ofDecimal 10 1 else ofDecimal 0 1)
      some { quality := ofInt quality, confidence := confidence,
             rebuffer_risk := rebuffer_risk, qoe := qoe }

/-- Spec, 4.3: the bandwidth-affordable level, the highest ladder index `i ≤ max_quality`
whose bitrate is at most 0.9 x bandwidth, and 0 when there is none.  Written after the
spec's words as a scan from the top of the range downwards: `affordableFrom bandwidth n`
is the highest such index among `1 .. n`, and 0 when there is none. -/
def affordableFrom (bandwidth : α) : Nat → Int
  | 0 => 0
  | n + 1 =>
    if ofInt (ladderRate ((n : Int) + 1)) ≤ bandwidth * ofDecimal 9 1 then (n : Int) + 1
    else affordableFrom bandwidth n

/-- Spec, 4.3: the bandwidth-affordable level for `max_quality`. -/
def affordable_level (bandwidth : α) (max_quality : Int) : Int :=
  affordableFrom bandwidth max_quality.toNat

/-- Spec, 4.1: the EWMA estimates of a history `h`, `e_0 = h[0]` and
`e_i = 0.3 * h[i] + 0.7 * e_(i-1)`. -/
def ewma_spec (h : List α) : Nat → α
  | 0 => h.getD 0 (ofDecimal 0 1)
  | i + 1 => ofDecimal 3 1 * h.getD (i + 1) (ofDecimal 0 1) + ofDecimal 7 1 * ewma_spec h i

/-- Spec, 4.1: the harmonic mean over the strictly positive samples, their number `k`
divided by the sum of their reciprocals taken in history order, and 0 when there is no
such sample. -/
def harmonic_mean_spec (history : List α) : α :=
  let positive := history.filter (fun x => decide (ofInt 0 < x))
  let k := positive.length
  if k = 0 then ofDecimal 0 1
  else ofInt k / (positive.map (fun x => ofDecimal 10 1 / x)).foldl (fun s y => s + y)
    (ofDecimal 0 1)

/-- Spec, 4.2: the sample variance of a history of `n >= 2` samples, the sum over the
samples, in history order, of the squared distance to the mean, divided by `n - 1`; 0 for
a shorter history. -/
def sample_variance_spec (history : List α) : α :=
  if history.length < 2 then ofDecimal 0 1
  else
    let mean := history.foldl (fun s y => s + y) (ofDecimal 0 1) / ofInt history.length
    (history.map (fun h => (h - mean) * (h - mean))).foldl (fun s y => s + y) (ofDecimal 0 1)
      / ofInt ((history.length : Int) - 1)

/-- Spec, 4.4: the utility `clamp01 (level / (levels - 1) - 0.5 * rebufferProb -
0.1 * switchPenalty)` with `clamp01 x = min (1, max (0, x))` and six levels. -/
def qoe_spec (level : Int) (rebufferProb switchPenalty : α) : α :=
  fminf (ofInt 1) (fmaxf (ofInt 0)
    (ofInt level / ofInt 5 - ofDecimal 5 1 * rebufferProb - ofDecimal 1 1 * switchPenalty))

end Controller

/-- Spec, 4.1: the arithmetic mean of the samples. -/
def mean_spec (h : List ℚ) : ℚ := h.sum / h.length

/-- Spec, 4.1: the ordinary least-squares slope of value against index `0 .. n-1`, the
covariance of index and value over the variance of the index. -/
def ols_slope_spec (h : List ℚ) : ℚ :=
  let n := h.length
  let xbar : ℚ := Finset.sum (Finset.range n) (fun i => (i : ℚ)) / n
  let ybar : ℚ := mean_spec h
  Finset.sum (Finset.range n) (fun i => ((i : ℚ) - xbar) * (h.getD i 0 - ybar)) /
    Finset.sum (Finset.range n) (fun i => ((i : ℚ) - xbar) ^ 2)

/-- Spec, 4.1: rising (1) if the slope normalised by the mean exceeds 0.1, falling (-1) if it
is below -0.1, else stable (0); stable with fewer than 3 samples. -/
def trend_spec (h : List ℚ) : Int :=
  if h.length < 3 then 0
  else if ols_slope_spec h / mean_spec h > 1 / 10 then 1
  else if ols_slope_spec h / mean_spec h < -(1 / 10) then -1
  else 0

/-- Invariant of the loop of `select_quality_maximize_qoe` before candidate `q` is
examined: the state holds the lowest-indexed maximiser of the utility over the candidates
`0 .. q-1`. -/
def BestSoFar (bandwidth buffer_seconds segment_duration : F32) (cur : Int) (st : Int × F32)
    (q : Int) : Prop :=
  0 ≤ st.1 ∧ st.1 < q ∧ st.2 = utility bandwidth buffer_seconds segment_duration cur st.1 ∧
  (∀ j, 0 ≤ j → j < q →
    F32.lt st.2 (utility bandwidth buffer_seconds segment_duration cur j) = false) ∧
  (∀ j, 0 ≤ j → j < st.1 →
    F32.lt (utility bandwidth buffer_seconds segment_duration cur j) st.2 = true)

set_option maxRecDepth 100000

/-! ## Binary32: rounding, order and sign lemmas -/

namespace F32

theorem lt_def (a b : F32) : (a < b) = (F32.lt a b = true) := rfl

theorem le_def (a b : F32) : (a ≤ b) = (F32.le a b = true) := rfl

theorem fminf_def (a b : F32) : FloatArith.fminf a b = F32.fminf a b := rfl

theorem sqrtf_def (a : F32) : FloatSqrt.sqrtf a = F32.sqrt a := rfl

theorem log2Aux_spec : ∀ (fuel n : Nat), n ≤ fuel → 0 < n →
    2 ^ log2Aux fuel n ≤ n ∧ n < 2 ^ (log2Aux fuel n + 1) := by
  intro fuel
  induction fuel with
  | zero => intro n h1 h2; omega
  | succ f ih =>
    intro n h1 h2
    unfold log2Aux
    by_cases h : n < 2
    · simp only [h, if_true]
      constructor <;> simp <;> omega
    · simp only [h, if_false]
      have h3 := ih (n / 2) (by omega) (by omega)
      obtain ⟨h4, h5⟩ := h3
      rw [pow_succ, pow_succ]
      rw [pow_succ] at h5
      constructor <;> omega

theorem ilog2_le (n : Nat) (h : 0 < n) : 2 ^ ilog2 n ≤ n :=
  (log2Aux_spec n n (le_refl n) h).1

theorem lt_ilog2 (n : Nat) (h : 0 < n) : n < 2 ^ (ilog2 n + 1) :=
  (log2Aux_spec n n (le_refl n) h).2

theorem ratioLog2_spec (n d : Nat) (hn : 0 < n) (hd : 0 < d) :
    (2 : ℚ) ^ ratioLog2 n d ≤ (n : ℚ) / d ∧ (n : ℚ) / d < (2 : ℚ) ^ (ratioLog2 n d + 1) := by
  have hA1 : ((2 : ℚ) ^ ilog2 n) ≤ n := by exact_mod_cast ilog2_le n hn
  have hA2 : (n : ℚ) < 2 * (2 : ℚ) ^ ilog2 n := by
    have := lt_ilog2 n hn
    rw [pow_succ] at this
    have h2 : ((n : ℕ) : ℚ) < ((2 ^ ilog2 n * 2 : ℕ) : ℚ) := by exact_mod_cast this
    push_cast at h2; linarith
  have hB1 : ((2 : ℚ) ^ ilog2 d) ≤ d := by exact_mod_cast ilog2_le d hd
  have hB2 : (d : ℚ) < 2 * (2 : ℚ) ^ ilog2 d := by
    have := lt_ilog2 d hd
    rw [pow_succ] at this
    have h2 : ((d : ℕ) : ℚ) < ((2 ^ ilog2 d * 2 : ℕ) : ℚ) := by exact_mod_cast this
    push_cast at h2; linarith
  have hApos : (0 : ℚ) < (2 : ℚ) ^ ilog2 n := by positivity
  have hBpos : (0 : ℚ) < (2 : ℚ) ^ ilog2 d := by positivity
  have hdq : (0 : ℚ) < d := by exact_mod_cast hd
  have hnq : (0 : ℚ) < n := by exact_mod_cast hn
  generalize hA : (2 : ℚ) ^ ilog2 n = A at *
  generalize hB : (2 : ℚ) ^ ilog2 d = B at *
  have hk : ∀ j : ℤ, (2 : ℚ) ^ ((ilog2 n : ℤ) - (ilog2 d : ℤ) + j) = A / B * 2 ^ j := by
    intro j
    rw [zpow_add₀ (by norm_num), zpow_sub₀ (by norm_num), zpow_natCast, zpow_natCast, hA, hB]
  have hk0 := hk 0
  have hk1 := hk 1
  have hkm := hk (-1)
  have hk2 := hk (-1 + 1)
  simp only [add_zero, zpow_zero, mul_one, zpow_one, neg_add_cancel] at hk0 hk1 hkm hk2
  have hm1 : (2 : ℚ) ^ (-1 : ℤ) = 1 / 2 := by norm_num
  rw [hm1] at hkm
  unfold ratioLog2
  simp only []
  by_cases h0 : 0 ≤ (ilog2 n : ℤ) - (ilog2 d : ℤ)
  · simp only [h0, if_true]
    have hc : ((2 ^ ((ilog2 n : ℤ) - (ilog2 d : ℤ)).toNat : ℕ) : ℚ) = A / B := by
      rw [← hk0]
      push_cast
      rw [← zpow_natCast, Int.toNat_of_nonneg h0]
    by_cases hT : d * 2 ^ ((ilog2 n : ℤ) - (ilog2 d : ℤ)).toNat ≤ n
    · simp only [hT, if_true]
      have hT2 : ((d * 2 ^ ((ilog2 n : ℤ) - (ilog2 d : ℤ)).toNat : ℕ) : ℚ) ≤ (n : ℚ) := by
        exact_mod_cast hT
      rw [Nat.cast_mul, hc] at hT2
      rw [hk0, hk1]
      constructor
      · rw [le_div_iff₀ hdq]; linarith
      · rw [div_lt_iff₀ hdq, div_mul_eq_mul_div, div_mul_eq_mul_div, lt_div_iff₀ hBpos]
        nlinarith
    · simp only [hT, if_false]
      have hT2 : (n : ℚ) < ((d * 2 ^ ((ilog2 n : ℤ) - (ilog2 d : ℤ)).toNat : ℕ) : ℚ) := by
        exact_mod_cast (not_le.mp hT)
      rw [Nat.cast_mul, hc] at hT2
      have e1 : (ilog2 n : ℤ) - (ilog2 d : ℤ) - 1 = (ilog2 n : ℤ) - (ilog2 d : ℤ) + (-1) := by ring
      have e2 : (ilog2 n : ℤ) - (ilog2 d : ℤ) - 1 + 1 = (ilog2 n : ℤ) - (ilog2 d : ℤ) := by ring
      rw [e2, e1, hkm, hk0]
      constructor
      · rw [le_div_iff₀ hdq, div_mul_eq_mul_div, div_mul_eq_mul_div, div_le_iff₀ hBpos]
        nlinarith
      · rw [div_lt_iff₀ hdq]; linarith
  · simp only [h0, if_false]
    have h0' : 0 ≤ -((ilog2 n : ℤ) - (ilog2 d : ℤ)) := by omega
    have hc : ((2 ^ (-((ilog2 n : ℤ) - (ilog2 d : ℤ))).toNat : ℕ) : ℚ) = B / A := by
      have : (2 : ℚ) ^ (-((ilog2 n : ℤ) - (ilog2 d : ℤ))) = B / A := by
        rw [zpow_neg, hk0, inv_div]
      rw [← this]
      push_cast
      rw [← zpow_natCast, Int.toNat_of_nonneg h0']
    by_cases hT : d ≤ n * 2 ^ (-((ilog2 n : ℤ) - (ilog2 d : ℤ))).toNat
    · simp only [hT, if_true]
      have hT2 : (d : ℚ) ≤ ((n * 2 ^ (-((ilog2 n : ℤ) - (ilog2 d : ℤ))).toNat : ℕ) : ℚ) := by
        exact_mod_cast hT
      rw [Nat.cast_mul, hc, ← mul_div_assoc, le_div_iff₀ hApos] at hT2
      rw [hk0, hk1]
      constructor
      · rw [div_le_div_iff₀ hBpos hdq]; linarith
      · rw [div_lt_iff₀ hdq, div_mul_eq_mul_div, div_mul_eq_mul_div, lt_div_iff₀ hBpos]
        nlinarith
    · simp only [hT, if_false]
      have hT2 : ((n * 2 ^ (-((ilog2 n : ℤ) - (ilog2 d : ℤ))).toNat : ℕ) : ℚ) < (d : ℚ) := by
        exact_mod_cast (not_le.mp hT)
      rw [Nat.cast_mul, hc, ← mul_div_assoc, div_lt_iff₀ hApos] at hT2
      have e1 : (ilog2 n : ℤ) - (ilog2 d : ℤ) - 1 = (ilog2 n : ℤ) - (ilog2 d : ℤ) + (-1) := by ring
      have e2 : (ilog2 n : ℤ) - (ilog2 d : ℤ) - 1 + 1 = (ilog2 n : ℤ) - (ilog2 d : ℤ) := by ring
      rw [e2, e1, hkm, hk0]
      constructor
      · rw [le_div_iff₀ hdq, div_mul_eq_mul_div, div_mul_eq_mul_div, div_le_iff₀ hBpos]
        nlinarith
      · rw [div_lt_div_iff₀ hdq hBpos]; linarith

theorem roundDiv_spec (num den : Nat) (hd : 0 < den) :
    (roundDiv num den : ℚ) ≤ (num : ℚ) / den + 1 / 2 ∧
    (num : ℚ) / den ≤ (roundDiv num den : ℚ) + 1 / 2 := by
  have hdq : (0 : ℚ) < den := by exact_mod_cast hd
  have h1 : ((den * (num / den) + num % den : ℕ) : ℚ) = num := by
    exact_mod_cast congrArg (Nat.cast : ℕ → ℚ) (Nat.div_add_mod num den)
  push_cast at h1
  have h2 : ((num % den : ℕ) : ℚ) < den := by exact_mod_cast Nat.mod_lt num hd
  have h3 : (0 : ℚ) ≤ ((num % den : ℕ) : ℚ) := by positivity
  have key : (num : ℚ) / den = ((num / den : ℕ) : ℚ) + ((num % den : ℕ) : ℚ) / den := by
    field_simp
    linarith
  unfold roundDiv
  simp only []
  split_ifs with h
  · have h4 : (den : ℚ) ≤ 2 * ((num % den : ℕ) : ℚ) := by
      rcases h with h | ⟨h, _⟩
      · exact_mod_cast le_of_lt h
      · exact_mod_cast le_of_eq h.symm
    rw [key]
    push_cast
    constructor
    · have : (1 : ℚ) / 2 ≤ ((num % den : ℕ) : ℚ) / den := by
        rw [le_div_iff₀ hdq]; linarith
      linarith
    · have : ((num % den : ℕ) : ℚ) / den ≤ 1 := by
        rw [div_le_iff₀ hdq]; linarith
      linarith
  · have h4 : 2 * ((num % den : ℕ) : ℚ) ≤ (den : ℚ) := by
      have : ¬ den < 2 * (num % den) := fun hh => h (Or.inl hh)
      exact_mod_cast not_lt.mp this
    rw [key]
    constructor
    · have : (0 : ℚ) ≤ ((num % den : ℕ) : ℚ) / den := by positivity
      linarith
    · have : ((num % den : ℕ) : ℚ) / den ≤ 1 / 2 := by
        rw [div_le_iff₀ hdq]; linarith
      linarith

theorem mantissa_spec (n d : Nat) (s : Int) (hd : 0 < d) :
    (mantissa n d s : ℚ) ≤ (n : ℚ) / d * 2 ^ s + 1 / 2 ∧
    (n : ℚ) / d * 2 ^ s ≤ (mantissa n d s : ℚ) + 1 / 2 := by
  unfold mantissa
  split_ifs with h
  · have := roundDiv_spec (n * 2 ^ s.toNat) d hd
    have e : ((n * 2 ^ s.toNat : ℕ) : ℚ) / d = (n : ℚ) / d * 2 ^ s := by
      push_cast
      rw [← zpow_natCast, Int.toNat_of_nonneg h]
      ring
    rw [e] at this
    exact this
  · have h' : 0 ≤ -s := by omega
    have := roundDiv_spec n (d * 2 ^ (-s).toNat) (by positivity)
    have e : (n : ℚ) / ((d * 2 ^ (-s).toNat : ℕ) : ℚ) = (n : ℚ) / d * 2 ^ s := by
      push_cast
      rw [← zpow_natCast, Int.toNat_of_nonneg h', zpow_neg]
      field_simp
    rw [e] at this
    exact this

theorem scaled_cast (s : Bool) (m : Nat) (e k : Int) (h : k ≤ e) :
    ((scaled s m e k : ℤ) : ℚ) = toRat (fin s m e) * (2 : ℚ) ^ (-k) := by
  have h' : 0 ≤ e - k := by omega
  have e1 : ((2 ^ (e - k).toNat : ℕ) : ℚ) = (2 : ℚ) ^ e * (2 : ℚ) ^ (-k) := by
    push_cast
    rw [← zpow_natCast, Int.toNat_of_nonneg h', ← zpow_add₀ (by norm_num)]
    congr 1
  unfold scaled toRat
  cases s <;> simp only [if_true, if_false] <;> push_cast <;> push_cast at e1 <;> rw [e1] <;> ring

theorem lt_fin_iff (s1 : Bool) (m1 : Nat) (e1 : Int) (s2 : Bool) (m2 : Nat) (e2 : Int) :
    lt (fin s1 m1 e1) (fin s2 m2 e2) = true ↔ toRat (fin s1 m1 e1) < toRat (fin s2 m2 e2) := by
  have hpos : (0 : ℚ) < (2 : ℚ) ^ (-(min e1 e2)) := by positivity
  unfold lt
  simp only [decide_eq_true_eq]
  rw [← @Int.cast_lt ℚ, scaled_cast _ _ _ _ (min_le_left e1 e2),
    scaled_cast _ _ _ _ (min_le_right e1 e2)]
  exact mul_lt_mul_right hpos

theorem le_fin_iff (s1 : Bool) (m1 : Nat) (e1 : Int) (s2 : Bool) (m2 : Nat) (e2 : Int) :
    le (fin s1 m1 e1) (fin s2 m2 e2) = true ↔ toRat (fin s1 m1 e1) ≤ toRat (fin s2 m2 e2) := by
  have hpos : (0 : ℚ) < (2 : ℚ) ^ (-(min e1 e2)) := by positivity
  unfold le
  simp only [decide_eq_true_eq]
  rw [← @Int.cast_le ℚ, scaled_cast _ _ _ _ (min_le_left e1 e2),
    scaled_cast _ _ _ _ (min_le_right e1 e2)]
  exact mul_le_mul_right hpos

theorem lt_iff_key (a b : F32) :
    lt a b = true ↔ a.isNaN = false ∧ b.isNaN = false ∧ key a < key b := by
  cases a with
  | nan => simp [lt, isNaN]
  | inf s =>
    cases b with
    | nan => simp [lt, isNaN]
    | inf t => cases s <;> cases t <;> simp [lt, isNaN, key]
    | fin t m e => cases s <;> simp [lt, isNaN, key, WithBot.bot_lt_coe]
  | fin s m e =>
    cases b with
    | nan => simp [lt, isNaN]
    | inf t =>
      cases t
      · simp only [lt, isNaN, key, Bool.not_false, true_and, if_false, Bool.false_eq_true]
        simp only [WithBot.coe_lt_coe, WithTop.coe_lt_top]
      · simp [lt, isNaN, key]
    | fin t m2 e2 =>
      rw [lt_fin_iff]
      simp only [isNaN, key, true_and, WithBot.coe_lt_coe, WithTop.coe_lt_coe]

theorem le_iff_key (a b : F32) :
    le a b = true ↔ a.isNaN = false ∧ b.isNaN = false ∧ key a ≤ key b := by
  cases a with
  | nan => simp [le, isNaN]
  | inf s =>
    cases b with
    | nan => simp [le, isNaN]
    | inf t => cases s <;> cases t <;> simp [le, isNaN, key]
    | fin t m e => cases s <;> simp [le, isNaN, key]
  | fin s m e =>
    cases b with
    | nan => simp [le, isNaN]
    | inf t =>
      cases t
      · simp only [le, isNaN, key, Bool.not_false, true_and, if_false, Bool.false_eq_true]
        simp only [WithBot.coe_le_coe, le_top]
      · simp [le, isNaN, key]
    | fin t m2 e2 =>
      rw [le_fin_iff]
      simp only [isNaN, key, true_and, WithBot.coe_le_coe, WithTop.coe_le_coe]

theorem roundExp_ge (n d : Nat) (e : Int) : -149 ≤ roundExp n d e := by
  unfold roundExp; exact le_max_right _ _

theorem round_form (neg : Bool) (n d : Nat) (e : Int) :
    round neg n d e = inf neg ∨ ∃ m t, round neg n d e = fin neg m t ∧ -149 ≤ t := by
  have ht := roundExp_ge n d e
  unfold round pack
  split_ifs
  · exact Or.inr ⟨0, -149, rfl, le_refl _⟩
  · exact Or.inl rfl
  · exact Or.inr ⟨2 ^ 23, _, rfl, by omega⟩
  · exact Or.inl rfl
  · exact Or.inr ⟨_, _, rfl, ht⟩

/-- The exact value lies at or above `2^t` for the rounding exponent `t`, as soon as it lies
at or above the least subnormal. -/
theorem two_pow_roundExp_le (n d : Nat) (e : Int) (hn : 0 < n) (hd : 0 < d)
    (hx : (2 : ℚ) ^ (-149 : ℤ) ≤ (n : ℚ) / d * 2 ^ e) :
    (2 : ℚ) ^ roundExp n d e ≤ (n : ℚ) / d * 2 ^ e := by
  have h1 := (ratioLog2_spec n d hn hd).1
  have hpe : (0 : ℚ) < (2 : ℚ) ^ e := by positivity
  unfold roundExp
  rcases max_cases (ratioLog2 n d + e - 23) (-149) with ⟨h, _⟩ | ⟨h, _⟩
  · rw [h]
    calc (2 : ℚ) ^ (ratioLog2 n d + e - 23) ≤ (2 : ℚ) ^ (ratioLog2 n d + e) :=
          zpow_le_zpow_right₀ (by norm_num) (by omega)
      _ = (2 : ℚ) ^ ratioLog2 n d * 2 ^ e := zpow_add₀ (by norm_num) _ _
      _ ≤ (n : ℚ) / d * 2 ^ e := mul_le_mul_of_nonneg_right h1 hpe.le
  · rw [h]; exact hx

theorem round_pos (neg : Bool) (n d : Nat) (e : Int) (hd : 0 < d)
    (hx : (2 : ℚ) ^ (-149 : ℤ) ≤ (n : ℚ) / d * 2 ^ e) :
    round neg n d e = inf neg ∨ ∃ m t, round neg n d e = fin neg m t ∧ 1 ≤ m ∧ -149 ≤ t := by
  have hn : 0 < n := by
    rcases Nat.eq_zero_or_pos n with h | h
    · exfalso
      rw [h] at hx
      simp at hx
      have : (0 : ℚ) < (2 : ℚ) ^ (149 : ℕ) := by positivity
      have h2 : ((2 : ℚ) ^ (149 : ℕ))⁻¹ > 0 := by positivity
      linarith
    · exact h
  have ht := roundExp_ge n d e
  have h1 := two_pow_roundExp_le n d e hn hd hx
  have h2 := (mantissa_spec n d (e - roundExp n d e) hd).2
  have hy : (1 : ℚ) ≤ (n : ℚ) / d * 2 ^ (e - roundExp n d e) := by
    rw [zpow_sub₀ (by norm_num), ← mul_div_assoc, le_div_iff₀ (by positivity)]
    linarith
  have hm : 1 ≤ mantissa n d (e - roundExp n d e) := by
    have : (0 : ℚ) < (mantissa n d (e - roundExp n d e) : ℚ) := by linarith
    exact_mod_cast this
  unfold round pack
  rw [if_neg (by omega)]
  split_ifs
  · exact Or.inl rfl
  · exact Or.inr ⟨2 ^ 23, _, rfl, by norm_num, by omega⟩
  · exact Or.inl rfl
  · exact Or.inr ⟨_, _, rfl, hm, ht⟩

theorem round_le_pow (neg : Bool) (n d : Nat) (e k : Int) (hd : 0 < d)
    (hx : (n : ℚ) / d * 2 ^ e ≤ (2 : ℚ) ^ k) (hk1 : -149 ≤ k) (hk2 : k ≤ 127) :
    ∃ m t, round neg n d e = fin neg m t ∧ -149 ≤ t ∧ (m : ℚ) * 2 ^ t ≤ (2 : ℚ) ^ k := by
  rcases Nat.eq_zero_or_pos n with hn | hn
  · refine ⟨0, -149, ?_, le_refl _, ?_⟩
    · unfold round; rw [if_pos hn]
    · simp; positivity
  have ht := roundExp_ge n d e
  have h1 := (ratioLog2_spec n d hn hd).1
  have hpe : (0 : ℚ) < (2 : ℚ) ^ e := by positivity
  -- the exponent of the exact value is at most k
  have hE : ratioLog2 n d + e ≤ k := by
    have : (2 : ℚ) ^ (ratioLog2 n d + e) ≤ (2 : ℚ) ^ k := by
      calc (2 : ℚ) ^ (ratioLog2 n d + e) = (2 : ℚ) ^ ratioLog2 n d * 2 ^ e :=
            zpow_add₀ (by norm_num) _ _
        _ ≤ (n : ℚ) / d * 2 ^ e := mul_le_mul_of_nonneg_right h1 hpe.le
        _ ≤ _ := hx
    exact (zpow_le_zpow_iff_right₀ (by norm_num)).mp this
  have htk : roundExp n d e ≤ k - 23 ∨ roundExp n d e = -149 := by
    unfold roundExp
    rcases max_cases (ratioLog2 n d + e - 23) (-149) with ⟨h, _⟩ | ⟨h, _⟩
    · left; omega
    · right; exact h
  have htk2 : roundExp n d e ≤ k := by omega
  unfold round pack
  rw [if_neg (by omega)]
  generalize roundExp n d e = t at *
  have h2 := (mantissa_spec n d (e - t) hd).1
  -- the scaled value is at most the integer 2^(k - t)
  have hP : ((2 ^ (k - t).toNat : ℕ) : ℚ) = (2 : ℚ) ^ k * (2 : ℚ) ^ (-t) := by
    push_cast
    rw [← zpow_natCast, Int.toNat_of_nonneg (by omega), ← zpow_add₀ (by norm_num)]
    congr 1
  have hy : (n : ℚ) / d * 2 ^ (e - t) ≤ ((2 ^ (k - t).toNat : ℕ) : ℚ) := by
    rw [hP, sub_eq_add_neg, zpow_add₀ (by norm_num), ← mul_assoc]
    exact mul_le_mul_of_nonneg_right hx (by positivity)
  have hm : mantissa n d (e - t) ≤ 2 ^ (k - t).toNat := by
    have : (mantissa n d (e - t) : ℚ) < ((2 ^ (k - t).toNat + 1 : ℕ) : ℚ) := by
      push_cast; push_cast at hy; linarith
    have := Nat.cast_lt.mp this
    omega
  have hmq : (mantissa n d (e - t) : ℚ) * 2 ^ t ≤ (2 : ℚ) ^ k := by
    have : (mantissa n d (e - t) : ℚ) ≤ ((2 ^ (k - t).toNat : ℕ) : ℚ) := by exact_mod_cast hm
    rw [hP] at this
    calc (mantissa n d (e - t) : ℚ) * 2 ^ t ≤ (2 : ℚ) ^ k * (2 : ℚ) ^ (-t) * 2 ^ t :=
          mul_le_mul_of_nonneg_right this (by positivity)
      _ = (2 : ℚ) ^ k := by
          rw [mul_assoc, ← zpow_add₀ (by norm_num)]; simp
  by_cases h24 : mantissa n d (e - t) = 2 ^ 24
  · rw [if_pos h24]
    rw [h24] at hmq
    have h3 : t + 24 ≤ k := by
      have : (2 : ℚ) ^ (t + 24) ≤ (2 : ℚ) ^ k := by
        rw [zpow_add₀ (by norm_num), mul_comm]
        have e24 : (2 : ℚ) ^ (24 : ℤ) = ((2 ^ 24 : ℕ) : ℚ) := by norm_num
        rw [e24]; exact hmq
      exact (zpow_le_zpow_iff_right₀ (by norm_num)).mp this
    rw [if_neg (by omega)]
    refine ⟨2 ^ 23, t + 1, rfl, by omega, ?_⟩
    have e1 : ((2 ^ 23 : ℕ) : ℚ) * (2 : ℚ) ^ (t + 1) = ((2 ^ 24 : ℕ) : ℚ) * 2 ^ t := by
      rw [zpow_add₀ (by norm_num)]; push_cast; ring
    rw [e1]; exact hmq
  · rw [if_neg h24, if_neg (by omega)]
    exact ⟨_, t, rfl, ht, hmq⟩

theorem flt_notNaN {a b : F32} (h : lt a b = true) : a.isNaN = false ∧ b.isNaN = false :=
  ⟨((lt_iff_key a b).mp h).1, ((lt_iff_key a b).mp h).2.1⟩

theorem fle_notNaN {a b : F32} (h : le a b = true) : a.isNaN = false ∧ b.isNaN = false :=
  ⟨((le_iff_key a b).mp h).1, ((le_iff_key a b).mp h).2.1⟩

theorem fle_of_flt {a b : F32} (h : lt a b = true) : le a b = true := by
  obtain ⟨h1, h2, h3⟩ := (lt_iff_key a b).mp h
  exact (le_iff_key a b).mpr ⟨h1, h2, h3.le⟩

theorem fle_of_not_flt {a b : F32} (ha : a.isNaN = false) (hb : b.isNaN = false)
    (h : lt a b = false) : le b a = true := by
  apply (le_iff_key b a).mpr
  refine ⟨hb, ha, ?_⟩
  by_contra hc
  have : lt a b = true := (lt_iff_key a b).mpr ⟨ha, hb, not_le.mp hc⟩
  rw [h] at this
  exact Bool.noConfusion this

theorem flt_of_not_fle {a b : F32} (ha : a.isNaN = false) (hb : b.isNaN = false)
    (h : le a b = false) : lt b a = true := by
  apply (lt_iff_key b a).mpr
  refine ⟨hb, ha, ?_⟩
  by_contra hc
  have : le a b = true := (le_iff_key a b).mpr ⟨ha, hb, not_lt.mp hc⟩
  rw [h] at this
  exact Bool.noConfusion this

theorem not_flt_of_fle {a b : F32} (h : le a b = true) : lt b a = false := by
  obtain ⟨_, _, h3⟩ := (le_iff_key a b).mp h
  cases hlt : lt b a
  · rfl
  · obtain ⟨_, _, h4⟩ := (lt_iff_key b a).mp hlt
    exact absurd h4 (not_lt.mpr h3)

theorem not_fle_of_flt {a b : F32} (h : lt a b = true) : le b a = false := by
  obtain ⟨_, _, h3⟩ := (lt_iff_key a b).mp h
  cases hle : le b a
  · rfl
  · obtain ⟨_, _, h4⟩ := (le_iff_key b a).mp hle
    exact absurd h3 (not_lt.mpr h4)

theorem flt_asymm {a b : F32} (h : lt a b = true) : lt b a = false :=
  not_flt_of_fle (fle_of_flt h)

theorem fle_trans {a b c : F32} (h1 : le a b = true) (h2 : le b c = true) : le a c = true := by
  obtain ⟨ha, _, hab⟩ := (le_iff_key a b).mp h1
  obtain ⟨_, hc, hbc⟩ := (le_iff_key b c).mp h2
  exact (le_iff_key a c).mpr ⟨ha, hc, hab.trans hbc⟩

theorem flt_of_flt_of_fle {a b c : F32} (h1 : lt a b = true) (h2 : le b c = true) :
    lt a c = true := by
  obtain ⟨ha, _, hab⟩ := (lt_iff_key a b).mp h1
  obtain ⟨_, hc, hbc⟩ := (le_iff_key b c).mp h2
  exact (lt_iff_key a c).mpr ⟨ha, hc, hab.trans_le hbc⟩

theorem flt_of_fle_of_flt {a b c : F32} (h1 : le a b = true) (h2 : lt b c = true) :
    lt a c = true := by
  obtain ⟨ha, _, hab⟩ := (le_iff_key a b).mp h1
  obtain ⟨_, hc, hbc⟩ := (lt_iff_key b c).mp h2
  exact (lt_iff_key a c).mpr ⟨ha, hc, hab.trans_lt hbc⟩

theorem flt_trans {a b c : F32} (h1 : lt a b = true) (h2 : lt b c = true) : lt a c = true :=
  flt_of_flt_of_fle h1 (fle_of_flt h2)

theorem fle_refl {a : F32} (ha : a.isNaN = false) : le a a = true :=
  (le_iff_key a a).mpr ⟨ha, ha, le_rfl⟩

/-- The result of the clamp `fmaxf(0.0f, fminf(1.0f, x))` lies in `[0, 1]` for every `x`,
NaN included. -/
theorem clamp_unit (x : F32) :
    le (ofDecimal 0 1) (fmaxf (ofDecimal 0 1) (fminf (ofDecimal 10 1) x)) = true ∧
    le (fmaxf (ofDecimal 0 1) (fminf (ofDecimal 10 1) x)) (ofDecimal 10 1) = true := by
  have h0 : ofDecimal 0 1 = fin false 0 (-149) := by decide
  have h1 : ofDecimal 10 1 = fin false 8388608 (-23) := by decide
  have h00 : le (fin false 0 (-149)) (fin false 0 (-149)) = true := by decide
  have h01 : le (fin false 0 (-149)) (fin false 8388608 (-23)) = true := by decide
  have h11 : le (fin false 8388608 (-23)) (fin false 8388608 (-23)) = true := by decide
  have l01 : lt (fin false 0 (-149)) (fin false 8388608 (-23)) = true := by decide
  rw [h0, h1]
  cases x with
  | nan => simp [fminf, fmaxf, isNaN, signbit, l01, h01, h11]
  | inf s =>
    have l1i : lt (fin false 8388608 (-23)) (inf false) = true := rfl
    cases s <;> simp [fminf, fmaxf, isNaN, signbit, l1i, l01, h00, h01, h11]
  | fin s m e =>
    cases s
    · simp only [fminf, isNaN, signbit, bne_self_eq_false, Bool.false_eq_true, if_false]
      by_cases hx : lt (fin false 8388608 (-23)) (fin false m e) = true
      · simp [hx, fmaxf, isNaN, signbit, l01, h01, h11]
      · simp only [hx, if_false, fmaxf, isNaN, signbit, bne_self_eq_false, Bool.false_eq_true]
        have hx' : le (fin false m e) (fin false 8388608 (-23)) = true :=
          fle_of_not_flt rfl rfl (by simpa using hx)
        by_cases hy : lt (fin false 0 (-149)) (fin false m e) = true
        · simp only [hy, if_true]
          exact ⟨fle_of_flt hy, hx'⟩
        · simp only [hy, if_false]
          exact ⟨h00, h01⟩
    · simp [fminf, fmaxf, isNaN, signbit, h00, h01]

theorem toRat_neg (s : Bool) (m : Nat) (e : Int) :
    toRat (fin (!s) m e) = -toRat (fin s m e) := by
  cases s <;> simp [toRat]

theorem toRat_one : toRat (fin false 8388608 (-23)) = 1 := by
  simp only [toRat, Bool.false_eq_true, if_false, one_mul]
  rw [zpow_neg]
  norm_num

/-- The exact sum computed by `add`, as a rational. -/
theorem add_exact (s1 : Bool) (m1 : Nat) (e1 : Int) (s2 : Bool) (m2 : Nat) (e2 : Int) :
    ((scaled s1 m1 e1 (min e1 e2) + scaled s2 m2 e2 (min e1 e2) : ℤ) : ℚ)
      = (toRat (fin s1 m1 e1) + toRat (fin s2 m2 e2)) * (2 : ℚ) ^ (-(min e1 e2)) := by
  push_cast
  rw [scaled_cast _ _ _ _ (min_le_left e1 e2), scaled_cast _ _ _ _ (min_le_right e1 e2)]
  ring

/-- `1.0f - y` for a finite `y` with `0 ≤ y ≤ 1` is a finite value in `[0, 1]`; it is not
zero when `y < 1` and the exponent of `y` is at least `-149`. -/
theorem one_sub_unit (s : Bool) (m : Nat) (t : Int)
    (h0 : 0 ≤ toRat (fin s m t)) (h1 : toRat (fin s m t) ≤ 1) :
    ∃ m' t', sub (fin false 8388608 (-23)) (fin s m t) = fin false m' t' ∧ -149 ≤ t' ∧
      (m' : ℚ) * (2 : ℚ) ^ t' ≤ 1 ∧ (toRat (fin s m t) < 1 → -149 ≤ t → 1 ≤ m') := by
  have hz := add_exact false 8388608 (-23) (!s) m t
  rw [toRat_neg, toRat_one] at hz
  have hkpos : (0 : ℚ) < (2 : ℚ) ^ (-(min (-23) t)) := by positivity
  have hz0 : (0 : ℚ) ≤ ((scaled false 8388608 (-23) (min (-23) t)
      + scaled (!s) m t (min (-23) t) : ℤ) : ℚ) := by
    rw [hz]; apply mul_nonneg _ hkpos.le; linarith
  have hz0' : 0 ≤ scaled false 8388608 (-23) (min (-23) t) + scaled (!s) m t (min (-23) t) := by
    exact_mod_cast hz0
  unfold sub neg add
  simp only []
  generalize scaled false 8388608 (-23) (min (-23) t) + scaled (!s) m t (min (-23) t) = z
    at hz hz0 hz0' ⊢
  by_cases hzz : z = 0
  · rw [if_pos hzz]
    refine ⟨0, -149, by simp, le_refl _, by simp, ?_⟩
    intro hlt _
    exfalso
    rw [hzz] at hz
    simp only [Int.cast_zero] at hz
    have : (1 + -toRat (fin s m t)) = 0 := by
      rcases mul_eq_zero.mp hz.symm with h | h
      · exact h
      · exact absurd h hkpos.ne'
    linarith
  · rw [if_neg hzz]
    have hneg : decide (z < 0) = false := by simp; omega
    rw [hneg]
    have hval : ((z.natAbs : ℕ) : ℚ) / ((1 : ℕ) : ℚ) * (2 : ℚ) ^ (min (-23) t)
        = 1 + -toRat (fin s m t) := by
      rw [Nat.cast_natAbs, abs_of_nonneg hz0', Nat.cast_one, div_one]
      rw [hz, mul_assoc, ← zpow_add₀ (by norm_num)]
      simp
    obtain ⟨m', t', hr, ht', hle⟩ := round_le_pow false z.natAbs 1 (min (-23) t) 0 (by norm_num)
      (by rw [hval]; simp; linarith) (by norm_num) (by norm_num)
    refine ⟨m', t', hr, ht', by simpa using hle, ?_⟩
    intro _ ht
    have hx : (2 : ℚ) ^ (-149 : ℤ) ≤ ((z.natAbs : ℕ) : ℚ) / ((1 : ℕ) : ℚ) * (2 : ℚ) ^ (min (-23) t) := by
      have h1z : (1 : ℚ) ≤ ((z.natAbs : ℕ) : ℚ) := by
        have : 1 ≤ z.natAbs := by omega
        exact_mod_cast this
      rw [Nat.cast_one, div_one]
      calc (2 : ℚ) ^ (-149 : ℤ) ≤ (2 : ℚ) ^ (min (-23) t) :=
            zpow_le_zpow_right₀ (by norm_num) (le_min (by norm_num) ht)
        _ = 1 * (2 : ℚ) ^ (min (-23) t) := (one_mul _).symm
        _ ≤ _ := mul_le_mul_of_nonneg_right h1z (by positivity)
    rcases round_pos false z.natAbs 1 (min (-23) t) (by norm_num) hx with hinf | ⟨m2, t2, hr2, hm2, _⟩
    · rw [hr] at hinf; exact F32.noConfusion hinf
    · rw [hr] at hr2
      injection hr2 with _ hm _
      omega

theorem toRat_zero (s : Bool) (e : Int) : toRat (fin s 0 e) = 0 := by
  simp [toRat]

theorem toRat_false (m : Nat) (e : Int) : toRat (fin false m e) = (m : ℚ) * (2 : ℚ) ^ e := by
  simp [toRat]

theorem toRat_true (m : Nat) (e : Int) : toRat (fin true m e) = -((m : ℚ) * (2 : ℚ) ^ e) := by
  simp [toRat]

theorem toRat_pos_iff (s : Bool) (m : Nat) (e : Int) :
    0 < toRat (fin s m e) ↔ s = false ∧ 1 ≤ m := by
  have hp : (0 : ℚ) < (2 : ℚ) ^ e := by positivity
  cases s
  · rw [toRat_false]
    constructor
    · intro h
      refine ⟨rfl, ?_⟩
      rcases Nat.eq_zero_or_pos m with hm | hm
      · rw [hm] at h; simp at h
      · exact hm
    · rintro ⟨_, hm⟩
      have : (0 : ℚ) < (m : ℚ) := by exact_mod_cast hm
      positivity
  · rw [toRat_true]
    constructor
    · intro h
      have : (0 : ℚ) ≤ (m : ℚ) * (2 : ℚ) ^ e := by positivity
      linarith
    · rintro ⟨h, _⟩; exact Bool.noConfusion h

theorem toRat_nonneg_iff (s : Bool) (m : Nat) (e : Int) :
    0 ≤ toRat (fin s m e) ↔ s = false ∨ m = 0 := by
  have hp : (0 : ℚ) < (2 : ℚ) ^ e := by positivity
  cases s
  · rw [toRat_false]
    constructor
    · intro _; exact Or.inl rfl
    · intro _; positivity
  · rw [toRat_true]
    constructor
    · intro h
      right
      rcases Nat.eq_zero_or_pos m with hm | hm
      · exact hm
      · have : (0 : ℚ) < (m : ℚ) := by exact_mod_cast hm
        have : (0 : ℚ) < (m : ℚ) * (2 : ℚ) ^ e := by positivity
        linarith
    · rintro (h | h)
      · exact Bool.noConfusion h
      · rw [h]; simp

theorem toRat_nonpos_iff (s : Bool) (m : Nat) (e : Int) :
    toRat (fin s m e) ≤ 0 ↔ s = true ∨ m = 0 := by
  have h1 := toRat_pos_iff s m e
  constructor
  · intro h
    have : ¬ (s = false ∧ 1 ≤ m) := fun hh => absurd (h1.mpr hh) (not_lt.mpr h)
    cases s
    · right
      by_contra hm
      exact this ⟨rfl, by omega⟩
    · left; rfl
  · intro h
    apply not_lt.mp
    intro hpos
    obtain ⟨hs, hm⟩ := h1.mp hpos
    rcases h with h | h
    · rw [hs] at h; exact Bool.noConfusion h
    · omega

/-- The values `x` with `0 <= x`: `+inf` and the finite values that are positive or zero. -/
theorem zero_le_iff (x : F32) :
    le (fin false 0 (-149)) x = true ↔
      x = inf false ∨ ∃ s m e, x = fin s m e ∧ (s = false ∨ m = 0) := by
  cases x with
  | nan => simp [le]
  | inf s => cases s <;> simp [le]
  | fin s m e =>
    rw [le_fin_iff, toRat_zero, toRat_nonneg_iff]
    constructor
    · intro h; exact Or.inr ⟨s, m, e, rfl, h⟩
    · rintro (h | ⟨s', m', e', h, h2⟩)
      · exact F32.noConfusion h
      · injection h with a b c; subst a b c; exact h2

/-- The values `x` with `0 < x`: `+inf` and the positive finite values. -/
theorem zero_lt_iff (x : F32) :
    lt (fin false 0 (-149)) x = true ↔
      x = inf false ∨ ∃ m e, x = fin false m e ∧ 1 ≤ m := by
  cases x with
  | nan => simp [lt]
  | inf s => cases s <;> simp [lt]
  | fin s m e =>
    rw [lt_fin_iff, toRat_zero, toRat_pos_iff]
    constructor
    · rintro ⟨h1, h2⟩; subst h1; exact Or.inr ⟨m, e, rfl, h2⟩
    · rintro (h | ⟨m', e', h, h2⟩)
      · exact F32.noConfusion h
      · injection h with a b c; subst a b c; exact ⟨rfl, h2⟩

/-- The values `x` with `x <= 0`: `-inf` and the finite values that are negative or zero. -/
theorem le_zero_iff (x : F32) :
    le x (fin false 0 (-149)) = true ↔
      x = inf true ∨ ∃ s m e, x = fin s m e ∧ (s = true ∨ m = 0) := by
  cases x with
  | nan => simp [le]
  | inf s => cases s <;> simp [le]
  | fin s m e =>
    rw [le_fin_iff, toRat_zero, toRat_nonpos_iff]
    constructor
    · intro h; exact Or.inr ⟨s, m, e, rfl, h⟩
    · rintro (h | ⟨s', m', e', h, h2⟩)
      · exact F32.noConfusion h
      · injection h with a b c; subst a b c; exact h2

theorem ofInt_zero : (FloatArith.ofInt 0 : F32) = fin false 0 (-149) := by decide
theorem ofDecimal_zero : (FloatArith.ofDecimal 0 1 : F32) = fin false 0 (-149) := by decide
theorem ofDecimal_one : (FloatArith.ofDecimal 10 1 : F32) = fin false 8388608 (-23) := by decide
theorem ofDecimal_five : (FloatArith.ofDecimal 50 1 : F32) = fin false 10485760 (-21) := by decide
theorem ofDecimal_thirty : (FloatArith.ofDecimal 300 1 : F32) = fin false 15728640 (-19) := by decide
theorem ofDecimal_nine_tenths : (FloatArith.ofDecimal 9 1 : F32) = fin false 15099494 (-24) := by decide

theorem div_def (a b : F32) : a / b = div a b := rfl
theorem sub_def (a b : F32) : a - b = sub a b := rfl
theorem mul_def (a b : F32) : a * b = mul a b := rfl
theorem add_def (a b : F32) : a + b = add a b := rfl

theorem toRat_five : toRat (fin false 10485760 (-21)) = 5 := by
  rw [toRat_false, zpow_neg]; norm_num

theorem toRat_thirty : toRat (fin false 15728640 (-19)) = 30 := by
  rw [toRat_false, zpow_neg]; norm_num

/-- A value in `[0, 1]` is finite. -/
theorem unit_is_fin (y : F32) (h0 : le (fin false 0 (-149)) y = true)
    (h1 : le y (fin false 8388608 (-23)) = true) :
    ∃ s m t, y = fin s m t ∧ 0 ≤ toRat (fin s m t) ∧ toRat (fin s m t) ≤ 1 := by
  cases y with
  | nan => simp [le] at h0
  | inf s => cases s <;> simp [le] at h0 h1
  | fin s m t =>
    refine ⟨s, m, t, rfl, ?_, ?_⟩
    · have := (le_fin_iff _ _ _ _ _ _).mp h0
      rwa [toRat_zero] at this
    · have := (le_fin_iff _ _ _ _ _ _).mp h1
      rwa [toRat_one] at this

/-- `1.0f - y` lies in `[0, 1]` when `y` does. -/
theorem one_sub_mem_unit (y : F32) (h0 : le (fin false 0 (-149)) y = true)
    (h1 : le y (fin false 8388608 (-23)) = true) :
    le (fin false 0 (-149)) (sub (fin false 8388608 (-23)) y) = true ∧
    le (sub (fin false 8388608 (-23)) y) (fin false 8388608 (-23)) = true := by
  obtain ⟨s, m, t, hy, hy0, hy1⟩ := unit_is_fin y h0 h1
  obtain ⟨m', t', hr, _, hle, _⟩ := one_sub_unit s m t hy0 hy1
  rw [hy, hr]
  constructor
  · exact (zero_le_iff _).mpr (Or.inr ⟨false, m', t', rfl, Or.inl rfl⟩)
  · rw [le_fin_iff, toRat_one, toRat_false]; exact hle

/-- `calculate_rebuffer_probability` returns a value in `[0, 1]` on every path but one:
the last return, when the time to rebuffer is NaN. -/
theorem rebuffer_unit (b dt s : F32)
    (h : le b (fin false 0 (-149)) = true ∨ le dt (fin false 0 (-149)) = true ∨
      le (fin false 8388608 (-23)) (div dt s) = true ∨
      (div b (sub (fin false 8388608 (-23)) (div dt s))).isNaN = false) :
    le (fin false 0 (-149)) (calculate_rebuffer_probability b dt s) = true ∧
    le (calculate_rebuffer_probability b dt s) (fin false 8388608 (-23)) = true := by
  have h00 : le (fin false 0 (-149)) (fin false 0 (-149)) = true := by decide
  have h01 : le (fin false 0 (-149)) (fin false 8388608 (-23)) = true := by decide
  have h11 : le (fin false 8388608 (-23)) (fin false 8388608 (-23)) = true := by decide
  unfold calculate_rebuffer_probability
  simp only [le_def, lt_def, div_def, sub_def, ofInt_zero, ofDecimal_zero, ofDecimal_one,
    ofDecimal_five, ofDecimal_thirty]
  by_cases c1 : le b (fin false 0 (-149)) = true
  · rw [if_pos c1]; exact ⟨h01, h11⟩
  rw [if_neg c1]
  by_cases c2 : le dt (fin false 0 (-149)) = true
  · rw [if_pos c2]; exact ⟨h00, h01⟩
  rw [if_neg c2]
  by_cases c3 : le (fin false 8388608 (-23)) (div dt s) = true
  · rw [if_pos c3]; exact ⟨h01, h11⟩
  rw [if_neg c3]
  have hn : (div b (sub (fin false 8388608 (-23)) (div dt s))).isNaN = false := by
    rcases h with h | h | h | h
    · exact absurd h c1
    · exact absurd h c2
    · exact absurd h c3
    · exact h
  generalize div b (sub (fin false 8388608 (-23)) (div dt s)) = ttr at hn ⊢
  by_cases c4 : lt (fin false 15728640 (-19)) ttr = true
  · rw [if_pos c4]; exact ⟨h00, h01⟩
  rw [if_neg c4]
  by_cases c5 : lt ttr (fin false 10485760 (-21)) = true
  · rw [if_pos c5]; exact ⟨by decide, by decide⟩
  rw [if_neg c5]
  have l30 : le ttr (fin false 15728640 (-19)) = true :=
    fle_of_not_flt rfl hn (by simpa using c4)
  have l5 : le (fin false 10485760 (-21)) ttr = true :=
    fle_of_not_flt hn rfl (by simpa using c5)
  cases ttr with
  | nan => simp [isNaN] at hn
  | inf s => cases s <;> simp [le] at l30 l5
  | fin st mt tt =>
    have v30 := (le_fin_iff _ _ _ _ _ _).mp l30
    have v5 := (le_fin_iff _ _ _ _ _ _).mp l5
    rw [toRat_thirty] at v30
    rw [toRat_five] at v5
    have hs : st = false := ((toRat_pos_iff st mt tt).mp (by linarith)).1
    subst hs
    rw [toRat_false] at v30 v5
    have hdiv : div (fin false mt tt) (fin false 15728640 (-19))
        = round false mt 15728640 (tt - (-19)) := by
      simp [div]
    rw [hdiv]
    obtain ⟨mu, tu, hr, _, hle⟩ := round_le_pow false mt 15728640 (tt - (-19)) 0 (by norm_num)
      (by
        have e : ((mt : ℕ) : ℚ) / ((15728640 : ℕ) : ℚ) * (2 : ℚ) ^ (tt - (-19))
            = (mt : ℚ) * (2 : ℚ) ^ tt / 30 := by
          rw [zpow_sub₀ (by norm_num), zpow_neg]
          norm_num
          ring
        rw [e]
        simp only [zpow_zero]
        linarith) (by norm_num) (by norm_num)
    rw [hr]
    apply one_sub_mem_unit
    · exact (zero_le_iff _).mpr (Or.inr ⟨false, mu, tu, rfl, Or.inl rfl⟩)
    · rw [le_fin_iff, toRat_one, toRat_false]; simpa using hle

/-- The possible results of `sqrtf`: NaN, `+inf`, a zero, or a finite value of positive
sign. -/
theorem sqrt_cases (x : F32) :
    sqrt x = nan ∨ sqrt x = inf false ∨ (∃ s, sqrt x = fin s 0 (-149)) ∨
      ∃ m t, sqrt x = fin false m t := by
  cases x with
  | nan => left; rfl
  | inf s => cases s <;> simp [sqrt]
  | fin s m e =>
    have key : ∀ (n d : Nat) (e : Int), round false n d e = nan ∨ round false n d e = inf false ∨
        (∃ s, round false n d e = fin s 0 (-149)) ∨ ∃ m t, round false n d e = fin false m t := by
      intro n d e
      rcases round_form false n d e with h | ⟨m', t', h, _⟩
      · exact Or.inr (Or.inl h)
      · exact Or.inr (Or.inr (Or.inr ⟨m', t', h⟩))
    simp only [sqrt]
    by_cases hm : m = 0
    · rw [if_pos hm]; exact Or.inr (Or.inr (Or.inl ⟨s, rfl⟩))
    · rw [if_neg hm]
      cases s
      · simp only [Bool.false_eq_true, if_false]
        split_ifs <;> exact key _ _ _
      · left; simp

/-- Dividing a square root by `+0` gives NaN or `+inf`. -/
theorem sqrt_div_zero (x : F32) :
    div (sqrt x) (fin false 0 (-149)) = nan ∨ div (sqrt x) (fin false 0 (-149)) = inf false := by
  rcases sqrt_cases x with h | h | ⟨s, h⟩ | ⟨m, t, h⟩
  · rw [h]; left; rfl
  · rw [h]; right; rfl
  · rw [h]; left; simp [div]
  · rw [h]
    by_cases hm : m = 0
    · left; simp [div, hm]
    · right; simp [div, hm]

/-- The exact value lies above half of `2^t` for the rounding exponent `t`, as soon as it
lies above half of the least subnormal. -/
theorem half_two_pow_roundExp_lt (n d : Nat) (e : Int) (hn : 0 < n) (hd : 0 < d)
    (hx : (2 : ℚ) ^ (-150 : ℤ) < (n : ℚ) / d * 2 ^ e) :
    (2 : ℚ) ^ (roundExp n d e - 1) < (n : ℚ) / d * 2 ^ e := by
  have h1 := (ratioLog2_spec n d hn hd).1
  have hpe : (0 : ℚ) < (2 : ℚ) ^ e := by positivity
  unfold roundExp
  rcases max_cases (ratioLog2 n d + e - 23) (-149) with ⟨h, _⟩ | ⟨h, _⟩
  · rw [h]
    calc (2 : ℚ) ^ (ratioLog2 n d + e - 23 - 1) < (2 : ℚ) ^ (ratioLog2 n d + e) :=
          zpow_lt_zpow_right₀ (by norm_num) (by omega)
      _ = (2 : ℚ) ^ ratioLog2 n d * 2 ^ e := zpow_add₀ (by norm_num) _ _
      _ ≤ (n : ℚ) / d * 2 ^ e := mul_le_mul_of_nonneg_right h1 hpe.le
  · rw [h]; exact hx

/-- A value above half of the least subnormal does not round to zero. -/
theorem round_pos_strict (neg : Bool) (n d : Nat) (e : Int) (hd : 0 < d)
    (hx : (2 : ℚ) ^ (-150 : ℤ) < (n : ℚ) / d * 2 ^ e) :
    round neg n d e = inf neg ∨ ∃ m t, round neg n d e = fin neg m t ∧ 1 ≤ m ∧ -149 ≤ t := by
  have hn : 0 < n := by
    rcases Nat.eq_zero_or_pos n with h | h
    · exfalso
      rw [h] at hx
      simp at hx
      have h2 : ((2 : ℚ) ^ (150 : ℕ))⁻¹ > 0 := by positivity
      linarith
    · exact h
  have ht := roundExp_ge n d e
  have h1 := half_two_pow_roundExp_lt n d e hn hd hx
  have h2 := (mantissa_spec n d (e - roundExp n d e) hd).2
  have hy : (1 : ℚ) / 2 < (n : ℚ) / d * 2 ^ (e - roundExp n d e) := by
    rw [zpow_sub₀ (by norm_num), ← mul_div_assoc, lt_div_iff₀ (by positivity)]
    have e1 : (1 : ℚ) / 2 * (2 : ℚ) ^ roundExp n d e = (2 : ℚ) ^ (roundExp n d e - 1) := by
      rw [zpow_sub₀ (by norm_num)]; simp; ring
    rw [e1]; exact h1
  have hm : 1 ≤ mantissa n d (e - roundExp n d e) := by
    have : (0 : ℚ) < (mantissa n d (e - roundExp n d e) : ℚ) := by linarith
    exact_mod_cast this
  unfold round pack
  rw [if_neg (by omega)]
  split_ifs
  · exact Or.inl rfl
  · exact Or.inr ⟨2 ^ 23, _, rfl, by norm_num, by omega⟩
  · exact Or.inl rfl
  · exact Or.inr ⟨_, _, rfl, hm, ht⟩

/-- A value below half of the least subnormal rounds to zero. -/
theorem round_small (neg : Bool) (n d : Nat) (e : Int) (hd : 0 < d)
    (hx : (n : ℚ) / d * 2 ^ e < (2 : ℚ) ^ (-150 : ℤ)) :
    round neg n d e = fin neg 0 (-149) := by
  rcases Nat.eq_zero_or_pos n with hn | hn
  · unfold round; rw [if_pos hn]
  have h1 := (ratioLog2_spec n d hn hd).1
  have hpe : (0 : ℚ) < (2 : ℚ) ^ e := by positivity
  have hE : ratioLog2 n d + e < -150 := by
    have : (2 : ℚ) ^ (ratioLog2 n d + e) < (2 : ℚ) ^ (-150 : ℤ) := by
      calc (2 : ℚ) ^ (ratioLog2 n d + e) = (2 : ℚ) ^ ratioLog2 n d * 2 ^ e :=
            zpow_add₀ (by norm_num) _ _
        _ ≤ (n : ℚ) / d * 2 ^ e := mul_le_mul_of_nonneg_right h1 hpe.le
        _ < _ := hx
    exact (zpow_lt_zpow_iff_right₀ (by norm_num)).mp this
  have ht : roundExp n d e = -149 := by
    unfold roundExp; exact max_eq_right (by omega)
  have h2 := (mantissa_spec n d (e - roundExp n d e) hd).1
  rw [ht] at h2
  have hy : (n : ℚ) / d * 2 ^ (e - (-149)) < 1 / 2 := by
    rw [zpow_sub₀ (by norm_num), ← mul_div_assoc, div_lt_iff₀ (by positivity)]
    have e1 : (1 : ℚ) / 2 * (2 : ℚ) ^ (-149 : ℤ) = (2 : ℚ) ^ (-150 : ℤ) := by
      rw [show (-150 : ℤ) = -149 - 1 by norm_num, zpow_sub₀ (by norm_num)]; simp; ring
    rw [e1]; exact hx
  have hm : mantissa n d (e - (-149)) = 0 := by
    have : (mantissa n d (e - (-149)) : ℚ) < 1 := by linarith
    have : mantissa n d (e - (-149)) < 1 := by exact_mod_cast this
    omega
  unfold round pack
  rw [if_neg (by omega), ht, hm]
  simp

/-- A value less than half an ulp above `2^k` rounds to at most `2^k`. -/
theorem round_le_pow_slack (neg : Bool) (n d : Nat) (e k : Int) (hd : 0 < d)
    (hx : (n : ℚ) / d * 2 ^ e < (2 : ℚ) ^ k + (2 : ℚ) ^ (k - 24)) (hk1 : -126 ≤ k)
    (hk2 : k ≤ 127) :
    ∃ m t, round neg n d e = fin neg m t ∧ -149 ≤ t ∧ (m : ℚ) * 2 ^ t ≤ (2 : ℚ) ^ k := by
  by_cases hle : (n : ℚ) / d * 2 ^ e ≤ (2 : ℚ) ^ k
  · exact round_le_pow neg n d e k hd hle (by omega) hk2
  have hgt : (2 : ℚ) ^ k < (n : ℚ) / d * 2 ^ e := not_le.mp hle
  have hn : 0 < n := by
    rcases Nat.eq_zero_or_pos n with h | h
    · exfalso
      rw [h] at hgt
      simp at hgt
      have : (0 : ℚ) < (2 : ℚ) ^ k := by positivity
      linarith
    · exact h
  obtain ⟨h1, h1'⟩ := ratioLog2_spec n d hn hd
  have hpe : (0 : ℚ) < (2 : ℚ) ^ e := by positivity
  have hElo : ratioLog2 n d + e < k + 1 := by
    have : (2 : ℚ) ^ (ratioLog2 n d + e) < (2 : ℚ) ^ (k + 1) := by
      calc (2 : ℚ) ^ (ratioLog2 n d + e) = (2 : ℚ) ^ ratioLog2 n d * 2 ^ e :=
            zpow_add₀ (by norm_num) _ _
        _ ≤ (n : ℚ) / d * 2 ^ e := mul_le_mul_of_nonneg_right h1 hpe.le
        _ < (2 : ℚ) ^ k + (2 : ℚ) ^ (k - 24) := hx
        _ ≤ (2 : ℚ) ^ k + (2 : ℚ) ^ k := by
            have := zpow_le_zpow_right₀ (by norm_num : (1 : ℚ) ≤ 2) (by omega : k - 24 ≤ k)
            linarith
        _ = (2 : ℚ) ^ (k + 1) := by rw [zpow_add₀ (by norm_num)]; ring
    exact (zpow_lt_zpow_iff_right₀ (by norm_num)).mp this
  have hEhi : k < ratioLog2 n d + e + 1 := by
    have : (2 : ℚ) ^ k < (2 : ℚ) ^ (ratioLog2 n d + e + 1) := by
      calc (2 : ℚ) ^ k < (n : ℚ) / d * 2 ^ e := hgt
        _ < (2 : ℚ) ^ (ratioLog2 n d + 1) * 2 ^ e := mul_lt_mul_of_pos_right h1' hpe
        _ = (2 : ℚ) ^ (ratioLog2 n d + e + 1) := by
            rw [← zpow_add₀ (by norm_num)]; congr 1; ring
    exact (zpow_lt_zpow_iff_right₀ (by norm_num)).mp this
  have ht : roundExp n d e = k - 23 := by
    unfold roundExp
    rw [show ratioLog2 n d + e = k by omega]
    exact max_eq_left (by omega)
  have h2 := (mantissa_spec n d (e - roundExp n d e) hd).1
  rw [ht] at h2
  have hy : (n : ℚ) / d * 2 ^ (e - (k - 23)) < 2 ^ 23 + 1 / 2 := by
    rw [zpow_sub₀ (by norm_num), ← mul_div_assoc, div_lt_iff₀ (by positivity)]
    have e1 : ((2 : ℚ) ^ 23 + 1 / 2) * (2 : ℚ) ^ (k - 23) = (2 : ℚ) ^ k + (2 : ℚ) ^ (k - 24) := by
      rw [show k - 24 = k - 23 - 1 by ring, zpow_sub₀ (by norm_num) (k - 23) 1,
        show k = (k - 23) + 23 by ring, zpow_add₀ (by norm_num) (k - 23) 23]
      simp
      ring
    rw [e1]; exact hx
  have hm : mantissa n d (e - (k - 23)) ≤ 2 ^ 23 := by
    have : (mantissa n d (e - (k - 23)) : ℚ) < ((2 ^ 23 + 1 : ℕ) : ℚ) := by
      push_cast; linarith
    have := Nat.cast_lt.mp this
    omega
  unfold round pack
  rw [if_neg (by omega), ht, if_neg (by omega), if_neg (by omega)]
  refine ⟨_, _, rfl, by omega, ?_⟩
  have : (mantissa n d (e - (k - 23)) : ℚ) ≤ (2 : ℚ) ^ 23 := by exact_mod_cast hm
  calc (mantissa n d (e - (k - 23)) : ℚ) * 2 ^ (k - 23) ≤ (2 : ℚ) ^ 23 * 2 ^ (k - 23) :=
        mul_le_mul_of_nonneg_right this (by positivity)
    _ = (2 : ℚ) ^ k := by
        rw [← zpow_natCast, ← zpow_add₀ (by norm_num)]; congr 1; simp

/-- A value of at least `2^k` rounds to at least `2^k` (or overflows). -/
theorem round_ge_pow (neg : Bool) (n d : Nat) (e k : Int) (hd : 0 < d)
    (hx : (2 : ℚ) ^ k ≤ (n : ℚ) / d * 2 ^ e) (hk1 : -149 ≤ k) :
    round neg n d e = inf neg ∨
      ∃ m t, round neg n d e = fin neg m t ∧ -149 ≤ t ∧ (2 : ℚ) ^ k ≤ (m : ℚ) * 2 ^ t := by
  have hn : 0 < n := by
    rcases Nat.eq_zero_or_pos n with h | h
    · exfalso
      rw [h] at hx
      simp at hx
      have : (0 : ℚ) < (2 : ℚ) ^ k := by positivity
      linarith
    · exact h
  have h1 := (ratioLog2_spec n d hn hd).1
  have hpe : (0 : ℚ) < (2 : ℚ) ^ e := by positivity
  have ht := roundExp_ge n d e
  have h2 := (mantissa_spec n d (e - roundExp n d e) hd).2
  -- the mantissa times 2^t is at least 2^k
  have hmk : (2 : ℚ) ^ k ≤ (mantissa n d (e - roundExp n d e) : ℚ) * 2 ^ roundExp n d e := by
    by_cases htk : roundExp n d e ≤ k
    · -- the scaled value is at least the integer 2^(k - t)
      have hP : ((2 ^ (k - roundExp n d e).toNat : ℕ) : ℚ)
          = (2 : ℚ) ^ k * (2 : ℚ) ^ (-roundExp n d e) := by
        push_cast
        rw [← zpow_natCast, Int.toNat_of_nonneg (by omega), ← zpow_add₀ (by norm_num)]
        congr 1
      have hy : ((2 ^ (k - roundExp n d e).toNat : ℕ) : ℚ)
          ≤ (n : ℚ) / d * 2 ^ (e - roundExp n d e) := by
        rw [hP, sub_eq_add_neg, zpow_add₀ (by norm_num), ← mul_assoc]
        exact mul_le_mul_of_nonneg_right hx (by positivity)
      have hm : 2 ^ (k - roundExp n d e).toNat ≤ mantissa n d (e - roundExp n d e) := by
        have h3 : ((2 ^ (k - roundExp n d e).toNat : ℕ) : ℚ)
            < ((mantissa n d (e - roundExp n d e) + 1 : ℕ) : ℚ) := by
          push_cast; push_cast at hy; linarith
        have := Nat.cast_lt.mp h3
        omega
      have hmq : ((2 ^ (k - roundExp n d e).toNat : ℕ) : ℚ)
          ≤ (mantissa n d (e - roundExp n d e) : ℚ) := by exact_mod_cast hm
      rw [hP] at hmq
      calc (2 : ℚ) ^ k = (2 : ℚ) ^ k * (2 : ℚ) ^ (-roundExp n d e) * 2 ^ roundExp n d e := by
            rw [mul_assoc, ← zpow_add₀ (by norm_num)]; simp
        _ ≤ _ := mul_le_mul_of_nonneg_right hmq (by positivity)
    · -- a normal result: the mantissa is at least 2^23
      have htk' : k < roundExp n d e := by omega
      have hte : roundExp n d e = ratioLog2 n d + e - 23 := by
        unfold roundExp at htk' ⊢
        rcases max_cases (ratioLog2 n d + e - 23) (-149) with ⟨h, _⟩ | ⟨h, _⟩
        · exact h
        · rw [h] at htk'; omega
      have hy : ((2 ^ 23 : ℕ) : ℚ) ≤ (n : ℚ) / d * 2 ^ (e - roundExp n d e) := by
        rw [hte]
        have : (2 : ℚ) ^ (ratioLog2 n d) * 2 ^ (e - (ratioLog2 n d + e - 23))
            = ((2 ^ 23 : ℕ) : ℚ) := by
          rw [← zpow_add₀ (by norm_num)]
          rw [show ratioLog2 n d + (e - (ratioLog2 n d + e - 23)) = 23 by ring]
          norm_num
        rw [← this]
        exact mul_le_mul_of_nonneg_right h1 (by positivity)
      have hm : 2 ^ 23 ≤ mantissa n d (e - roundExp n d e) := by
        have h3 : ((2 ^ 23 : ℕ) : ℚ) < ((mantissa n d (e - roundExp n d e) + 1 : ℕ) : ℚ) := by
          push_cast; push_cast at hy; linarith
        have := Nat.cast_lt.mp h3
        omega
      have hmq : (1 : ℚ) ≤ (mantissa n d (e - roundExp n d e) : ℚ) := by
        have : 1 ≤ mantissa n d (e - roundExp n d e) := by omega
        exact_mod_cast this
      calc (2 : ℚ) ^ k ≤ (2 : ℚ) ^ roundExp n d e :=
            zpow_le_zpow_right₀ (by norm_num) htk'.le
        _ = 1 * (2 : ℚ) ^ roundExp n d e := (one_mul _).symm
        _ ≤ _ := mul_le_mul_of_nonneg_right hmq (by positivity)
  unfold round pack
  rw [if_neg (by omega)]
  by_cases h24 : mantissa n d (e - roundExp n d e) = 2 ^ 24
  · rw [if_pos h24]
    split_ifs
    · exact Or.inl rfl
    · right
      refine ⟨2 ^ 23, _, rfl, by omega, ?_⟩
      rw [h24] at hmk
      have e1 : ((2 ^ 23 : ℕ) : ℚ) * (2 : ℚ) ^ (roundExp n d e + 1)
          = ((2 ^ 24 : ℕ) : ℚ) * 2 ^ roundExp n d e := by
        rw [zpow_add₀ (by norm_num)]; push_cast; ring
      rw [e1]; exact hmk
  · rw [if_neg h24]
    split_ifs
    · exact Or.inl rfl
    · exact Or.inr ⟨_, _, rfl, ht, hmk⟩

theorem expOk_of_valid (x : F32) (h : x.valid = true) : ExpOk x := by
  intro s m e hx
  subst hx
  simp only [valid, Bool.or_eq_true, Bool.and_eq_true, decide_eq_true_eq] at h
  rcases h with ⟨_, h⟩ | ⟨⟨⟨_, _⟩, h⟩, _⟩ <;> omega

theorem expOk_round (neg : Bool) (n d : Nat) (e : Int) : ExpOk (round neg n d e) := by
  intro s m t hx
  rcases round_form neg n d e with h | ⟨m', t', h, ht⟩
  · rw [h] at hx; exact F32.noConfusion hx
  · rw [h] at hx; injection hx with _ _ h3; omega

theorem expOk_mul (x y : F32) : ExpOk (mul x y) := by
  cases x with
  | nan => intro s m e h; simp [mul] at h
  | inf s1 =>
    cases y with
    | nan => intro s m e h; simp [mul] at h
    | inf s2 => intro s m e h; simp [mul] at h
    | fin s2 m2 e2 =>
      intro s m e h
      simp only [mul] at h
      split_ifs at h
  | fin s1 m1 e1 =>
    cases y with
    | nan => intro s m e h; simp [mul] at h
    | inf s2 =>
      intro s m e h
      simp only [mul] at h
      split_ifs at h
    | fin s2 m2 e2 => simp only [mul]; exact expOk_round _ _ _ _

theorem expOk_add (x y : F32) : ExpOk (add x y) := by
  cases x with
  | nan => intro s m e h; simp [add] at h
  | inf s1 =>
    cases y with
    | nan => intro s m e h; simp [add] at h
    | inf s2 =>
      intro s m e h
      simp only [add] at h
      split_ifs at h
    | fin s2 m2 e2 => intro s m e h; simp [add] at h
  | fin s1 m1 e1 =>
    cases y with
    | nan => intro s m e h; simp [add] at h
    | inf s2 => intro s m e h; simp [add] at h
    | fin s2 m2 e2 =>
      simp only [add]
      split_ifs
      · intro s m e h; injection h with _ _ h3; omega
      · exact expOk_round _ _ _ _

/-- A product that is the negative zero has finite factors of opposite signs, and the exact
product is at most half the least subnormal. -/
theorem mul_negZero (x y : F32) (h : IsNegZero (mul x y)) :
    ∃ s1 m1 e1 s2 m2 e2, x = fin s1 m1 e1 ∧ y = fin s2 m2 e2 ∧ xor s1 s2 = true ∧
      ((m1 : ℚ) * (2 : ℚ) ^ e1) * ((m2 : ℚ) * (2 : ℚ) ^ e2) ≤ (2 : ℚ) ^ (-150 : ℤ) := by
  obtain ⟨t, h⟩ := h
  cases x with
  | nan => simp [mul] at h
  | inf s1 =>
    cases y with
    | nan => simp [mul] at h
    | inf s2 => simp [mul] at h
    | fin s2 m2 e2 => simp only [mul] at h; split_ifs at h
  | fin s1 m1 e1 =>
    cases y with
    | nan => simp [mul] at h
    | inf s2 => simp only [mul] at h; split_ifs at h
    | fin s2 m2 e2 =>
      simp only [mul] at h
      refine ⟨s1, m1, e1, s2, m2, e2, rfl, rfl, ?_, ?_⟩
      · rcases round_form (xor s1 s2) (m1 * m2) 1 (e1 + e2) with h2 | ⟨m', t', h2, _⟩
        · rw [h2] at h; exact F32.noConfusion h
        · rw [h2] at h; injection h with h3 _ _
      · by_contra hc
        have hx : (2 : ℚ) ^ (-150 : ℤ) < ((m1 * m2 : ℕ) : ℚ) / ((1 : ℕ) : ℚ) * 2 ^ (e1 + e2) := by
          push_cast
          rw [div_one, zpow_add₀ (by norm_num)]
          have := not_le.mp hc
          calc (2 : ℚ) ^ (-150 : ℤ) < (m1 : ℚ) * 2 ^ e1 * ((m2 : ℚ) * 2 ^ e2) := this
            _ = _ := by ring
        rcases round_pos_strict (xor s1 s2) (m1 * m2) 1 (e1 + e2) (by norm_num) hx
          with h2 | ⟨m', t', h2, hm', _⟩
        · rw [h2] at h; exact F32.noConfusion h
        · rw [h2] at h; injection h with _ h3 _; omega

/-- A sum that is the negative zero is the sum of two negative zeros. -/
theorem add_negZero (x y : F32) (h : IsNegZero (add x y)) (hx : ExpOk x) (hy : ExpOk y) :
    IsNegZero x ∧ IsNegZero y := by
  obtain ⟨t, h⟩ := h
  cases x with
  | nan => simp [add] at h
  | inf s1 =>
    cases y with
    | nan => simp [add] at h
    | inf s2 => simp only [add] at h; split_ifs at h
    | fin s2 m2 e2 => simp [add] at h
  | fin s1 m1 e1 =>
    cases y with
    | nan => simp [add] at h
    | inf s2 => simp [add] at h
    | fin s2 m2 e2 =>
      have he1 := hx s1 m1 e1 rfl
      have he2 := hy s2 m2 e2 rfl
      simp only [add] at h
      by_cases hz : scaled s1 m1 e1 (min e1 e2) + scaled s2 m2 e2 (min e1 e2) = 0
      · rw [if_pos hz] at h
        injection h with h3 _ _
        have hs1 : s1 = true := by cases s1 <;> simp_all
        have hs2 : s2 = true := by cases s2 <;> simp_all
        subst hs1 hs2
        have hq := add_exact true m1 e1 true m2 e2
        rw [hz, toRat_true, toRat_true] at hq
        have hp : (0 : ℚ) < (2 : ℚ) ^ (-(min e1 e2)) := by positivity
        have hsum : -((m1 : ℚ) * 2 ^ e1) + -((m2 : ℚ) * 2 ^ e2) = 0 := by
          rcases mul_eq_zero.mp hq.symm with h4 | h4
          · exact h4
          · exact absurd h4 hp.ne'
        have h1 : (0 : ℚ) ≤ (m1 : ℚ) * 2 ^ e1 := by positivity
        have h2 : (0 : ℚ) ≤ (m2 : ℚ) * 2 ^ e2 := by positivity
        have hm1 : (m1 : ℚ) * 2 ^ e1 = 0 := by linarith
        have hm2 : (m2 : ℚ) * 2 ^ e2 = 0 := by linarith
        have hm1' : m1 = 0 := by
          rcases mul_eq_zero.mp hm1 with h5 | h5
          · exact_mod_cast h5
          · exact absurd h5 (by positivity)
        have hm2' : m2 = 0 := by
          rcases mul_eq_zero.mp hm2 with h5 | h5
          · exact_mod_cast h5
          · exact absurd h5 (by positivity)
        subst hm1' hm2'
        exact ⟨⟨e1, rfl⟩, ⟨e2, rfl⟩⟩
      · rw [if_neg hz] at h
        exfalso
        have hk : -149 ≤ min e1 e2 := le_min he1 he2
        have hv : (2 : ℚ) ^ (-149 : ℤ) ≤
            (((scaled s1 m1 e1 (min e1 e2) + scaled s2 m2 e2 (min e1 e2)).natAbs : ℕ) : ℚ)
              / ((1 : ℕ) : ℚ) * 2 ^ (min e1 e2) := by
          have h1z : (1 : ℚ) ≤
              (((scaled s1 m1 e1 (min e1 e2) + scaled s2 m2 e2 (min e1 e2)).natAbs : ℕ) : ℚ) := by
            have : 1 ≤ (scaled s1 m1 e1 (min e1 e2) + scaled s2 m2 e2 (min e1 e2)).natAbs := by
              omega
            exact_mod_cast this
          rw [Nat.cast_one, div_one]
          calc (2 : ℚ) ^ (-149 : ℤ) ≤ (2 : ℚ) ^ (min e1 e2) :=
                zpow_le_zpow_right₀ (by norm_num) hk
            _ = 1 * (2 : ℚ) ^ (min e1 e2) := (one_mul _).symm
            _ ≤ _ := mul_le_mul_of_nonneg_right h1z (by positivity)
        rcases round_pos _ _ 1 (min e1 e2) (by norm_num) hv with h2 | ⟨m', t', h2, hm', _⟩
        · rw [h2] at h; exact F32.noConfusion h
        · rw [h2] at h; injection h with _ h3 _; omega

/-- A finite value with exponent at least `-149` and magnitude below `2^-149` is zero. -/
theorem mantissa_zero_of_lt (m : Nat) (e : Int) (he : -149 ≤ e)
    (h : (m : ℚ) * (2 : ℚ) ^ e < (2 : ℚ) ^ (-149 : ℤ)) : m = 0 := by
  by_contra hm
  have h1 : (1 : ℚ) ≤ (m : ℚ) := by
    have : 1 ≤ m := by omega
    exact_mod_cast this
  have h2 : (2 : ℚ) ^ (-149 : ℤ) ≤ (2 : ℚ) ^ e := zpow_le_zpow_right₀ (by norm_num) he
  have h3 : (2 : ℚ) ^ e ≤ (m : ℚ) * (2 : ℚ) ^ e := by
    calc (2 : ℚ) ^ e = 1 * (2 : ℚ) ^ e := (one_mul _).symm
      _ ≤ _ := mul_le_mul_of_nonneg_right h1 (by positivity)
  linarith

theorem two_pow_neg_148 : (2 : ℚ) ^ (-148 : ℤ) = 4 * (2 : ℚ) ^ (-150 : ℤ) := by
  rw [show (-148 : ℤ) = 2 + (-150) by norm_num, zpow_add₀ (by norm_num)]
  norm_num

theorem two_pow_neg_149 : (2 : ℚ) ^ (-149 : ℤ) = 2 * (2 : ℚ) ^ (-150 : ℤ) := by
  rw [show (-149 : ℤ) = 1 + (-150) by norm_num, zpow_add₀ (by norm_num)]
  norm_num

/-- A value whose product with a constant `c > 1/2` is the negative zero is itself the
negative zero, provided its exponent is at least `-149`. -/
theorem negZero_of_mul_const (x : F32) (mc : Nat) (ec : Int)
    (hc : (1 : ℚ) / 2 < (mc : ℚ) * (2 : ℚ) ^ ec)
    (h : IsNegZero (mul x (fin false mc ec)) ∨ IsNegZero (mul (fin false mc ec) x))
    (hx : ExpOk x) : IsNegZero x := by
  have hp : (0 : ℚ) < (2 : ℚ) ^ (-150 : ℤ) := by positivity
  have key : ∀ (s : Bool) (m : Nat) (e : Int), x = fin s m e → s = true →
      ((m : ℚ) * (2 : ℚ) ^ e) * ((mc : ℚ) * (2 : ℚ) ^ ec) ≤ (2 : ℚ) ^ (-150 : ℤ) →
      IsNegZero x := by
    intro s m e hxe hs hb
    have he := hx s m e hxe
    have hv0 : (0 : ℚ) ≤ (m : ℚ) * (2 : ℚ) ^ e := by positivity
    have hlt : (m : ℚ) * (2 : ℚ) ^ e < (2 : ℚ) ^ (-149 : ℤ) := by
      rw [two_pow_neg_149]
      by_contra hcon
      have h1 := not_lt.mp hcon
      have : 2 * (2 : ℚ) ^ (-150 : ℤ) * ((mc : ℚ) * (2 : ℚ) ^ ec)
          ≤ (m : ℚ) * (2 : ℚ) ^ e * ((mc : ℚ) * (2 : ℚ) ^ ec) :=
        mul_le_mul_of_nonneg_right h1 (by linarith)
      nlinarith
    have hm := mantissa_zero_of_lt m e he hlt
    subst hm hs
    exact ⟨e, hxe⟩
  rcases h with h | h
  · obtain ⟨s1, m1, e1, s2, m2, e2, hx1, hy1, hxor, hb⟩ := mul_negZero _ _ h
    injection hy1 with a1 a2 a3
    subst a1 a2 a3
    exact key s1 m1 e1 hx1 (by simpa using hxor) hb
  · obtain ⟨s1, m1, e1, s2, m2, e2, hx1, hy1, hxor, hb⟩ := mul_negZero _ _ h
    injection hx1 with a1 a2 a3
    subst a1 a2 a3
    exact key s2 m2 e2 hy1 (by simpa using hxor) (by linarith)

/-- One step of the EWMA: if `0.3f * h + (1.0f - 0.3f) * a` is the negative zero, then `a`
is the negative zero and `h` has magnitude at most `2^-148`. -/
theorem ewma_step_negZero (a h : F32)
    (hz : IsNegZero (add (mul (fin false 10066330 (-25)) h) (mul (fin false 11744051 (-24)) a)))
    (ha : ExpOk a) : IsNegZero a ∧ MagLe h (-148) := by
  obtain ⟨h1, h2⟩ := add_negZero _ _ hz (expOk_mul _ _) (expOk_mul _ _)
  constructor
  · refine negZero_of_mul_const a 11744051 (-24) ?_ (Or.inr h2) ha
    rw [zpow_neg]; norm_num
  · obtain ⟨s1, m1, e1, s2, m2, e2, hx1, hy1, _, hb⟩ := mul_negZero _ _ h1
    injection hx1 with a1 a2 a3
    subst a1 a2 a3
    refine ⟨s2, m2, e2, hy1, ?_⟩
    rw [two_pow_neg_148]
    have hc : (1 : ℚ) / 4 ≤ ((10066330 : ℕ) : ℚ) * (2 : ℚ) ^ (-25 : ℤ) := by
      rw [zpow_neg]; norm_num
    have hv0 : (0 : ℚ) ≤ (m2 : ℚ) * (2 : ℚ) ^ e2 := by positivity
    generalize (m2 : ℚ) * (2 : ℚ) ^ e2 = v at hb hv0 ⊢
    generalize ((10066330 : ℕ) : ℚ) * (2 : ℚ) ^ (-25 : ℤ) = c at hb hc
    generalize (2 : ℚ) ^ (-150 : ℤ) = p at hb ⊢
    have := mul_le_mul_of_nonneg_right hc hv0
    linarith

/-- The EWMA loop, run backwards: if the final estimate is the negative zero, so is the
seed, and every later sample has magnitude at most `2^-148`. -/
theorem ewma_fold_negZero : ∀ (rest : List F32) (a : F32),
    IsNegZero (rest.foldl
      (fun ewma h => add (mul (fin false 10066330 (-25)) h) (mul (fin false 11744051 (-24)) ewma))
      a) →
    ExpOk a → IsNegZero a ∧ ∀ h ∈ rest, MagLe h (-148) := by
  intro rest
  induction rest with
  | nil => intro a hz _; exact ⟨hz, fun h hh => by simp at hh⟩
  | cons h r ih =>
    intro a hz ha
    simp only [List.foldl_cons] at hz
    obtain ⟨h1, h2⟩ := ih _ hz (expOk_add _ _)
    obtain ⟨h3, h4⟩ := ewma_step_negZero a h h1 ha
    refine ⟨h3, ?_⟩
    intro x hx
    rcases List.mem_cons.mp hx with hx | hx
    · rw [hx]; exact h4
    · exact h2 x hx

theorem expOk_ewma_fold : ∀ (rest : List F32) (a : F32), ExpOk a →
    ExpOk (rest.foldl
      (fun ewma h => add (mul (fin false 10066330 (-25)) h) (mul (fin false 11744051 (-24)) ewma))
      a) := by
  intro rest
  induction rest with
  | nil => intro a ha; exact ha
  | cons h r ih => intro a _; simp only [List.foldl_cons]; exact ih _ (expOk_add _ _)

theorem magLe_of_negZero (x : F32) (k : Int) (h : IsNegZero x) : MagLe x k := by
  obtain ⟨e, h⟩ := h
  exact ⟨true, 0, e, h, by simp; positivity⟩

theorem predict_bandwidth_eq (h0 : F32) (rest : List F32) :
    predict_bandwidth (h0 :: rest) =
      mul (rest.foldl
        (fun ewma h => add (mul (fin false 10066330 (-25)) h) (mul (fin false 11744051 (-24)) ewma))
        h0) (fin false 13421773 (-24)) := by
  have e1 : (FloatArith.ofDecimal 3 1 : F32) = fin false 10066330 (-25) := by decide
  have e2 : (FloatArith.ofDecimal 10 1 - FloatArith.ofDecimal 3 1 : F32)
      = fin false 11744051 (-24) := by decide
  have e3 : (FloatArith.ofDecimal 8 1 : F32) = fin false 13421773 (-24) := by decide
  simp only [predict_bandwidth, e1, e2, e3]
  rfl

/-- If the prediction is the negative zero, every sample of the (valid) history has magnitude
at most `2^-148`. -/
theorem predict_negZero (history : List F32) (hv : ∀ h ∈ history, h.valid = true)
    (hz : IsNegZero (predict_bandwidth history)) : ∀ h ∈ history, MagLe h (-148) := by
  cases history with
  | nil =>
    obtain ⟨e, he⟩ := hz
    have : predict_bandwidth ([] : List F32) = fin false 0 (-149) := by decide
    rw [this] at he
    injection he with h1 _ _
    exact Bool.noConfusion h1
  | cons h0 rest =>
    rw [predict_bandwidth_eq] at hz
    have hh0 : ExpOk h0 := expOk_of_valid h0 (hv h0 (List.mem_cons_self _ _))
    have hz2 := negZero_of_mul_const _ 13421773 (-24) (by rw [zpow_neg]; norm_num)
      (Or.inl hz) (expOk_ewma_fold rest h0 hh0)
    obtain ⟨h1, h2⟩ := ewma_fold_negZero rest h0 hz2 hh0
    intro x hx
    rcases List.mem_cons.mp hx with hx | hx
    · rw [hx]; exact magLe_of_negZero _ _ h1
    · exact h2 x hx

theorem expOk_predict (history : List F32) (hv : ∀ h ∈ history, h.valid = true) :
    ExpOk (predict_bandwidth history) := by
  cases history with
  | nil =>
    have : predict_bandwidth ([] : List F32) = fin false 0 (-149) := by decide
    rw [this]
    intro s m e h; injection h with _ _ h3; omega
  | cons h0 rest => rw [predict_bandwidth_eq]; exact expOk_mul _ _

/-- If the trend-adjusted bandwidth is the negative zero, so is the prediction. -/
theorem adjusted_negZero (history : List F32) (hv : ∀ h ∈ history, h.valid = true)
    (hz : IsNegZero (adjusted_bandwidth history)) : IsNegZero (predict_bandwidth history) := by
  have e85 : (FloatArith.ofDecimal 85 2 : F32) = fin false 14260634 (-24) := by decide
  have e11 : (FloatArith.ofDecimal 11 1 : F32) = fin false 9227469 (-23) := by decide
  have hp := expOk_predict history hv
  unfold adjusted_bandwidth at hz
  simp only [mul_def, e85, e11] at hz
  by_cases h1 : detect_bandwidth_trend history = -1
  · have h2 : ¬ detect_bandwidth_trend history = 1 := by omega
    rw [if_pos h1, if_neg h2] at hz
    exact negZero_of_mul_const _ 14260634 (-24) (by rw [zpow_neg]; norm_num) (Or.inl hz) hp
  · rw [if_neg h1] at hz
    by_cases h2 : detect_bandwidth_trend history = 1
    · rw [if_pos h2] at hz
      exact negZero_of_mul_const _ 9227469 (-23) (by rw [zpow_neg]; norm_num) (Or.inl hz) hp
    · rw [if_neg h2] at hz
      exact hz

theorem abs_toRat (s : Bool) (m : Nat) (e : Int) :
    |toRat (fin s m e)| = (m : ℚ) * (2 : ℚ) ^ e := by
  have h0 : (0 : ℚ) ≤ (m : ℚ) * (2 : ℚ) ^ e := by positivity
  cases s
  · rw [toRat_false, abs_of_nonneg h0]
  · rw [toRat_true, abs_neg, abs_of_nonneg h0]

/-- The sum of two finite values whose magnitudes add up to less than half an ulp above
`2^k` has magnitude at most `2^k`. -/
theorem add_magLe (s1 : Bool) (m1 : Nat) (e1 : Int) (s2 : Bool) (m2 : Nat) (e2 : Int) (k : Int)
    (hsum : (m1 : ℚ) * (2 : ℚ) ^ e1 + (m2 : ℚ) * (2 : ℚ) ^ e2
      < (2 : ℚ) ^ k + (2 : ℚ) ^ (k - 24))
    (hk1 : -126 ≤ k) (hk2 : k ≤ 127) :
    MagLe (add (fin s1 m1 e1) (fin s2 m2 e2)) k := by
  have hq := add_exact s1 m1 e1 s2 m2 e2
  simp only [add]
  generalize scaled s1 m1 e1 (min e1 e2) + scaled s2 m2 e2 (min e1 e2) = z at hq ⊢
  by_cases hz : z = 0
  · rw [if_pos hz]
    exact ⟨_, 0, -149, rfl, by simp; positivity⟩
  · rw [if_neg hz]
    have hval : ((z.natAbs : ℕ) : ℚ) / ((1 : ℕ) : ℚ) * (2 : ℚ) ^ (min e1 e2)
        = |toRat (fin s1 m1 e1) + toRat (fin s2 m2 e2)| := by
      have hp : (0 : ℚ) < (2 : ℚ) ^ (min e1 e2) := by positivity
      rw [Nat.cast_natAbs, Nat.cast_one, div_one, Int.cast_abs, hq, abs_mul,
        abs_of_pos (by positivity : (0 : ℚ) < (2 : ℚ) ^ (-(min e1 e2))), mul_assoc,
        ← zpow_add₀ (by norm_num)]
      simp
    have hle : ((z.natAbs : ℕ) : ℚ) / ((1 : ℕ) : ℚ) * (2 : ℚ) ^ (min e1 e2)
        < (2 : ℚ) ^ k + (2 : ℚ) ^ (k - 24) := by
      rw [hval]
      calc |toRat (fin s1 m1 e1) + toRat (fin s2 m2 e2)|
          ≤ |toRat (fin s1 m1 e1)| + |toRat (fin s2 m2 e2)| := abs_add _ _
        _ = (m1 : ℚ) * (2 : ℚ) ^ e1 + (m2 : ℚ) * (2 : ℚ) ^ e2 := by
            rw [abs_toRat, abs_toRat]
        _ < _ := hsum
    obtain ⟨m, t, hr, _, hb⟩ := round_le_pow_slack (decide (z < 0)) z.natAbs 1 (min e1 e2) k
      (by norm_num) hle hk1 hk2
    exact ⟨_, m, t, hr, hb⟩

/-- `(float)i` of an integer `i >= 1` is `+inf` or a finite positive value of at least 1. -/
theorem ofInt_pos_form (i : Int) (hi : 1 ≤ i) :
    F32.ofInt i = inf false ∨
      ∃ m t, F32.ofInt i = fin false m t ∧ (1 : ℚ) ≤ (m : ℚ) * (2 : ℚ) ^ t := by
  unfold F32.ofInt
  have hneg : decide (i < 0) = false := by simp; omega
  rw [hneg]
  have hx : (2 : ℚ) ^ (0 : ℤ) ≤ ((i.natAbs : ℕ) : ℚ) / ((1 : ℕ) : ℚ) * (2 : ℚ) ^ (0 : ℤ) := by
    have : 1 ≤ i.natAbs := by omega
    have : (1 : ℚ) ≤ ((i.natAbs : ℕ) : ℚ) := by exact_mod_cast this
    simpa using this
  rcases round_ge_pow false i.natAbs 1 0 0 (by norm_num) hx (by norm_num) with h | ⟨m, t, h, _, hb⟩
  · exact Or.inl h
  · exact Or.inr ⟨m, t, h, by simpa using hb⟩

/-- Dividing by `(float)i`, `i >= 1`, does not increase the magnitude bound. -/
theorem div_ofInt_magLe (a : F32) (i : Int) (k : Int) (ha : MagLe a k) (hi : 1 ≤ i)
    (hk1 : -149 ≤ k) (hk2 : k ≤ 127) : MagLe (div a (F32.ofInt i)) k := by
  obtain ⟨s, m, e, ha, hb⟩ := ha
  subst ha
  rcases ofInt_pos_form i hi with h | ⟨mi, ti, h, hge⟩
  · rw [h]
    exact ⟨_, 0, -149, by simp [div]; rfl, by simp; positivity⟩
  · rw [h]
    have hmi : mi ≠ 0 := by
      intro h0; rw [h0] at hge; simp at hge; linarith
    have hd : div (fin s m e) (fin false mi ti) = round (xor s false) m mi (e - ti) := by
      simp [div, hmi]
    rw [hd]
    have hmiq : (0 : ℚ) < (mi : ℚ) := by
      have : 0 < mi := by omega
      exact_mod_cast this
    have hx : (m : ℚ) / (mi : ℚ) * (2 : ℚ) ^ (e - ti) ≤ (2 : ℚ) ^ k := by
      have e1 : (m : ℚ) / (mi : ℚ) * (2 : ℚ) ^ (e - ti)
          = ((m : ℚ) * (2 : ℚ) ^ e) / ((mi : ℚ) * (2 : ℚ) ^ ti) := by
        rw [zpow_sub₀ (by norm_num)]
        field_simp
      rw [e1]
      have hv0 : (0 : ℚ) ≤ (m : ℚ) * (2 : ℚ) ^ e := by positivity
      calc (m : ℚ) * (2 : ℚ) ^ e / ((mi : ℚ) * (2 : ℚ) ^ ti)
          ≤ (m : ℚ) * (2 : ℚ) ^ e / 1 := div_le_div_of_nonneg_left hv0 (by norm_num) hge
        _ = (m : ℚ) * (2 : ℚ) ^ e := div_one _
        _ ≤ _ := hb
    obtain ⟨m', t', hr, _, hb'⟩ := round_le_pow (xor s false) m mi (e - ti) k (by omega) hx hk1 hk2
    exact ⟨_, m', t', hr, hb'⟩

/-- The square of a value of magnitude at most `2^-100` underflows to `+0`. -/
theorem mul_self_eq_zero (d : F32) (hd : MagLe d (-100)) : mul d d = fin false 0 (-149) := by
  obtain ⟨s, m, e, hd, hb⟩ := hd
  subst hd
  simp only [mul, Bool.xor_self]
  apply round_small
  · norm_num
  · have hv0 : (0 : ℚ) ≤ (m : ℚ) * (2 : ℚ) ^ e := by positivity
    have e1 : ((m * m : ℕ) : ℚ) / ((1 : ℕ) : ℚ) * (2 : ℚ) ^ (e + e)
        = ((m : ℚ) * (2 : ℚ) ^ e) * ((m : ℚ) * (2 : ℚ) ^ e) := by
      push_cast
      rw [zpow_add₀ (by norm_num)]
      ring
    rw [e1]
    have h200 : (2 : ℚ) ^ (-100 : ℤ) * (2 : ℚ) ^ (-100 : ℤ) = (2 : ℚ) ^ (-200 : ℤ) := by
      rw [← zpow_add₀ (by norm_num)]; norm_num
    calc (m : ℚ) * (2 : ℚ) ^ e * ((m : ℚ) * (2 : ℚ) ^ e)
        ≤ (2 : ℚ) ^ (-100 : ℤ) * (2 : ℚ) ^ (-100 : ℤ) :=
          mul_le_mul hb hb hv0 (by positivity)
      _ = (2 : ℚ) ^ (-200 : ℤ) := h200
      _ < (2 : ℚ) ^ (-150 : ℤ) := zpow_lt_zpow_right₀ (by norm_num) (by norm_num)

theorem magLe_neg (x : F32) (k : Int) (h : MagLe x k) : MagLe (neg x) k := by
  obtain ⟨s, m, e, hx, hb⟩ := h
  subst hx
  exact ⟨!s, m, e, rfl, hb⟩

/-- Adding a value of magnitude at most `2^-148` to one of magnitude at most `2^-100`, in
either order, gives a value of magnitude at most `2^-100`. -/
theorem add_small (a h : F32) (ha : MagLe a (-100)) (hh : MagLe h (-148)) :
    MagLe (add a h) (-100) ∧ MagLe (add h a) (-100) := by
  obtain ⟨s1, m1, e1, ha, hb1⟩ := ha
  obtain ⟨s2, m2, e2, hh, hb2⟩ := hh
  subst ha hh
  have h148 : (2 : ℚ) ^ (-148 : ℤ) < (2 : ℚ) ^ (-100 - 24 : ℤ) :=
    zpow_lt_zpow_right₀ (by norm_num) (by norm_num)
  constructor
  · exact add_magLe _ _ _ _ _ _ (-100) (by linarith) (by norm_num) (by norm_num)
  · exact add_magLe _ _ _ _ _ _ (-100) (by linarith) (by norm_num) (by norm_num)

theorem ofInt_def (i : Int) : (FloatArith.ofInt i : F32) = F32.ofInt i := rfl

theorem magLe_zero (k : Int) : MagLe (fin false 0 (-149)) k :=
  ⟨false, 0, -149, rfl, by simp; positivity⟩

theorem total_magLe : ∀ (l : List F32) (acc : F32), MagLe acc (-100) →
    (∀ x ∈ l, MagLe x (-148)) → MagLe (l.foldl (fun mean h => add mean h) acc) (-100) := by
  intro l
  induction l with
  | nil => intro acc ha _; exact ha
  | cons h r ih =>
    intro acc ha hl
    simp only [List.foldl_cons]
    exact ih _ (add_small acc h ha (hl h (List.mem_cons_self _ _))).1
      (fun x hx => hl x (List.mem_cons_of_mem _ hx))

theorem variance_fold_zero (mean : F32) (hm : MagLe mean (-100)) : ∀ (l : List F32),
    (∀ x ∈ l, MagLe x (-148)) →
    l.foldl (fun variance h => add variance (mul (sub h mean) (sub h mean)))
      (fin false 0 (-149)) = fin false 0 (-149) := by
  intro l
  induction l with
  | nil => intro _; rfl
  | cons h r ih =>
    intro hl
    simp only [List.foldl_cons]
    have hd : MagLe (sub h mean) (-100) :=
      (add_small (neg mean) h (magLe_neg mean _ hm) (hl h (List.mem_cons_self _ _))).2
    rw [mul_self_eq_zero _ hd]
    have : add (fin false 0 (-149)) (fin false 0 (-149)) = fin false 0 (-149) := by decide
    rw [this]
    exact ih (fun x hx => hl x (List.mem_cons_of_mem _ hx))

theorem zero_div_ofInt (i : Int) (hi : 1 ≤ i) :
    div (fin false 0 (-149)) (F32.ofInt i) = fin false 0 (-149) := by
  rcases ofInt_pos_form i hi with h | ⟨m, t, h, hge⟩
  · rw [h]; rfl
  · rw [h]
    have hm : m ≠ 0 := by
      intro h0; rw [h0] at hge; simp at hge; linarith
    simp [div, hm, round]

/-- The variance of a history whose samples all have magnitude at most `2^-148` is `+0`:
every squared deviation underflows. -/
theorem variance_zero_of_tiny (history : List F32) (h : ∀ x ∈ history, MagLe x (-148)) :
    calculate_bandwidth_variance history = fin false 0 (-149) := by
  unfold calculate_bandwidth_variance
  simp only [add_def, sub_def, mul_def, div_def, ofDecimal_zero, ofInt_def]
  split_ifs with hlen
  · rfl
  · have hmean : MagLe (div (history.foldl (fun mean h => add mean h) (fin false 0 (-149)))
        (F32.ofInt (history.length : Int))) (-100) :=
      div_ofInt_magLe _ _ _ (total_magLe history _ (magLe_zero _) h) (by omega)
        (by norm_num) (by norm_num)
    rw [variance_fold_zero _ hmean history h]
    exact zero_div_ofInt _ (by omega)

theorem fmul_comm (a b : F32) : mul a b = mul b a := by
  cases a <;> cases b <;> simp only [mul, Bool.xor_comm, Nat.mul_comm, Int.add_comm]

/-- Five times a positive binary32 value is positive: the product cannot underflow to
zero. -/
theorem mul_five_pos (d : F32) (hd : ExpOk d) (h : lt (fin false 0 (-149)) d = true) :
    lt (fin false 0 (-149)) (mul d (fin false 10485760 (-21))) = true := by
  rcases (zero_lt_iff d).mp h with h | ⟨m, e, h, hm⟩
  · subst h; decide
  · subst h
    have he : -149 ≤ e := hd false m e rfl
    apply (zero_lt_iff _).mpr
    have hx : (2 : ℚ) ^ (-150 : ℤ) < ((m * 10485760 : Nat) : ℚ) / (1 : Nat) * 2 ^ (e + -21) := by
      have h1 : (2 : ℚ) ^ (-149 : ℤ) ≤ (2 : ℚ) ^ e := zpow_le_zpow_right₀ (by norm_num) he
      have h2 : (2 : ℚ) ^ (e + -21) = (2 : ℚ) ^ e * (2 : ℚ) ^ (-21 : ℤ) := by
        rw [zpow_add₀ (by norm_num)]
      have h3 : (2 : ℚ) ^ (-150 : ℤ) < (2 : ℚ) ^ (-149 : ℤ) :=
        zpow_lt_zpow_right₀ (by norm_num) (by norm_num)
      have h4 : (2 : ℚ) ^ (-21 : ℤ) * 10485760 = 5 := by
        rw [zpow_neg]; norm_num
      have hm' : (1 : ℚ) ≤ (m : ℚ) := by exact_mod_cast hm
      have hp : (0 : ℚ) < (2 : ℚ) ^ e := by positivity
      rw [h2]
      push_cast
      have : (m : ℚ) * 10485760 / 1 * ((2 : ℚ) ^ e * (2 : ℚ) ^ (-21 : ℤ))
          = (m : ℚ) * (2 : ℚ) ^ e * ((2 : ℚ) ^ (-21 : ℤ) * 10485760) := by ring
      rw [this, h4]
      nlinarith
    have hr := round_pos_strict false (m * 10485760) 1 (e + -21) (by norm_num) hx
    simp only [mul, Bool.xor_false]
    rcases hr with hr | ⟨m', t', hr, hm1, _⟩
    · left; exact hr
    · right; exact ⟨m', t', hr, hm1⟩

/-- The quotient of a positive value by a larger one lies in `[0, 1]`. -/
theorem div_lt_unit (b t : F32) (h0 : lt (fin false 0 (-149)) b = true) (h1 : lt b t = true) :
    le (fin false 0 (-149)) (div b t) = true ∧
    le (div b t) (fin false 8388608 (-23)) = true := by
  rcases (zero_lt_iff b).mp h0 with hb | ⟨mb, eb, hb, hmb⟩
  · subst hb
    cases t with
    | nan => simp [lt] at h1
    | inf s => cases s <;> simp [lt] at h1
    | fin s m e => simp [lt] at h1
  · subst hb
    cases t with
    | nan => simp [lt] at h1
    | inf s =>
      cases s
      · have hd : div (fin false mb eb) (inf false) = fin false 0 (-149) := rfl
        rw [hd]
        exact ⟨by decide, by decide⟩
      · simp [lt] at h1
    | fin s m e =>
      have hlt := (lt_fin_iff _ _ _ _ _ _).mp h1
      have hbpos : 0 < toRat (fin false mb eb) := (toRat_pos_iff _ _ _).mpr ⟨rfl, hmb⟩
      have htpos : 0 < toRat (fin s m e) := lt_trans hbpos hlt
      obtain ⟨hs, hm⟩ := (toRat_pos_iff _ _ _).mp htpos
      subst hs
      have hm0 : m ≠ 0 := by omega
      rw [toRat_false, toRat_false] at hlt
      have hx : (mb : ℚ) / (m : ℚ) * 2 ^ (eb - e) ≤ (2 : ℚ) ^ (0 : ℤ) := by
        rw [zpow_sub₀ (by norm_num : (2 : ℚ) ≠ 0), zpow_zero]
        have hmq : (0 : ℚ) < (m : ℚ) := by exact_mod_cast hm
        have hpe : (0 : ℚ) < (2 : ℚ) ^ e := by positivity
        have : (mb : ℚ) / (m : ℚ) * ((2 : ℚ) ^ eb / (2 : ℚ) ^ e)
            = ((mb : ℚ) * (2 : ℚ) ^ eb) / ((m : ℚ) * (2 : ℚ) ^ e) := by
          field_simp
        rw [this, div_le_one (by positivity)]
        exact hlt.le
      obtain ⟨m', t', hr, _, hle⟩ := round_le_pow false mb m (eb - e) 0 (by omega) hx
        (by norm_num) (by norm_num)
      have hd : div (fin false mb eb) (fin false m e) = fin false m' t' := by
        simp only [div, if_neg hm0, Bool.xor_false]
        exact hr
      rw [hd]
      constructor
      · exact (zero_le_iff _).mpr (Or.inr ⟨false, m', t', rfl, Or.inl rfl⟩)
      · rw [le_fin_iff, toRat_one, toRat_false]
        simpa using hle

theorem round_notNaN (neg : Bool) (n d : Nat) (e : Int) : (round neg n d e).isNaN = false := by
  rcases round_form neg n d e with h | ⟨m, t, h, _⟩ <;> rw [h] <;> rfl

/-- A finite value plus a value that is not NaN is not NaN. -/
theorem add_fin_notNaN (s : Bool) (m : Nat) (e : Int) (y : F32) (hy : y.isNaN = false) :
    (add (fin s m e) y).isNaN = false := by
  cases y with
  | nan => exact absurd hy (by decide)
  | inf t => rfl
  | fin t m2 e2 =>
    simp only [add]
    split_ifs
    · rfl
    · exact round_notNaN _ _ _ _

/-- A finite non-zero value divided by a value that is not NaN is not NaN. -/
theorem div_fin_notNaN (s : Bool) (m : Nat) (e : Int) (y : F32) (hm : m ≠ 0)
    (hy : y.isNaN = false) : (div (fin s m e) y).isNaN = false := by
  cases y with
  | nan => exact absurd hy (by decide)
  | inf t => rfl
  | fin t m2 e2 =>
    simp only [div]
    split_ifs
    · rfl
    · exact round_notNaN _ _ _ _

theorem neg_notNaN (y : F32) (hy : y.isNaN = false) : (neg y).isNaN = false := by
  cases y with
  | nan => exact absurd hy (by decide)
  | inf t => rfl
  | fin t m e => rfl

/-- With a finite positive buffer, a finite positive download time and a segment duration
that is not NaN, the time to rebuffer is not NaN. -/
theorem time_to_rebuffer_finite_notNaN (b dt sd : F32) (hb : b.isFinite = true)
    (hdt : dt.isFinite = true) (hsd : sd.isNaN = false)
    (hb0 : le b (fin false 0 (-149)) = false) (hdt0 : le dt (fin false 0 (-149)) = false) :
    (div b (sub (fin false 8388608 (-23)) (div dt sd))).isNaN = false := by
  cases b with
  | nan => exact Bool.noConfusion hb
  | inf s => exact Bool.noConfusion hb
  | fin sb mb eb =>
    cases dt with
    | nan => exact Bool.noConfusion hdt
    | inf s => exact Bool.noConfusion hdt
    | fin sd' md ed =>
      have hmb : mb ≠ 0 := by
        intro h
        subst h
        have : le (fin sb 0 eb) (fin false 0 (-149)) = true := by
          rw [le_fin_iff, toRat_zero, toRat_zero]
        rw [this] at hb0
        exact Bool.noConfusion hb0
      have hmd : md ≠ 0 := by
        intro h
        subst h
        have : le (fin sd' 0 ed) (fin false 0 (-149)) = true := by
          rw [le_fin_iff, toRat_zero, toRat_zero]
        rw [this] at hdt0
        exact Bool.noConfusion hdt0
      apply div_fin_notNaN _ _ _ _ hmb
      unfold sub
      apply add_fin_notNaN
      apply neg_notNaN
      exact div_fin_notNaN _ _ _ _ hmd hsd

/-- The two orders of the clamp to `[0, 1]` agree on every value that is not NaN. -/
theorem clamp_comm (x : F32) (hx : x.isNaN = false) :
    fmaxf (fin false 0 (-149)) (fminf (fin false 8388608 (-23)) x) =
      fminf (fin false 8388608 (-23)) (fmaxf (fin false 0 (-149)) x) := by
  have l01 : lt (fin false 0 (-149)) (fin false 8388608 (-23)) = true := by decide
  have l10 : lt (fin false 8388608 (-23)) (fin false 0 (-149)) = false := by decide
  cases x with
  | nan => exact absurd hx (by decide)
  | inf s => cases s <;> decide
  | fin s m e =>
    cases s
    · -- non-negative
      cases h1 : lt (fin false 8388608 (-23)) (fin false m e) <;>
      cases h0 : lt (fin false 0 (-149)) (fin false m e)
      · simp [fminf, fmaxf, isNaN, signbit, h1, h0, l10]
      · simp [fminf, fmaxf, isNaN, signbit, h1, h0]
      · exact absurd (flt_trans l01 h1) (by rw [h0]; exact Bool.noConfusion)
      · simp [fminf, fmaxf, isNaN, signbit, h1, h0, l01]
    · simp [fminf, fmaxf, isNaN, signbit, l10]

end F32

/-! ## The ladder, the loops and the spec-level definitions -/

theorem bitrateAt_some (q : Int) (h0 : 0 ≤ q) (h1 : q < 6) : ∃ rate, bitrateAt q = some rate := by
  have : q = 0 ∨ q = 1 ∨ q = 2 ∨ q = 3 ∨ q = 4 ∨ q = 5 := by omega
  rcases this with h | h | h | h | h | h <;> subst h <;> exact ⟨_, rfl⟩

theorem bitrateAt_none (q : Int) (h : q < 0 ∨ 6 ≤ q) : bitrateAt q = none := by
  unfold bitrateAt
  rcases h with h | h
  · rw [if_neg (by omega)]
  · rw [if_pos (by omega)]
    have : 6 ≤ q.toNat := by omega
    simp [QUALITY_BITRATES, this]

theorem actualMax_eq (max_quality : Int) :
    (if max_quality < NUM_QUALITIES then max_quality else NUM_QUALITIES - 1) = min max_quality 5 := by
  unfold NUM_QUALITIES
  split_ifs <;> omega

section Generic

variable {α : Type} [FloatArith α]

/-- The search loop returns, and its result is the initial best level or one of the
candidates it visited. -/
theorem maximizeLoop_range (bandwidth buffer_seconds segment_duration : α) (current_quality : Int) :
    ∀ (steps : Nat) (q : Int) (st : Int × α), 0 ≤ q → q + steps ≤ 6 →
      ∃ st', maximizeLoop bandwidth buffer_seconds segment_duration current_quality steps q st
          = some st' ∧ (st'.1 = st.1 ∨ (q ≤ st'.1 ∧ st'.1 < q + steps)) := by
  intro steps
  induction steps with
  | zero => intro q st _ _; exact ⟨st, rfl, Or.inl rfl⟩
  | succ n ih =>
    intro q st h0 h1
    obtain ⟨rate, hr⟩ := bitrateAt_some q h0 (by omega)
    unfold maximizeLoop
    rw [hr]
    simp only []
    push_cast at h1
    obtain ⟨st', hs, hst⟩ := ih (q + 1)
      (if st.2 < candidateQoe bandwidth buffer_seconds segment_duration current_quality q rate
        then (q, candidateQoe bandwidth buffer_seconds segment_duration current_quality q rate)
        else st) (by omega) (by omega)
    refine ⟨st', hs, ?_⟩
    push_cast
    split_ifs at hst with hc
    · simp only at hst
      rcases hst with h | h
      · right; omega
      · right; omega
    · rcases hst with h | h
      · left; exact h
      · right; omega

theorem select_quality_maximize_qoe_range (bandwidth buffer_seconds segment_duration : α)
    (current_quality max_quality : Int) (h : 0 ≤ max_quality) :
    ∃ q, select_quality_maximize_qoe bandwidth buffer_seconds segment_duration
        current_quality max_quality = some q ∧ 0 ≤ q ∧ q ≤ min max_quality 5 := by
  unfold select_quality_maximize_qoe
  simp only [actualMax_eq]
  obtain ⟨st', hs, hst⟩ := maximizeLoop_range bandwidth buffer_seconds segment_duration
    current_quality (min max_quality 5 + 1).toNat 0 (0, -(ofDecimal 10 1)) (le_refl _)
    (by have := min_le_right max_quality 5; omega)
  rw [hs]
  refine ⟨st'.1, rfl, ?_⟩
  have h5 : 0 ≤ min max_quality 5 := le_min h (by norm_num)
  rcases hst with h1 | h1
  · simp only at h1; omega
  · omega

end Generic

theorem estimate_qoe_unit (q : Int) (r s : F32) :
    F32.le (ofDecimal 0 1) (estimate_qoe q r s) = true ∧
    F32.le (estimate_qoe q r s) (ofDecimal 10 1) = true := by
  unfold estimate_qoe
  split_ifs
  · exact ⟨by decide, by decide⟩
  · exact F32.clamp_unit _

theorem utility_unit (bandwidth buffer_seconds segment_duration : F32) (cur q : Int) :
    F32.le (ofDecimal 0 1) (utility bandwidth buffer_seconds segment_duration cur q) = true ∧
    F32.le (utility bandwidth buffer_seconds segment_duration cur q) (ofDecimal 10 1) = true :=
  estimate_qoe_unit _ _ _

theorem utility_notNaN (bandwidth buffer_seconds segment_duration : F32) (cur q : Int) :
    (utility bandwidth buffer_seconds segment_duration cur q).isNaN = false :=
  (F32.fle_notNaN (utility_unit bandwidth buffer_seconds segment_duration cur q).1).2

theorem candidateQoe_eq_utility (bandwidth buffer_seconds segment_duration : F32) (cur q rate : Int)
    (h : bitrateAt q = some rate) :
    candidateQoe bandwidth buffer_seconds segment_duration cur q rate
      = utility bandwidth buffer_seconds segment_duration cur q := by
  unfold candidateQoe utility ladderRate
  rw [h]
  rfl

theorem maximizeLoop_best (bandwidth buffer_seconds segment_duration : F32) (cur : Int) :
    ∀ (steps : Nat) (q : Int) (st : Int × F32), 0 ≤ q → q + steps ≤ 6 →
      BestSoFar bandwidth buffer_seconds segment_duration cur st q →
      ∃ st', maximizeLoop bandwidth buffer_seconds segment_duration cur steps q st = some st' ∧
        BestSoFar bandwidth buffer_seconds segment_duration cur st' (q + steps) := by
  intro steps
  induction steps with
  | zero => intro q st _ _ hinv; exact ⟨st, rfl, by simpa using hinv⟩
  | succ n ih =>
    intro q st h0 h1 hinv
    obtain ⟨rate, hr⟩ := bitrateAt_some q h0 (by omega)
    unfold maximizeLoop
    rw [hr]
    simp only []
    rw [candidateQoe_eq_utility _ _ _ _ _ _ hr]
    push_cast at h1
    have hstep : BestSoFar bandwidth buffer_seconds segment_duration cur
        (if st.2 < utility bandwidth buffer_seconds segment_duration cur q
          then (q, utility bandwidth buffer_seconds segment_duration cur q) else st) (q + 1) := by
      obtain ⟨i0, i1, i2, i3, i4⟩ := hinv
      by_cases hc : st.2 < utility bandwidth buffer_seconds segment_duration cur q
      · rw [if_pos hc]
        have hc' : F32.lt st.2 (utility bandwidth buffer_seconds segment_duration cur q) = true := hc
        -- every earlier candidate is at most the old best, hence below the new one
        have hlow : ∀ j, 0 ≤ j → j < q →
            F32.lt (utility bandwidth buffer_seconds segment_duration cur j)
              (utility bandwidth buffer_seconds segment_duration cur q) = true := by
          intro j hj0 hj1
          have hle := F32.fle_of_not_flt (F32.flt_notNaN hc').1 (utility_notNaN _ _ _ _ j)
            (i3 j hj0 hj1)
          exact F32.flt_of_fle_of_flt hle hc'
        refine ⟨h0, by simp, rfl, ?_, ?_⟩
        · intro j hj0 hj1
          simp only
          rcases (by omega : j < q ∨ j = q) with hj | hj
          · exact F32.flt_asymm (hlow j hj0 hj)
          · subst hj
            cases hh : F32.lt (utility bandwidth buffer_seconds segment_duration cur j)
              (utility bandwidth buffer_seconds segment_duration cur j)
            · rfl
            · have := F32.flt_asymm hh
              rw [hh] at this
              exact this
        · intro j hj0 hj1
          exact hlow j hj0 hj1
      · rw [if_neg hc]
        have hc' : F32.lt st.2 (utility bandwidth buffer_seconds segment_duration cur q) = false := by
          simpa [F32.lt_def] using hc
        refine ⟨i0, by omega, i2, ?_, i4⟩
        intro j hj0 hj1
        rcases (by omega : j < q ∨ j = q) with hj | hj
        · exact i3 j hj0 hj
        · subst hj; exact hc'
    obtain ⟨st', hs, hst⟩ := ih (q + 1) _ (by omega) (by omega) hstep
    refine ⟨st', hs, ?_⟩
    have e : q + 1 + (n : Int) = q + ((n + 1 : Nat) : Int) := by push_cast; ring
    rw [← e]
    exact hst

/-- The search returns the lowest-indexed candidate of maximal utility. -/
theorem select_quality_maximize_qoe_best (bandwidth buffer_seconds segment_duration : F32)
    (cur max_quality : Int) (h : 0 ≤ max_quality) :
    ∃ q, select_quality_maximize_qoe bandwidth buffer_seconds segment_duration cur max_quality
        = some q ∧ 0 ≤ q ∧ q ≤ min max_quality 5 ∧
      (∀ j, 0 ≤ j → j ≤ min max_quality 5 →
        F32.lt (utility bandwidth buffer_seconds segment_duration cur q)
          (utility bandwidth buffer_seconds segment_duration cur j) = false) ∧
      (∀ j, 0 ≤ j → j < q →
        F32.lt (utility bandwidth buffer_seconds segment_duration cur j)
          (utility bandwidth buffer_seconds segment_duration cur q) = true) := by
  have h5 : 0 ≤ min max_quality 5 := le_min h (by norm_num)
  have h6 := min_le_right max_quality 5
  obtain ⟨n, hn⟩ : ∃ n : Nat, (min max_quality 5 + 1).toNat = n + 1 :=
    ⟨(min max_quality 5).toNat, by omega⟩
  unfold select_quality_maximize_qoe
  simp only [actualMax_eq]
  rw [hn]
  -- the first iteration replaces the initial best_qoe of -1
  obtain ⟨rate, hr⟩ := bitrateAt_some 0 (le_refl _) (by norm_num)
  have hfirst : -(ofDecimal 10 1) < utility bandwidth buffer_seconds segment_duration cur 0 :=
    F32.flt_of_flt_of_fle (by decide : F32.lt (-(ofDecimal 10 1)) (ofDecimal 0 1) = true)
      (utility_unit _ _ _ _ 0).1
  unfold maximizeLoop
  rw [hr]
  simp only []
  rw [candidateQoe_eq_utility _ _ _ _ _ _ hr, if_pos hfirst]
  have hinv : BestSoFar bandwidth buffer_seconds segment_duration cur
      (0, utility bandwidth buffer_seconds segment_duration cur 0) (0 + 1) := by
    refine ⟨le_refl _, by norm_num, rfl, ?_, ?_⟩
    · intro j hj0 hj1
      have : j = 0 := by omega
      subst this
      simp only
      cases hh : F32.lt (utility bandwidth buffer_seconds segment_duration cur 0)
        (utility bandwidth buffer_seconds segment_duration cur 0)
      · rfl
      · have := F32.flt_asymm hh
        rw [hh] at this
        exact this
    · intro j hj0 hj1
      simp only at hj1
      omega
  obtain ⟨st', hs, i0, i1, i2, i3, i4⟩ := maximizeLoop_best bandwidth buffer_seconds
    segment_duration cur n (0 + 1) _ (by norm_num) (by omega) hinv
  rw [hs]
  refine ⟨st'.1, rfl, i0, by omega, ?_, ?_⟩
  · intro j hj0 hj1
    rw [← i2]
    exact i3 j hj0 (by omega)
  · intro j hj0 hj1
    rw [← i2]
    exact i4 j hj0 hj1

section Generic

variable {α : Type} [FloatArith α]

theorem ladderRate_of_bitrateAt {q rate : Int} (h : bitrateAt q = some rate) :
    ladderRate q = rate := by
  unfold ladderRate; rw [h]; rfl

/-- The ascending scan of `select_quality_level` returns the initial value when no index of
its range fits the bandwidth, and otherwise the highest index of the range that fits. -/
theorem bandwidthQualityLoop_spec (bandwidth : α) :
    ∀ (steps : Nat) (i bq : Int), 0 ≤ i → i + steps ≤ 6 →
      ∃ r, bandwidthQualityLoop bandwidth steps i bq = some r ∧
        ((r = bq ∧ ∀ j, i ≤ j → j < i + steps →
            ¬ ofInt (ladderRate j) ≤ bandwidth * ofDecimal 9 1) ∨
         (i ≤ r ∧ r < i + steps ∧ ofInt (ladderRate r) ≤ bandwidth * ofDecimal 9 1 ∧
            ∀ j, r < j → j < i + steps →
              ¬ ofInt (ladderRate j) ≤ bandwidth * ofDecimal 9 1)) := by
  intro steps
  induction steps with
  | zero =>
    intro i bq _ _
    exact ⟨bq, rfl, Or.inl ⟨rfl, fun j h1 h2 => by simp at h2; omega⟩⟩
  | succ n ih =>
    intro i bq h0 h1
    push_cast at h1
    obtain ⟨rate, hr⟩ := bitrateAt_some i h0 (by omega)
    have hl := ladderRate_of_bitrateAt hr
    unfold bandwidthQualityLoop
    rw [hr]
    simp only []
    obtain ⟨r, hs, hcase⟩ := ih (i + 1)
      (if ofInt rate ≤ bandwidth * ofDecimal 9 1 then i else bq) (by omega) (by omega)
    refine ⟨r, hs, ?_⟩
    push_cast
    rcases hcase with ⟨hr1, hr2⟩ | ⟨hr1, hr2, hr3, hr4⟩
    · by_cases hfit : ofInt rate ≤ bandwidth * ofDecimal 9 1
      · rw [if_pos hfit] at hr1
        right
        refine ⟨by omega, by omega, by rw [hr1, hl]; exact hfit, ?_⟩
        intro j hj1 hj2
        exact hr2 j (by omega) (by omega)
      · rw [if_neg hfit] at hr1
        left
        refine ⟨hr1, ?_⟩
        intro j hj1 hj2
        rcases (by omega : j = i ∨ i + 1 ≤ j) with hj | hj
        · subst hj; rw [hl]; exact hfit
        · exact hr2 j hj (by omega)
    · right
      exact ⟨by omega, by omega, hr3, fun j hj1 hj2 => hr4 j hj1 (by omega)⟩

/-- The spec's affordable level is 0 when no index of `1 .. n` fits, and otherwise the
highest index of `1 .. n` that fits. -/
theorem affordableFrom_spec (bandwidth : α) :
    ∀ n : Nat,
      (affordableFrom bandwidth n = 0 ∧ ∀ j : Int, 1 ≤ j → j ≤ n →
          ¬ ofInt (ladderRate j) ≤ bandwidth * ofDecimal 9 1) ∨
      (1 ≤ affordableFrom bandwidth n ∧ affordableFrom bandwidth n ≤ n ∧
        ofInt (ladderRate (affordableFrom bandwidth n)) ≤ bandwidth * ofDecimal 9 1 ∧
        ∀ j : Int, affordableFrom bandwidth n < j → j ≤ n →
          ¬ ofInt (ladderRate j) ≤ bandwidth * ofDecimal 9 1) := by
  intro n
  induction n with
  | zero => left; exact ⟨rfl, fun j h1 h2 => by simp at h2; omega⟩
  | succ n ih =>
    unfold affordableFrom
    by_cases hfit : ofInt (ladderRate ((n : Int) + 1)) ≤ bandwidth * ofDecimal 9 1
    · rw [if_pos hfit]
      right
      refine ⟨by omega, by push_cast; omega, hfit, ?_⟩
      intro j h1 h2
      push_cast at h2
      omega
    · rw [if_neg hfit]
      rcases ih with ⟨h1, h2⟩ | ⟨h1, h2, h3, h4⟩
      · left
        refine ⟨h1, ?_⟩
        intro j hj1 hj2
        push_cast at hj2
        rcases (by omega : j = (n : Int) + 1 ∨ j ≤ n) with hj | hj
        · rw [hj]; exact hfit
        · exact h2 j hj1 hj
      · right
        refine ⟨h1, by push_cast; omega, h3, ?_⟩
        intro j hj1 hj2
        push_cast at hj2
        rcases (by omega : j = (n : Int) + 1 ∨ j ≤ n) with hj | hj
        · rw [hj]; exact hfit
        · exact h4 j hj1 hj

theorem affordable_level_range (bandwidth : α) (max_quality : Int) (h : 0 ≤ max_quality) :
    0 ≤ affordable_level bandwidth max_quality ∧
    affordable_level bandwidth max_quality ≤ max_quality := by
  unfold affordable_level
  rcases affordableFrom_spec bandwidth max_quality.toNat with ⟨h1, _⟩ | ⟨h1, h2, _, _⟩
  · rw [h1]; exact ⟨le_refl _, h⟩
  · omega

/-- The scan in the source computes the spec's affordable level. -/
theorem bandwidthQualityLoop_eq (bandwidth : α) (max_quality : Int) (h0 : 0 ≤ max_quality)
    (h1 : max_quality ≤ 5) :
    bandwidthQualityLoop bandwidth (max_quality + 1).toNat 0 0
      = some (affordable_level bandwidth max_quality) := by
  obtain ⟨r, hs, hcase⟩ := bandwidthQualityLoop_spec bandwidth (max_quality + 1).toNat 0 0
    (le_refl _) (by omega)
  rw [hs]
  congr 1
  unfold affordable_level
  have hn : ((max_quality + 1).toNat : Int) = max_quality + 1 := by omega
  have hm : ((max_quality.toNat : Nat) : Int) = max_quality := by omega
  rw [hn] at hcase
  have hB := affordableFrom_spec bandwidth max_quality.toNat
  rw [hm] at hB
  generalize affordableFrom bandwidth max_quality.toNat = a at hB ⊢
  rcases hcase with ⟨c1, c2⟩ | ⟨c1, c2, c3, c4⟩
  · rcases hB with ⟨b1, _⟩ | ⟨b1, b2, b3, _⟩
    · rw [c1, b1]
    · exact absurd b3 (c2 a (by omega) (by omega))
  · rcases hB with ⟨b1, b2⟩ | ⟨b1, b2, b3, b4⟩
    · rcases (by omega : r = 0 ∨ 1 ≤ r) with hr | hr
      · rw [hr, b1]
      · exact absurd c3 (b2 r hr (by omega))
    · rcases lt_trichotomy r a with hlt | heq | hgt
      · exact absurd b3 (c4 a hlt (by omega))
      · exact heq
      · exact absurd c3 (b4 r hgt (by omega))

end Generic

theorem select_quality_maximize_qoe_ladder {α : Type} [FloatArith α]
    (bandwidth buffer_seconds segment_duration : α) (current_quality max_quality : Int) :
    ∃ q, select_quality_maximize_qoe bandwidth buffer_seconds segment_duration
        current_quality max_quality = some q ∧ 0 ≤ q ∧ q ≤ 5 := by
  unfold select_quality_maximize_qoe
  simp only [actualMax_eq]
  obtain ⟨st', hs, hst⟩ := maximizeLoop_range bandwidth buffer_seconds segment_duration
    current_quality (min max_quality 5 + 1).toNat 0 (0, -(ofDecimal 10 1)) (le_refl _)
    (by have := min_le_right max_quality 5; omega)
  rw [hs]
  refine ⟨st'.1, rfl, ?_⟩
  have := min_le_right max_quality 5
  rcases hst with h1 | h1
  · simp only at h1; omega
  · omega

theorem ladder_ofInt (q rate : Int) (h : bitrateAt q = some rate) :
    ∃ mr er, (ofInt rate : F32) = F32.fin false mr er := by
  have hq : 0 ≤ q ∧ q < 6 := by
    by_contra hc
    rw [bitrateAt_none q (by omega)] at h
    exact Option.noConfusion h
  have aux : ∀ r0 : Int, bitrateAt q = some r0 →
      (∃ mr er, (ofInt r0 : F32) = F32.fin false mr er) →
      ∃ mr er, (ofInt rate : F32) = F32.fin false mr er := by
    intro r0 hk hf
    rw [hk] at h
    injection h with h
    subst h
    exact hf
  have : q = 0 ∨ q = 1 ∨ q = 2 ∨ q = 3 ∨ q = 4 ∨ q = 5 := by omega
  rcases this with h1 | h1 | h1 | h1 | h1 | h1 <;> subst h1
  · exact aux 400 (by decide) ⟨_, _, rfl⟩
  · exact aux 800 (by decide) ⟨_, _, rfl⟩
  · exact aux 1500 (by decide) ⟨_, _, rfl⟩
  · exact aux 3000 (by decide) ⟨_, _, rfl⟩
  · exact aux 6000 (by decide) ⟨_, _, rfl⟩
  · exact aux 12000 (by decide) ⟨_, _, rfl⟩

/-! ## The buffer regimes and the oscillation guard -/

/-- The closing bounds check of `select_quality_level` puts any target into
`0 .. actual_max`. -/
theorem ensure_bounds_range (actual_max t : Int) (h : 0 ≤ actual_max) :
    0 ≤ (if actual_max < (if t < 0 then 0 else t) then actual_max
          else (if t < 0 then 0 else t)) ∧
    (if actual_max < (if t < 0 then 0 else t) then actual_max
          else (if t < 0 then 0 else t)) ≤ actual_max := by
  split_ifs <;> omega

section Generic

variable {α : Type} [FloatArith α]

/-- For a non-negative maximum and current quality `select_quality_level` reads the ladder
inside its bounds only and returns a level of `0 .. min max_quality 5`, whatever the
arithmetic. -/
theorem select_quality_level_range (bandwidth buffer_level : α)
    (current_quality max_quality : Int) (hm : 0 ≤ max_quality) (hc : 0 ≤ current_quality) :
    ∃ q, select_quality_level bandwidth buffer_level current_quality max_quality = some q ∧
      0 ≤ q ∧ q ≤ min max_quality 5 := by
  have hM0 : 0 ≤ min max_quality 5 := le_min hm (by norm_num)
  have hM5 : min max_quality 5 ≤ 5 := min_le_right _ _
  unfold select_quality_level
  simp only [actualMax_eq]
  generalize min max_quality 5 = M at hM0 hM5 ⊢
  by_cases h1 : bandwidth ≤ ofInt 0
  · rw [if_pos h1]; exact ⟨0, rfl, le_refl _, hM0⟩
  rw [if_neg h1]
  by_cases h2 : buffer_level < ofDecimal 20 1
  · rw [if_pos h2]; exact ⟨0, rfl, le_refl _, hM0⟩
  rw [if_neg h2]
  obtain ⟨r, hs, hcase⟩ := bandwidthQualityLoop_spec bandwidth (M + 1).toNat 0 0
    (le_refl _) (by omega)
  rw [hs]
  simp only []
  by_cases h3 : buffer_level < ofDecimal 50 1
  · rw [if_pos h3]; exact ⟨_, rfl, ensure_bounds_range M _ hM0⟩
  rw [if_neg h3]
  by_cases h4 : ofDecimal 300 1 < buffer_level
  · rw [if_pos h4]; exact ⟨_, rfl, ensure_bounds_range M _ hM0⟩
  rw [if_neg h4]
  by_cases h5 : current_quality < r
  · rw [if_pos h5]
    have hr5 : r ≤ 5 := by
      rcases hcase with ⟨c, _⟩ | ⟨_, c, _, _⟩ <;> omega
    obtain ⟨rate, hrate⟩ := bitrateAt_some (current_quality + 1) (by omega) (by omega)
    rw [hrate]
    simp only []
    by_cases h6 : ofInt rate * ofDecimal 12 1 < bandwidth
    · rw [if_pos h6]; exact ⟨_, rfl, ensure_bounds_range M _ hM0⟩
    · rw [if_neg h6]
      by_cases h7 : r < current_quality
      · rw [if_pos h7]; exact ⟨_, rfl, ensure_bounds_range M _ hM0⟩
      · rw [if_neg h7]; exact ⟨_, rfl, ensure_bounds_range M _ hM0⟩
  · rw [if_neg h5]
    by_cases h7 : r < current_quality
    · rw [if_pos h7]; exact ⟨_, rfl, ensure_bounds_range M _ hM0⟩
    · rw [if_neg h7]; exact ⟨_, rfl, ensure_bounds_range M _ hM0⟩

end Generic

section Generic

variable {α : Type} [FloatArith α]

/-- On a history of five or more entries `recentSwitches` is the number of the last five
entries that differ from the current quality. -/
theorem recentSwitches_of_long (switch_history : List Int) (current_quality : Int)
    (h : 5 ≤ switch_history.length) :
    recentSwitches switch_history current_quality =
      (((switch_history.drop (switch_history.length - 5)).filter
        (fun x => x ≠ current_quality)).length : Int) := by
  unfold recentSwitches
  rw [if_pos (by omega), if_neg (by omega)]

/-- On a history of fewer than five entries `recentSwitches` is 0. -/
theorem recentSwitches_of_short (switch_history : List Int) (current_quality : Int)
    (h : switch_history.length < 5) :
    recentSwitches switch_history current_quality = 0 := by
  unfold recentSwitches
  split_ifs
  · rfl
  · omega
  · rfl

/-- The guard holds the current quality when it counted three or more switches and the
recommendation is one level away. -/
theorem select_quality_stable_suppresses (bandwidth buffer_level : α)
    (current_quality max_quality : Int) (switch_history : List Int) (r : Int)
    (hr : select_quality_level bandwidth buffer_level current_quality max_quality = some r)
    (hs : 3 ≤ recentSwitches switch_history current_quality)
    (h1 : |r - current_quality| = 1) :
    select_quality_stable bandwidth buffer_level current_quality max_quality switch_history
      = some current_quality := by
  unfold select_quality_stable
  rw [hr]
  simp only []
  have habs := Int.abs_eq_natAbs (r - current_quality)
  rw [if_pos ⟨hs, by omega⟩]

/-- The guard passes on every recommendation that is not one level away. -/
theorem select_quality_stable_passes (bandwidth buffer_level : α)
    (current_quality max_quality : Int) (switch_history : List Int) (r : Int)
    (hr : select_quality_level bandwidth buffer_level current_quality max_quality = some r)
    (h1 : |r - current_quality| ≠ 1) :
    select_quality_stable bandwidth buffer_level current_quality max_quality switch_history
      = some r := by
  unfold select_quality_stable
  rw [hr]
  simp only []
  have habs := Int.abs_eq_natAbs (r - current_quality)
  rw [if_neg (fun h => h1 (by omega))]

/-- With the current quality inside `0 .. max_quality` the guard returns a level of
`0 .. max_quality`. -/
theorem select_quality_stable_range (bandwidth buffer_level : α)
    (current_quality max_quality : Int) (switch_history : List Int)
    (hc : 0 ≤ current_quality) (hcm : current_quality ≤ max_quality) :
    ∃ q, select_quality_stable bandwidth buffer_level current_quality max_quality
        switch_history = some q ∧ 0 ≤ q ∧ q ≤ max_quality := by
  obtain ⟨r, hr, h0, h1⟩ := select_quality_level_range bandwidth buffer_level
    current_quality max_quality (by omega) hc
  have h2 : r ≤ max_quality := le_trans h1 (min_le_left _ _)
  unfold select_quality_stable
  rw [hr]
  simp only []
  split_ifs
  · exact ⟨_, rfl, hc, hcm⟩
  · exact ⟨_, rfl, h0, h2⟩

end Generic

/-! ## The predictors -/

section Generic

variable {α : Type} [FloatArith α]

/-- The estimate `e_i` depends on the samples `h[0] .. h[i]` only. -/
theorem ewma_spec_append (l1 l2 : List α) :
    ∀ i, i < l1.length → ewma_spec (l1 ++ l2) i = ewma_spec l1 i := by
  intro i
  induction i with
  | zero =>
    intro h
    unfold ewma_spec
    rw [List.getD_append _ _ _ _ h]
  | succ n ih =>
    intro h
    unfold ewma_spec
    rw [List.getD_append _ _ _ _ h, ih (by omega)]

/-- The loop of `predict_bandwidth` computes the last EWMA estimate of the spec, given that
`1.0f - 0.3f` is the constant `0.7f`. -/
theorem ewma_fold_eq_spec (h7 : (ofDecimal 10 1 - ofDecimal 3 1 : α) = ofDecimal 7 1)
    (h0 : α) (rest : List α) :
    rest.foldl (fun ewma h => (ofDecimal 3 1 : α) * h + (ofDecimal 10 1 - ofDecimal 3 1) * ewma)
      h0 = ewma_spec (h0 :: rest) rest.length := by
  induction rest using List.reverseRecOn with
  | nil => rfl
  | append_singleton l x ih =>
    rw [List.foldl_append, List.foldl_cons, List.foldl_nil, ih, List.length_append,
      List.length_singleton, h7]
    conv_rhs => unfold ewma_spec
    have e1 : (h0 :: (l ++ [x])).getD (l.length + 1) (ofDecimal 0 1) = x := by
      simp
    have e2 : ewma_spec (h0 :: (l ++ [x])) l.length = ewma_spec (h0 :: l) l.length := by
      rw [← List.cons_append]
      exact ewma_spec_append (h0 :: l) [x] l.length (by simp)
    rw [e1, e2]

/-- The loop of `predict_bandwidth_harmonic` accumulates the reciprocals of the strictly
positive samples in history order and counts them. -/
theorem harmonic_fold_eq (history : List α) :
    ∀ st : α × Int,
      history.foldl harmonicStep st =
        (((history.filter (fun x => decide (ofInt 0 < x))).map
            (fun x => ofDecimal 10 1 / x)).foldl (fun s y => s + y) st.1,
          st.2 + ((history.filter (fun x => decide (ofInt 0 < x))).length : Int)) := by
  induction history with
  | nil => intro st; simp
  | cons x xs ih =>
    intro st
    rw [List.foldl_cons, ih]
    unfold harmonicStep
    by_cases hx : ofInt 0 < x
    · rw [if_pos hx, List.filter_cons_of_pos (by simpa using hx)]
      simp only [List.map_cons, List.foldl_cons, List.length_cons]
      congr 1
      push_cast
      omega
    · rw [if_neg hx, List.filter_cons_of_neg (by simpa using hx)]

theorem predict_bandwidth_harmonic_eq_spec (history : List α) :
    predict_bandwidth_harmonic history = harmonic_mean_spec history := by
  unfold predict_bandwidth_harmonic harmonic_mean_spec
  by_cases hl : history.length < 1
  · have : history = [] := by
      cases history with
      | nil => rfl
      | cons a l => simp at hl
    subst this
    simp
  · rw [if_neg hl]
    simp only [harmonic_fold_eq]
    by_cases hk : (history.filter (fun x => decide (ofInt 0 < x))).length = 0
    · rw [if_pos (by omega), if_pos hk]
    · rw [if_neg (by omega), if_neg hk]
      congr 2
      omega

theorem harmonic_mean_spec_filter (history : List α) :
    harmonic_mean_spec (history.filter (fun x => decide (ofInt 0 < x)))
      = harmonic_mean_spec history := by
  unfold harmonic_mean_spec
  simp only [List.filter_filter, Bool.and_self]

end Generic

/-! ### Exact arithmetic -/

theorem ofDecimal_rat (m k : Nat) : (ofDecimal m k : ℚ) = (m : ℚ) / 10 ^ k := rfl
theorem ofInt_rat (i : Int) : (ofInt i : ℚ) = (i : ℚ) := rfl
theorem add_rat (a b : ℚ) : @HAdd.hAdd ℚ ℚ ℚ (@instHAdd ℚ (FloatArith.toAdd)) a b = a + b := rfl
theorem mul_rat (a b : ℚ) : @HMul.hMul ℚ ℚ ℚ (@instHMul ℚ (FloatArith.toMul)) a b = a * b := rfl
theorem sub_rat (a b : ℚ) : @HSub.hSub ℚ ℚ ℚ (@instHSub ℚ (FloatArith.toSub)) a b = a - b := rfl
theorem div_rat (a b : ℚ) : @HDiv.hDiv ℚ ℚ ℚ (@instHDiv ℚ (FloatArith.toDiv)) a b = a / b := rfl
theorem lt_rat (a b : ℚ) : @LT.lt ℚ (FloatArith.toLT) a b = (a < b) := rfl

theorem harmonic_fold_constant_rat (v : ℚ) (hv : 0 < v) (n : Nat) :
    ∀ st : ℚ × Int, (List.replicate n v).foldl harmonicStep st
      = (st.1 + (n : ℚ) * (1 / v), st.2 + (n : Int)) := by
  induction n with
  | zero => intro st; simp
  | succ n ih =>
    intro st
    have hstep : harmonicStep st v = (st.1 + 1 / v, st.2 + 1) := by
      unfold harmonicStep
      have hpos : (ofInt 0 : ℚ) < v := by
        rw [lt_rat, ofInt_rat]; exact_mod_cast hv
      rw [if_pos hpos]
      simp only [ofDecimal_rat, add_rat, div_rat]
      norm_num
    rw [List.replicate_succ, List.foldl_cons, hstep, ih]
    simp only
    refine Prod.ext ?_ ?_
    · simp only; push_cast; ring
    · simp only; push_cast; ring

theorem ewma_fold_constant_rat (v : ℚ) (n : Nat) :
    (List.replicate n v).foldl
      (fun ewma h => (ofDecimal 3 1 : ℚ) * h + (ofDecimal 10 1 - ofDecimal 3 1) * ewma) v = v := by
  induction n with
  | zero => rfl
  | succ n ih =>
    rw [List.replicate_succ, List.foldl_cons]
    have : (ofDecimal 3 1 : ℚ) * v + (ofDecimal 10 1 - ofDecimal 3 1) * v = v := by
      simp only [ofDecimal_rat, add_rat, mul_rat, sub_rat]
      norm_num
      ring
    rw [this]
    exact ih

/-! ## The statistics of the history -/

section Generic

variable {α : Type} [FloatArith α]

/-- The two loops of `calculate_bandwidth_variance` compute the sample variance of the
spec. -/
theorem calculate_bandwidth_variance_eq_spec (history : List α) :
    calculate_bandwidth_variance history = sample_variance_spec history := by
  unfold calculate_bandwidth_variance sample_variance_spec
  simp only [List.foldl_map]

end Generic

theorem neg_rat (a : ℚ) : @Neg.neg ℚ (FloatArith.toNeg) a = -a := rfl

theorem wrapInt32_sq (i : Int) (h0 : 0 ≤ i) (h1 : i ≤ 46340) : wrapInt32 (i * i) = i * i := by
  have hle : i * i ≤ 46340 * 46340 := by nlinarith
  have hge : 0 ≤ i * i := by nlinarith
  unfold wrapInt32
  generalize i * i = p at hle hge
  norm_num
  omega

theorem sum_getD_append (l : List ℚ) (x : ℚ) (f : Nat → ℚ → ℚ) :
    Finset.sum (Finset.range l.length) (fun i => f i ((l ++ [x]).getD i 0)) =
      Finset.sum (Finset.range l.length) (fun i => f i (l.getD i 0)) := by
  apply Finset.sum_congr rfl
  intro i hi
  rw [List.getD_append _ _ _ _ (Finset.mem_range.mp hi)]

theorem getD_append_length (l : List ℚ) (x : ℚ) : (l ++ [x]).getD l.length 0 = x := by
  simp

theorem list_sum_eq_sum_getD (l : List ℚ) :
    l.sum = Finset.sum (Finset.range l.length) (fun i => l.getD i 0) := by
  induction l using List.reverseRecOn with
  | nil => simp
  | append_singleton l x ih =>
    rw [List.sum_append, List.length_append, List.length_singleton, Finset.sum_range_succ,
      sum_getD_append l x (fun _ y => y), getD_append_length, ih]
    simp

/-- In exact arithmetic, and while `i * i` stays inside the 32-bit range, the loop of
`detect_bandwidth_trend` computes the sums of `i`, `h[i]`, `i * h[i]` and `i * i`. -/
theorem trend_fold_rat (l : List ℚ) (hlen : l.length ≤ 46341) :
    l.foldl trendStep
        { i := 0, sum_x := ofInt 0, sum_y := ofInt 0, sum_xy := ofInt 0, sum_xx := ofInt 0 } =
      { i := l.length
        sum_x := Finset.sum (Finset.range l.length) (fun i => (i : ℚ))
        sum_y := Finset.sum (Finset.range l.length) (fun i => l.getD i 0)
        sum_xy := Finset.sum (Finset.range l.length) (fun i => (i : ℚ) * l.getD i 0)
        sum_xx := Finset.sum (Finset.range l.length) (fun i => (i : ℚ) * i) } := by
  induction l using List.reverseRecOn with
  | nil => simp [ofInt_rat]
  | append_singleton l x ih =>
    have hl : l.length ≤ 46340 := by
      rw [List.length_append, List.length_singleton] at hlen; omega
    rw [List.foldl_append, List.foldl_cons, List.foldl_nil, ih (by omega)]
    unfold trendStep
    simp only [List.length_append, List.length_singleton, Finset.sum_range_succ,
      sum_getD_append l x (fun _ y => y), sum_getD_append l x (fun i y => (i : ℚ) * y),
      getD_append_length, add_rat, mul_rat, ofInt_rat,
      wrapInt32_sq (l.length : Int) (by omega) (by omega)]
    push_cast
    rfl

/-- The centred sums of the least-squares slope, expressed by the plain sums. -/
theorem ols_slope_spec_eq (h : List ℚ) (hn : h.length ≠ 0) :
    ols_slope_spec h =
      ((h.length : ℚ) * Finset.sum (Finset.range h.length) (fun i => (i : ℚ) * h.getD i 0)
        - Finset.sum (Finset.range h.length) (fun i => (i : ℚ))
          * Finset.sum (Finset.range h.length) (fun i => h.getD i 0)) /
      ((h.length : ℚ) * Finset.sum (Finset.range h.length) (fun i => (i : ℚ) * i)
        - Finset.sum (Finset.range h.length) (fun i => (i : ℚ))
          * Finset.sum (Finset.range h.length) (fun i => (i : ℚ))) := by
  have hnq : (h.length : ℚ) ≠ 0 := by exact_mod_cast hn
  unfold ols_slope_spec mean_spec
  simp only []
  rw [list_sum_eq_sum_getD]
  generalize hSx : Finset.sum (Finset.range h.length) (fun i => (i : ℚ)) = Sx
  generalize hSy : Finset.sum (Finset.range h.length) (fun i => h.getD i 0) = Sy
  generalize hSxy : Finset.sum (Finset.range h.length) (fun i => (i : ℚ) * h.getD i 0) = Sxy
  generalize hSxx : Finset.sum (Finset.range h.length) (fun i => (i : ℚ) * i) = Sxx
  have hnum : Finset.sum (Finset.range h.length)
      (fun i => ((i : ℚ) - Sx / h.length) * (h.getD i 0 - Sy / h.length))
      = Sxy - Sx * Sy / h.length := by
    have e : ∀ i : Nat, ((i : ℚ) - Sx / h.length) * (h.getD i 0 - Sy / h.length)
        = (i : ℚ) * h.getD i 0 - (Sy / h.length) * (i : ℚ) - (Sx / h.length) * h.getD i 0
          + Sx / h.length * (Sy / h.length) := by
      intro i; ring
    simp only [e, Finset.sum_add_distrib, Finset.sum_sub_distrib, ← Finset.mul_sum,
      Finset.sum_const, Finset.card_range, nsmul_eq_mul, hSx, hSy, hSxy]
    field_simp
    ring
  have hden : Finset.sum (Finset.range h.length) (fun i => ((i : ℚ) - Sx / h.length) ^ 2)
      = Sxx - Sx * Sx / h.length := by
    have e : ∀ i : Nat, ((i : ℚ) - Sx / h.length) ^ 2
        = (i : ℚ) * i - 2 * (Sx / h.length) * (i : ℚ) + Sx / h.length * (Sx / h.length) := by
      intro i; ring
    simp only [e, Finset.sum_add_distrib, Finset.sum_sub_distrib, ← Finset.mul_sum,
      Finset.sum_const, Finset.card_range, nsmul_eq_mul, hSx, hSxx]
    field_simp
    ring
  rw [hnum, hden]
  have e1 : (h.length : ℚ) * Sxy - Sx * Sy = (h.length : ℚ) * (Sxy - Sx * Sy / h.length) := by
    field_simp
    ring
  have e2 : (h.length : ℚ) * Sxx - Sx * Sx = (h.length : ℚ) * (Sxx - Sx * Sx / h.length) := by
    field_simp
    ring
  rw [e1, e2, mul_div_mul_left _ _ hnq]

/-- In exact arithmetic `detect_bandwidth_trend` is the classification of the spec, for a
history short enough for `i * i` to stay inside the 32-bit range. -/
theorem detect_bandwidth_trend_rat (h : List ℚ) (hlen : h.length ≤ 46341) :
    detect_bandwidth_trend h = trend_spec h := by
  unfold detect_bandwidth_trend trend_spec
  by_cases h3 : h.length < 3
  · rw [if_pos h3, if_pos h3]
  rw [if_neg h3, if_neg h3]
  have hn : h.length ≠ 0 := by omega
  rw [trend_fold_rat h hlen, ols_slope_spec_eq h hn]
  unfold mean_spec
  rw [list_sum_eq_sum_getD]
  simp only [ofInt_rat, ofDecimal_rat, add_rat, mul_rat, sub_rat, div_rat, lt_rat, neg_rat,
    Int.cast_natCast, gt_iff_lt]
  norm_num

/-- The variance of the index, the denominator of the least-squares slope, is positive for
two or more samples. -/
theorem ols_denominator_pos (n : Nat) (hn : 2 ≤ n) :
    0 < Finset.sum (Finset.range n)
      (fun i => ((i : ℚ) - Finset.sum (Finset.range n) (fun i => (i : ℚ)) / n) ^ 2) := by
  have hS : (1 : ℚ) ≤ Finset.sum (Finset.range n) (fun i => (i : ℚ)) := by
    have := Finset.single_le_sum (f := fun i : Nat => (i : ℚ)) (s := Finset.range n)
      (fun i _ => by positivity) (Finset.mem_range.mpr (by omega : 1 < n))
    simpa using this
  have hnq : (0 : ℚ) < (n : ℚ) := by exact_mod_cast (by omega : 0 < n)
  have hx : 0 < Finset.sum (Finset.range n) (fun i => (i : ℚ)) / n :=
    div_pos (lt_of_lt_of_le one_pos hS) hnq
  generalize Finset.sum (Finset.range n) (fun i => (i : ℚ)) / n = xbar at hx
  have h0 := Finset.single_le_sum (f := fun i : Nat => ((i : ℚ) - xbar) ^ 2)
    (s := Finset.range n) (fun i _ => by positivity) (Finset.mem_range.mpr (by omega : 0 < n))
  have : 0 < (((0 : Nat) : ℚ) - xbar) ^ 2 := by
    have : ((0 : Nat) : ℚ) - xbar ≠ 0 := by
      simp only [Nat.cast_zero, zero_sub, ne_eq, neg_eq_zero]
      exact ne_of_gt hx
    positivity
  exact lt_of_lt_of_le this h0

/-- On a constant history the loop of `detect_bandwidth_trend` keeps, in exact arithmetic,
`sum_xy = v * sum_x` and `sum_y = v * i`. -/
theorem trend_fold_constant_rat (v : ℚ) (n : Nat) :
    ∀ st : TrendSums ℚ, st.sum_xy = v * st.sum_x → st.sum_y = v * (st.i : ℚ) →
      ((List.replicate n v).foldl trendStep st).sum_xy
          = v * ((List.replicate n v).foldl trendStep st).sum_x ∧
      ((List.replicate n v).foldl trendStep st).sum_y
          = v * (((List.replicate n v).foldl trendStep st).i : ℚ) ∧
      ((List.replicate n v).foldl trendStep st).i = st.i + n := by
  induction n with
  | zero => intro st h1 h2; exact ⟨h1, h2, by simp⟩
  | succ n ih =>
    intro st h1 h2
    rw [List.replicate_succ, List.foldl_cons]
    obtain ⟨a, b, c⟩ := ih (trendStep st v)
      (by simp only [trendStep, add_rat, mul_rat, ofInt_rat]; rw [h1]; ring)
      (by simp only [trendStep, add_rat, mul_rat, ofInt_rat]; rw [h2]; push_cast; ring)
    refine ⟨a, b, ?_⟩
    rw [c]
    simp only [trendStep]
    push_cast
    ring

/-- In exact arithmetic every constant history is classified stable. -/
theorem detect_bandwidth_trend_constant_rat (v : ℚ) (n : Nat) :
    detect_bandwidth_trend (List.replicate n v) = 0 := by
  unfold detect_bandwidth_trend
  split_ifs with h3
  · rfl
  obtain ⟨a, b, c⟩ := trend_fold_constant_rat v n
    { i := 0, sum_x := ofInt 0, sum_y := ofInt 0, sum_xy := ofInt 0, sum_xx := ofInt 0 }
    (by simp [ofInt_rat]) (by simp [ofInt_rat])
  simp only [] at a b c ⊢
  generalize (List.replicate n v).foldl trendStep
    { i := 0, sum_x := ofInt 0, sum_y := ofInt 0, sum_xy := ofInt 0, sum_xx := ofInt 0 }
    = st at a b c ⊢
  have hlen : ((List.replicate n v).length : Int) = st.i := by
    rw [c]; simp
  simp only [ofInt_rat, ofDecimal_rat, add_rat, mul_rat, sub_rat, div_rat, lt_rat, neg_rat,
    Int.cast_natCast]
  have hn : (((List.replicate n v).length : Nat) : ℚ) = (st.i : ℚ) := by
    exact_mod_cast hlen
  rw [hn, a, b]
  have hz : (st.i : ℚ) * (v * st.sum_x) - st.sum_x * (v * (st.i : ℚ)) = 0 := by ring
  rw [hz]
  norm_num

theorem foldl_add_rat (l : List ℚ) (a : ℚ) :
    l.foldl (fun s y => @HAdd.hAdd ℚ ℚ ℚ (@instHAdd ℚ (FloatArith.toAdd)) s y) a = a + l.sum := by
  induction l generalizing a with
  | nil => simp
  | cons x xs ih => rw [List.foldl_cons, ih, add_rat, List.sum_cons]; ring

/-- In exact arithmetic the variance of the code is the textbook sample variance. -/
theorem calculate_bandwidth_variance_rat (history : List ℚ) (h2 : 2 ≤ history.length) :
    calculate_bandwidth_variance history =
      (history.map (fun x => (x - history.sum / history.length) ^ 2)).sum
        / ((history.length : ℚ) - 1) := by
  unfold calculate_bandwidth_variance
  rw [if_neg (by omega)]
  simp only [← List.foldl_map]
  rw [foldl_add_rat, foldl_add_rat]
  simp only [ofDecimal_rat, ofInt_rat, div_rat, sub_rat, mul_rat]
  have e : (fun x : ℚ => (x - history.sum / history.length) ^ 2)
      = (fun x : ℚ => (x - history.sum / history.length) * (x - history.sum / history.length)) := by
    funext x; ring
  rw [e]
  norm_num

/-! ## Bounds on the selected level and on the predictors -/

section Generic

variable {α : Type} [FloatArith α]

/-- The scan of `select_quality_level` returns, for every maximum quality, a level of
`0 .. 5` (the level 0 when the maximum is negative and no index is visited). -/
theorem bandwidthQualityLoop_result (bandwidth : α) (M : Int) (hM : M ≤ 5) :
    ∃ r, bandwidthQualityLoop bandwidth (M + 1).toNat 0 0 = some r ∧ 0 ≤ r ∧ r ≤ 5 ∧
      (0 ≤ M → r ≤ M) := by
  by_cases h0 : 0 ≤ M
  · obtain ⟨r, hs, hcase⟩ := bandwidthQualityLoop_spec bandwidth (M + 1).toNat 0 0
      (le_refl _) (by omega)
    refine ⟨r, hs, ?_, ?_, ?_⟩
    · rcases hcase with ⟨c, _⟩ | ⟨c, _, _, _⟩ <;> omega
    · rcases hcase with ⟨c, _⟩ | ⟨_, c, _, _⟩ <;> omega
    · intro _; rcases hcase with ⟨c, _⟩ | ⟨_, c, _, _⟩ <;> omega
  · have : (M + 1).toNat = 0 := by omega
    rw [this]
    exact ⟨0, rfl, le_refl _, by norm_num, fun h => absurd h h0⟩

/-- For a current quality of at least -1 and any maximum quality, `select_quality_level`
reads the ladder inside its bounds only, and it returns a level of at most
`current_quality + 1` when the current quality is not negative. -/
theorem select_quality_level_step (bandwidth buffer_level : α)
    (current_quality max_quality : Int) (hc : -1 ≤ current_quality) :
    ∃ q, select_quality_level bandwidth buffer_level current_quality max_quality = some q ∧
      (0 ≤ current_quality → q ≤ current_quality + 1) := by
  have hM5 : min max_quality 5 ≤ 5 := min_le_right _ _
  unfold select_quality_level
  simp only [actualMax_eq]
  generalize min max_quality 5 = M at hM5 ⊢
  by_cases h1 : bandwidth ≤ ofInt 0
  · rw [if_pos h1]; exact ⟨0, rfl, fun h => by omega⟩
  rw [if_neg h1]
  by_cases h2 : buffer_level < ofDecimal 20 1
  · rw [if_pos h2]; exact ⟨0, rfl, fun h => by omega⟩
  rw [if_neg h2]
  obtain ⟨r, hs, hr0, hr5, _⟩ := bandwidthQualityLoop_result bandwidth M hM5
  rw [hs]
  simp only []
  by_cases h3 : buffer_level < ofDecimal 50 1
  · rw [if_pos h3]
    refine ⟨_, rfl, fun h => ?_⟩
    split_ifs <;> omega
  rw [if_neg h3]
  by_cases h4 : ofDecimal 300 1 < buffer_level
  · rw [if_pos h4]
    refine ⟨_, rfl, fun h => ?_⟩
    split_ifs <;> omega
  rw [if_neg h4]
  by_cases h5 : current_quality < r
  · rw [if_pos h5]
    obtain ⟨rate, hrate⟩ := bitrateAt_some (current_quality + 1) (by omega) (by omega)
    rw [hrate]
    simp only []
    by_cases h6 : ofInt rate * ofDecimal 12 1 < bandwidth
    · rw [if_pos h6]
      refine ⟨_, rfl, fun h => ?_⟩
      split_ifs <;> omega
    · rw [if_neg h6, if_neg (by omega)]
      refine ⟨_, rfl, fun h => ?_⟩
      split_ifs <;> omega
  · rw [if_neg h5]
    by_cases h7 : r < current_quality
    · rw [if_pos h7]
      refine ⟨_, rfl, fun h => ?_⟩
      split_ifs <;> omega
    · rw [if_neg h7]
      refine ⟨_, rfl, fun h => ?_⟩
      split_ifs <;> omega

/-- For a non-negative maximum and current quality the level that `select_quality_level`
returns is at most the affordable level. -/
theorem select_quality_level_le_affordable (bandwidth buffer_level : α)
    (current_quality max_quality : Int) (hm : 0 ≤ max_quality) (hc : 0 ≤ current_quality) :
    ∃ q, select_quality_level bandwidth buffer_level current_quality max_quality = some q ∧
      0 ≤ q ∧ q ≤ affordable_level bandwidth (min max_quality 5) := by
  have hM0 : 0 ≤ min max_quality 5 := le_min hm (by norm_num)
  have hM5 : min max_quality 5 ≤ 5 := min_le_right _ _
  obtain ⟨hA0, hA1⟩ := affordable_level_range bandwidth (min max_quality 5) hM0
  have hloop := bandwidthQualityLoop_eq bandwidth (min max_quality 5) hM0 hM5
  unfold select_quality_level
  simp only [actualMax_eq]
  generalize affordable_level bandwidth (min max_quality 5) = A at hA0 hA1 hloop ⊢
  generalize min max_quality 5 = M at hM0 hM5 hA1 hloop ⊢
  by_cases h1 : bandwidth ≤ ofInt 0
  · rw [if_pos h1]; exact ⟨0, rfl, le_refl _, hA0⟩
  rw [if_neg h1]
  by_cases h2 : buffer_level < ofDecimal 20 1
  · rw [if_pos h2]; exact ⟨0, rfl, le_refl _, hA0⟩
  rw [if_neg h2, hloop]
  simp only []
  by_cases h3 : buffer_level < ofDecimal 50 1
  · rw [if_pos h3]
    refine ⟨_, rfl, ?_, ?_⟩ <;> split_ifs <;> omega
  rw [if_neg h3]
  by_cases h4 : ofDecimal 300 1 < buffer_level
  · rw [if_pos h4]
    refine ⟨_, rfl, ?_, ?_⟩ <;> split_ifs <;> omega
  rw [if_neg h4]
  by_cases h5 : current_quality < A
  · rw [if_pos h5]
    obtain ⟨rate, hrate⟩ := bitrateAt_some (current_quality + 1) (by omega) (by omega)
    rw [hrate]
    simp only []
    by_cases h6 : ofInt rate * ofDecimal 12 1 < bandwidth
    · rw [if_pos h6]
      refine ⟨_, rfl, ?_, ?_⟩ <;> split_ifs <;> omega
    · rw [if_neg h6, if_neg (by omega)]
      refine ⟨_, rfl, ?_, ?_⟩ <;> split_ifs <;> omega
  · rw [if_neg h5]
    by_cases h7 : A < current_quality
    · rw [if_pos h7]
      refine ⟨_, rfl, ?_, ?_⟩ <;> split_ifs <;> omega
    · rw [if_neg h7]
      refine ⟨_, rfl, ?_, ?_⟩ <;> split_ifs <;> omega

/-- On a switch history of fewer than five entries the guard returns the recommendation
of `select_quality_level` unchanged. -/
theorem select_quality_stable_of_short (bandwidth buffer_level : α)
    (current_quality max_quality : Int) (switch_history : List Int)
    (h : switch_history.length < 5) :
    select_quality_stable bandwidth buffer_level current_quality max_quality switch_history
      = select_quality_level bandwidth buffer_level current_quality max_quality := by
  unfold select_quality_stable
  rw [recentSwitches_of_short switch_history current_quality h]
  cases select_quality_level bandwidth buffer_level current_quality max_quality with
  | none => rfl
  | some r =>
    simp only []
    rw [if_neg (by omega)]

end Generic

/-- With an empty buffer every candidate has rebuffer probability 1, and then the top
candidate of a ladder cut at level 4 or 5 has a strictly larger utility than every lower
one, whatever the switch penalties. -/
theorem qoe_top_wins (M q : Int) (hM : M = 4 ∨ M = 5) (h0 : 0 ≤ q) (h1 : q < M) (s t : Bool) :
    F32.lt (estimate_qoe q (ofDecimal 10 1 : F32) (if s then ofDecimal 10 1 else ofDecimal 0 1))
      (estimate_qoe M (ofDecimal 10 1 : F32) (if t then ofDecimal 10 1 else ofDecimal 0 1))
      = true := by
  rcases hM with hM | hM <;> subst hM <;> interval_cases q <;> cases s <;> cases t <;> decide

theorem utility_empty_buffer (bandwidth buffer_seconds segment_duration : F32) (cur q : Int)
    (hb : buffer_seconds ≤ ofInt 0) :
    utility bandwidth buffer_seconds segment_duration cur q =
      estimate_qoe q (ofDecimal 10 1 : F32)
        (if decide (q ≠ cur) then ofDecimal 10 1 else ofDecimal 0 1) := by
  unfold utility calculate_rebuffer_probability
  rw [if_pos hb]
  by_cases h : q = cur
  · simp [h]
  · simp [h]

/-- The ladder is increasing: a lower level has a lower bitrate. -/
theorem ladderRate_mono (q a : Int) (h0 : 0 ≤ q) (h1 : q ≤ a) (h2 : a ≤ 5) :
    F32.le (ofInt (ladderRate q)) (ofInt (ladderRate a)) = true := by
  have ha : 0 ≤ a := le_trans h0 h1
  interval_cases a <;> interval_cases q <;> decide

/-- In exact arithmetic the harmonic predictor of a history of positive samples is the
number of samples over the sum of their reciprocals. -/
theorem predict_bandwidth_harmonic_rat (h : List ℚ) (hne : h ≠ []) (hpos : ∀ x ∈ h, 0 < x) :
    predict_bandwidth_harmonic h = (h.length : ℚ) / (h.map (fun x => 1 / x)).sum := by
  have hfilter : h.filter (fun x => decide (ofInt 0 < x)) = h := by
    rw [List.filter_eq_self]
    intro x hx
    have := hpos x hx
    simp only [decide_eq_true_eq, lt_rat, ofInt_rat]
    exact_mod_cast this
  have hlen : h.length ≠ 0 := by
    intro h0; exact hne (List.length_eq_zero.mp h0)
  rw [predict_bandwidth_harmonic_eq_spec]
  unfold harmonic_mean_spec
  simp only [hfilter]
  rw [if_neg hlen, foldl_add_rat]
  simp only [ofDecimal_rat, ofInt_rat, div_rat]
  norm_num

theorem sum_inv_pos (h : List ℚ) (hne : h ≠ []) (hpos : ∀ x ∈ h, 0 < x) :
    0 < (h.map (fun x => 1 / x)).sum := by
  cases h with
  | nil => exact absurd rfl hne
  | cons a l =>
    rw [List.map_cons, List.sum_cons]
    have ha : 0 < 1 / a := by
      have := hpos a (List.mem_cons_self a l); positivity
    have hl : 0 ≤ (l.map (fun x => 1 / x)).sum := by
      apply List.sum_nonneg
      intro y hy
      obtain ⟨x, hx, rfl⟩ := List.mem_map.mp hy
      have := hpos x (List.mem_cons_of_mem a hx)
      positivity
    linarith

theorem cross_sum_ge (l : List ℚ) (a : ℚ) (ha : 0 < a) (hpos : ∀ x ∈ l, 0 < x) :
    2 * (l.length : ℚ) ≤ a * (l.map (fun x => 1 / x)).sum + l.sum / a := by
  induction l with
  | nil => simp
  | cons x xs ih =>
    have hx : 0 < x := hpos x (List.mem_cons_self x xs)
    have ih' := ih (fun y hy => hpos y (List.mem_cons_of_mem x hy))
    rw [List.map_cons, List.sum_cons, List.sum_cons, List.length_cons]
    have key : 2 ≤ a * (1 / x) + x / a := by
      have hax : a * (1 / x) + x / a = (a * a + x * x) / (x * a) := by
        rw [mul_one_div, div_add_div _ _ hx.ne' ha.ne']
      rw [hax]
      rw [le_div_iff₀ (by positivity)]
      nlinarith [sq_nonneg (a - x)]
    push_cast
    have e : a * (1 / x + (xs.map (fun x => 1 / x)).sum) + (x + xs.sum) / a
        = (a * (1 / x) + x / a) + (a * (xs.map (fun x => 1 / x)).sum + xs.sum / a) := by
      ring
    rw [e]
    linarith

/-- The inequality between the harmonic and the arithmetic mean, without divisions. -/
theorem sq_length_le_sum_mul (l : List ℚ) (hpos : ∀ x ∈ l, 0 < x) :
    (l.length : ℚ) * l.length ≤ l.sum * (l.map (fun x => 1 / x)).sum := by
  induction l with
  | nil => simp
  | cons a xs ih =>
    have ha : 0 < a := hpos a (List.mem_cons_self a xs)
    have hxs : ∀ y ∈ xs, 0 < y := fun y hy => hpos y (List.mem_cons_of_mem a hy)
    have ih' := ih hxs
    have hc := cross_sum_ge xs a ha hxs
    rw [List.map_cons, List.sum_cons, List.sum_cons, List.length_cons]
    push_cast
    have e : (a + xs.sum) * (1 / a + (xs.map (fun x => 1 / x)).sum)
        = 1 + (a * (xs.map (fun x => 1 / x)).sum + xs.sum / a)
          + xs.sum * (xs.map (fun x => 1 / x)).sum := by
      field_simp
      ring
    rw [e]
    nlinarith

theorem sum_inv_le (l : List ℚ) (lo : ℚ) (hlo : 0 < lo) (h : ∀ x ∈ l, lo ≤ x) :
    (l.map (fun x => 1 / x)).sum ≤ (l.length : ℚ) / lo := by
  induction l with
  | nil => simp
  | cons a xs ih =>
    have ha : lo ≤ a := h a (List.mem_cons_self a xs)
    have ih' := ih (fun y hy => h y (List.mem_cons_of_mem a hy))
    rw [List.map_cons, List.sum_cons, List.length_cons]
    push_cast
    have : 1 / a ≤ 1 / lo := one_div_le_one_div_of_le hlo ha
    rw [add_div]
    linarith

theorem le_sum_inv (l : List ℚ) (hi : ℚ) (hpos : ∀ x ∈ l, 0 < x) (h : ∀ x ∈ l, x ≤ hi) :
    (l.length : ℚ) / hi ≤ (l.map (fun x => 1 / x)).sum := by
  induction l with
  | nil => simp
  | cons a xs ih =>
    have ha : a ≤ hi := h a (List.mem_cons_self a xs)
    have ha0 : 0 < a := hpos a (List.mem_cons_self a xs)
    have ih' := ih (fun y hy => hpos y (List.mem_cons_of_mem a hy))
      (fun y hy => h y (List.mem_cons_of_mem a hy))
    rw [List.map_cons, List.sum_cons, List.length_cons]
    push_cast
    have : 1 / hi ≤ 1 / a := one_div_le_one_div_of_le ha0 ha
    rw [add_div]
    linarith

/-- In exact arithmetic the EWMA of samples inside `[lo, hi]`, started inside `[lo, hi]`,
stays inside `[lo, hi]`. -/
theorem ewma_fold_bounds_rat (lo hi : ℚ) (rest : List ℚ) (h : ∀ x ∈ rest, lo ≤ x ∧ x ≤ hi) :
    ∀ e : ℚ, lo ≤ e → e ≤ hi →
      lo ≤ rest.foldl
        (fun ewma h => (ofDecimal 3 1 : ℚ) * h + (ofDecimal 10 1 - ofDecimal 3 1) * ewma) e ∧
      rest.foldl
        (fun ewma h => (ofDecimal 3 1 : ℚ) * h + (ofDecimal 10 1 - ofDecimal 3 1) * ewma) e
        ≤ hi := by
  induction rest with
  | nil => intro e h1 h2; exact ⟨h1, h2⟩
  | cons x xs ih =>
    intro e h1 h2
    rw [List.foldl_cons]
    obtain ⟨hx1, hx2⟩ := h x (List.mem_cons_self x xs)
    apply ih (fun y hy => h y (List.mem_cons_of_mem x hy))
    · simp only [ofDecimal_rat, add_rat, mul_rat, sub_rat]
      norm_num
      linarith
    · simp only [ofDecimal_rat, add_rat, mul_rat, sub_rat]
      norm_num
      linarith

/-- C1 (the code at the failing input). With the empty history the prediction is 0, and for
buffer 10 s, segment duration 6 s, current quality 0 and maximum quality 5 the aggregator
returns quality 5 (not 0), confidence 0, rebuffer risk 1 and qoe 0.4f. -/
theorem empty_history_recommends_top_level :
    predict_bandwidth ([] : List F32) = ofInt 0 ∧
    ∃ r, get_comprehensive_recommendation ([] : List F32) (ofInt 10) (ofInt 6) 0 5 = some r ∧
      r.quality = ofInt 5 ∧ r.confidence = ofInt 0 ∧ r.rebuffer_risk = ofInt 1 ∧
      r.qoe = ofDecimal 4 1 := by
  refine ⟨by decide, ?_⟩
  have h : select_quality_maximize_qoe (adjusted_bandwidth ([] : List F32)) (ofInt 10)
      (ofInt 6) 0 5 = some 5 := by decide
  have hr : bitrateAt 5 = some 12000 := by decide
  unfold get_comprehensive_recommendation
  simp only [h, hr]
  exact ⟨_, rfl, by decide, by decide, by decide, by decide⟩

/-- C3. For every `max_quality >= 0` and every bandwidth, buffer, segment duration and
current quality, `select_quality_maximize_qoe` returns an index `q` with
`0 <= q <= min(max_quality, 5)`; the aggregator `get_comprehensive_recommendation` returns
(no ladder read of it is out of bounds) and its quality field is such an index. -/
theorem select_quality_maximize_qoe_index_in_range (bandwidth buffer_seconds segment_duration : F32)
    (bandwidth_history : List F32) (current_quality max_quality : Int) (h : 0 ≤ max_quality) :
    (∃ q, select_quality_maximize_qoe bandwidth buffer_seconds segment_duration
        current_quality max_quality = some q ∧ 0 ≤ q ∧ q ≤ min max_quality 5) ∧
    (∃ q r, get_comprehensive_recommendation bandwidth_history buffer_seconds segment_duration
        current_quality max_quality = some r ∧ r.quality = ofInt q ∧
        0 ≤ q ∧ q ≤ min max_quality 5 ∧ (bitrateAt q).isSome = true) := by
  refine ⟨select_quality_maximize_qoe_range _ _ _ _ _ h, ?_⟩
  obtain ⟨q, hq, h0, h1⟩ := select_quality_maximize_qoe_range
    (adjusted_bandwidth bandwidth_history) buffer_seconds segment_duration
    current_quality max_quality h
  obtain ⟨rate, hr⟩ := bitrateAt_some q h0 (by have := min_le_right max_quality 5; omega)
  refine ⟨q, ?_⟩
  unfold get_comprehensive_recommendation
  simp only [hq, hr]
  exact ⟨_, rfl, rfl, h0, h1, rfl⟩

/-- C3 at the inputs of scenario A. -/
theorem select_quality_maximize_qoe_index_in_range_witness :
    (0 : Int) ≤ 5 ∧
    ((∃ q, select_quality_maximize_qoe (ofInt 4000 : F32) (ofInt 20) (ofInt 6) 2 5 = some q ∧
        0 ≤ q ∧ q ≤ min 5 5) ∧
    (∃ q r, get_comprehensive_recommendation [(ofInt 5000 : F32), ofInt 5000, ofInt 5000]
        (ofInt 20) (ofInt 6) 2 5 = some r ∧ r.quality = ofInt q ∧
        0 ≤ q ∧ q ≤ min 5 5 ∧ (bitrateAt q).isSome = true)) :=
  ⟨by decide, select_quality_maximize_qoe_index_in_range _ _ _ _ _ _ (by decide)⟩

/-- C4. For every history (of binary32 values) whose trend-adjusted predicted bandwidth is 0
(`+0.0` or `-0.0`), the confidence returned by the aggregator is 0. -/
theorem confidence_zero_of_zero_bandwidth (bandwidth_history : List F32)
    (buffer_seconds segment_duration : F32) (current_quality max_quality : Int)
    (hvalid : ∀ h ∈ bandwidth_history, h.valid = true)
    (h : adjusted_bandwidth bandwidth_history = ofInt 0 ∨
      adjusted_bandwidth bandwidth_history = -(ofInt 0)) :
    ∃ r, get_comprehensive_recommendation bandwidth_history buffer_seconds segment_duration
        current_quality max_quality = some r ∧ r.confidence = ofInt 0 := by
  obtain ⟨q, hq, h0, h1⟩ := select_quality_maximize_qoe_ladder
    (adjusted_bandwidth bandwidth_history) buffer_seconds segment_duration
    current_quality max_quality
  obtain ⟨rate, hr⟩ := bitrateAt_some q h0 (by omega)
  unfold get_comprehensive_recommendation
  simp only [hq, hr]
  refine ⟨_, rfl, ?_⟩
  rcases h with h | h
  · simp only [h, F32.sub_def, F32.div_def, F32.fminf_def, F32.sqrtf_def, F32.ofInt_zero,
      F32.ofDecimal_one]
    rcases F32.sqrt_div_zero (calculate_bandwidth_variance bandwidth_history) with e | e <;>
      rw [e] <;> decide
  · have hneg : (-(ofInt 0) : F32) = F32.fin true 0 (-149) := by decide
    rw [hneg] at h
    have hz : F32.IsNegZero (adjusted_bandwidth bandwidth_history) := ⟨-149, h⟩
    have htiny := F32.predict_negZero bandwidth_history hvalid
      (F32.adjusted_negZero bandwidth_history hvalid hz)
    have hvar := F32.variance_zero_of_tiny bandwidth_history htiny
    simp only [h, hvar, F32.sub_def, F32.div_def, F32.fminf_def, F32.sqrtf_def, F32.ofInt_zero,
      F32.ofDecimal_one]
    decide

/-- C4 at the history `[3, -6.9999995]`, whose EWMA is exactly `+0` while its variance is not
zero, and at the history `[-0, -0]`, whose prediction is `-0`. -/
theorem confidence_zero_of_zero_bandwidth_witness :
    ((∀ h ∈ [(ofInt 3 : F32), -(ofDecimal 69999995 7)], h.valid = true) ∧
      adjusted_bandwidth [(ofInt 3 : F32), -(ofDecimal 69999995 7)] = ofInt 0 ∧
      ¬ (calculate_bandwidth_variance [(ofInt 3 : F32), -(ofDecimal 69999995 7)] = ofInt 0)) ∧
    (∃ r, get_comprehensive_recommendation [(ofInt 3 : F32), -(ofDecimal 69999995 7)]
        (ofInt 10) (ofInt 6) 0 5 = some r ∧ r.confidence = ofInt 0) ∧
    ((∀ h ∈ [(-(ofInt 0) : F32), -(ofInt 0)], h.valid = true) ∧
      adjusted_bandwidth [(-(ofInt 0) : F32), -(ofInt 0)] = -(ofInt 0)) ∧
    (∃ r, get_comprehensive_recommendation [(-(ofInt 0) : F32), -(ofInt 0)]
        (ofInt 10) (ofInt 6) 0 5 = some r ∧ r.confidence = ofInt 0) :=
  ⟨by decide, confidence_zero_of_zero_bandwidth _ _ _ _ _ (by decide) (Or.inl (by decide)),
    by decide, confidence_zero_of_zero_bandwidth _ _ _ _ _ (by decide) (Or.inr (by decide))⟩

/-- C5. For every history and every `max_quality >= 0` (in particular for the histories
whose trend-adjusted bandwidth `adj` is positive), where `adj` is the prediction scaled by
0.85 when the trend is -1 and by 1.1 when it is +1: `get_comprehensive_recommendation`
returns quality `q = select_quality_maximize_qoe(adj, ...)`, risk
`calculate_rebuffer_probability(buffer, bitrate(q) * segDur / adj, segDur)` and
qoe `estimate_qoe(q, risk, q != current ? 1 : 0)`; this qoe is the utility of `q`, and no
candidate level of `0 .. min(max_quality, 5)` has a greater utility. -/
theorem get_comprehensive_recommendation_composition (bandwidth_history : List F32)
    (buffer_seconds segment_duration : F32) (current_quality max_quality : Int)
    (h : 0 ≤ max_quality) :
    adjusted_bandwidth bandwidth_history =
      (if detect_bandwidth_trend bandwidth_history = -1
        then predict_bandwidth bandwidth_history * ofDecimal 85 2
        else if detect_bandwidth_trend bandwidth_history = 1
        then predict_bandwidth bandwidth_history * ofDecimal 11 1
        else predict_bandwidth bandwidth_history) ∧
    ∃ q r,
      select_quality_maximize_qoe (adjusted_bandwidth bandwidth_history) buffer_seconds
        segment_duration current_quality max_quality = some q ∧
      0 ≤ q ∧ q ≤ min max_quality 5 ∧
      get_comprehensive_recommendation bandwidth_history buffer_seconds segment_duration
        current_quality max_quality = some r ∧
      r.quality = ofInt q ∧
      r.rebuffer_risk = calculate_rebuffer_probability buffer_seconds
        ((ofInt (ladderRate q) * segment_duration) / adjusted_bandwidth bandwidth_history)
        segment_duration ∧
      r.qoe = estimate_qoe q r.rebuffer_risk
        (if q ≠ current_quality then ofDecimal 10 1 else ofDecimal 0 1) ∧
      r.qoe = utility (adjusted_bandwidth bandwidth_history) buffer_seconds segment_duration
        current_quality q ∧
      ∀ j, 0 ≤ j → j ≤ min max_quality 5 →
        utility (adjusted_bandwidth bandwidth_history) buffer_seconds segment_duration
          current_quality j ≤ r.qoe := by
  constructor
  · unfold adjusted_bandwidth
    simp only []
    split_ifs with h1 h2 h3 <;> first | rfl | omega
  · obtain ⟨q, hq, h0, h1, h2, _⟩ := select_quality_maximize_qoe_best
      (adjusted_bandwidth bandwidth_history) buffer_seconds segment_duration
      current_quality max_quality h
    obtain ⟨rate, hr⟩ := bitrateAt_some q h0 (by have := min_le_right max_quality 5; omega)
    have hl := ladderRate_of_bitrateAt hr
    refine ⟨q, ?_⟩
    unfold get_comprehensive_recommendation
    simp only [hq, hr]
    refine ⟨_, trivial, h0, h1, rfl, rfl, ?_, rfl, ?_, ?_⟩
    · simp only [hl]
    · simp only [utility, hl]
    · intro j hj0 hj1
      have e : estimate_qoe q
          (calculate_rebuffer_probability buffer_seconds
            (ofInt rate * segment_duration / adjusted_bandwidth bandwidth_history)
            segment_duration)
          (if q ≠ current_quality then ofDecimal 10 1 else ofDecimal 0 1)
          = utility (adjusted_bandwidth bandwidth_history) buffer_seconds segment_duration
            current_quality q := by
        simp only [utility, hl]
      simp only [e]
      exact F32.fle_of_not_flt (utility_notNaN _ _ _ _ q) (utility_notNaN _ _ _ _ j)
        (h2 j hj0 hj1)

/-- C5 at the inputs of scenario A. -/
theorem get_comprehensive_recommendation_composition_witness :
    (0 : Int) ≤ 5 ∧
    ∃ q r,
      select_quality_maximize_qoe
        (adjusted_bandwidth [(ofInt 5000 : F32), ofInt 5000, ofInt 5000]) (ofInt 20)
        (ofInt 6) 2 5 = some q ∧
      0 ≤ q ∧ q ≤ min 5 5 ∧
      get_comprehensive_recommendation [(ofInt 5000 : F32), ofInt 5000, ofInt 5000] (ofInt 20)
        (ofInt 6) 2 5 = some r ∧
      r.quality = ofInt q ∧
      r.rebuffer_risk = calculate_rebuffer_probability (ofInt 20)
        ((ofInt (ladderRate q) * ofInt 6) /
          adjusted_bandwidth [(ofInt 5000 : F32), ofInt 5000, ofInt 5000])
        (ofInt 6) ∧
      r.qoe = estimate_qoe q r.rebuffer_risk
        (if q ≠ 2 then ofDecimal 10 1 else ofDecimal 0 1) ∧
      r.qoe = utility (adjusted_bandwidth [(ofInt 5000 : F32), ofInt 5000, ofInt 5000])
        (ofInt 20) (ofInt 6) 2 q ∧
      ∀ j, 0 ≤ j → j ≤ min 5 5 →
        utility (adjusted_bandwidth [(ofInt 5000 : F32), ofInt 5000, ofInt 5000])
          (ofInt 20) (ofInt 6) 2 j ≤ r.qoe :=
  ⟨by decide, (get_comprehensive_recommendation_composition _ _ _ _ _ (by decide)).2⟩

/-- C6. For every `max_quality >= 0` and every bandwidth (positive or not), buffer, segment
duration and current quality, `select_quality_maximize_qoe` returns the lowest index `q` in
`0 .. min(max_quality, 5)` of maximal utility: no candidate of the range has strictly
greater utility, and every lower index has strictly smaller utility. -/
theorem select_quality_maximize_qoe_lowest_argmax
    (bandwidth buffer_seconds segment_duration : F32) (current_quality max_quality : Int)
    (h : 0 ≤ max_quality) :
    ∃ q, select_quality_maximize_qoe bandwidth buffer_seconds segment_duration
        current_quality max_quality = some q ∧ 0 ≤ q ∧ q ≤ min max_quality 5 ∧
      (∀ j, 0 ≤ j → j ≤ min max_quality 5 →
        ¬ (utility bandwidth buffer_seconds segment_duration current_quality q
            < utility bandwidth buffer_seconds segment_duration current_quality j)) ∧
      (∀ j, 0 ≤ j → j < q →
        utility bandwidth buffer_seconds segment_duration current_quality j
          < utility bandwidth buffer_seconds segment_duration current_quality q) := by
  obtain ⟨q, hq, h0, h1, h2, h3⟩ := select_quality_maximize_qoe_best bandwidth buffer_seconds
    segment_duration current_quality max_quality h
  refine ⟨q, hq, h0, h1, ?_, h3⟩
  intro j hj0 hj1 hlt
  have := h2 j hj0 hj1
  rw [F32.lt_def] at hlt
  rw [this] at hlt
  exact Bool.noConfusion hlt

/-- C6 at the inputs of scenario A. -/
theorem select_quality_maximize_qoe_lowest_argmax_witness :
    (0 : Int) ≤ 5 ∧
    ∃ q, select_quality_maximize_qoe (ofInt 4000 : F32) (ofInt 20) (ofInt 6) 2 5 = some q ∧
      0 ≤ q ∧ q ≤ min 5 5 ∧
      (∀ j, 0 ≤ j → j ≤ min 5 5 →
        ¬ (utility (ofInt 4000 : F32) (ofInt 20) (ofInt 6) 2 q
            < utility (ofInt 4000 : F32) (ofInt 20) (ofInt 6) 2 j)) ∧
      (∀ j, 0 ≤ j → j < q →
        utility (ofInt 4000 : F32) (ofInt 20) (ofInt 6) 2 j
          < utility (ofInt 4000 : F32) (ofInt 20) (ofInt 6) 2 q) :=
  ⟨by decide, select_quality_maximize_qoe_lowest_argmax _ _ _ _ _ (by decide)⟩

/-- C7. Scenario A: `predict_bandwidth([5000,5000,5000]) = 4000`, and
`select_quality_maximize_qoe(4000, 20, 6, 2, 5) = 3`; level 3 has download time 4.5 s and
rebuffer probability 0, level 4 has download time 9 s and a non-zero rebuffer probability
(it is 1). -/
theorem scenario_A :
    predict_bandwidth [(ofInt 5000 : F32), ofInt 5000, ofInt 5000] = ofInt 4000 ∧
    select_quality_maximize_qoe (ofInt 4000 : F32) (ofInt 20) (ofInt 6) 2 5 = some 3 ∧
    bitrateAt 3 = some 3000 ∧
    (ofInt 3000 * ofInt 6 : F32) / ofInt 4000 = ofDecimal 45 1 ∧
    calculate_rebuffer_probability (ofInt 20 : F32) (ofDecimal 45 1) (ofInt 6) = ofInt 0 ∧
    bitrateAt 4 = some 6000 ∧
    (ofInt 6000 * ofInt 6 : F32) / ofInt 4000 = ofInt 9 ∧
    calculate_rebuffer_probability (ofInt 20 : F32) (ofInt 9) (ofInt 6) = ofInt 1 ∧
    (ofInt 1 : F32) ≠ ofInt 0 := by
  decide

/-- C8. For every buffer level below 2 s and every bandwidth, current quality and maximum
quality, `select_quality_level` returns 0; in particular
`select_quality_level(b, 1.0, 5, 5) = 0` for every `b`, and
`select_quality_level(20000, 1.5, 5, max_quality) = 0`. -/
theorem select_quality_level_critical_buffer :
    (∀ (bandwidth buffer_level : F32) (current_quality max_quality : Int),
      buffer_level < ofDecimal 20 1 →
      select_quality_level bandwidth buffer_level current_quality max_quality = some 0) ∧
    (∀ b : F32, select_quality_level b (ofDecimal 10 1) 5 5 = some 0) ∧
    (∀ max_quality : Int,
      select_quality_level (ofInt 20000 : F32) (ofDecimal 15 1) 5 max_quality = some 0) := by
  have main : ∀ (bandwidth buffer_level : F32) (current_quality max_quality : Int),
      buffer_level < ofDecimal 20 1 →
      select_quality_level bandwidth buffer_level current_quality max_quality = some 0 := by
    intro bandwidth buffer_level current_quality max_quality h
    unfold select_quality_level
    by_cases hb : bandwidth ≤ ofInt 0
    · rw [if_pos hb]
    · rw [if_neg hb]
      simp only []
      rw [if_pos h]
  exact ⟨main, fun b => main b _ 5 5 (by decide), fun m => main _ _ 5 m (by decide)⟩

/-- C8 at scenario B: bandwidth 20000, buffer 1.5 s, current and maximum quality 5. -/
theorem select_quality_level_critical_buffer_witness :
    (ofDecimal 15 1 : F32) < ofDecimal 20 1 ∧
    select_quality_level (ofInt 20000 : F32) (ofDecimal 15 1) 5 5 = some 0 :=
  ⟨by decide, select_quality_level_critical_buffer.1 _ _ _ _ (by decide)⟩

/-- C9. For every bandwidth `<= 0` and every buffer level, current quality and maximum
quality, `select_quality_level` returns 0. -/
theorem select_quality_level_nonpositive_bandwidth (bandwidth buffer_level : F32)
    (current_quality max_quality : Int) (h : bandwidth ≤ ofInt 0) :
    select_quality_level bandwidth buffer_level current_quality max_quality = some 0 := by
  unfold select_quality_level
  rw [if_pos h]

/-- C9 at bandwidth -100, buffer 20 s, current quality 3, maximum quality 5. -/
theorem select_quality_level_nonpositive_bandwidth_witness :
    (ofInt (-100) : F32) ≤ ofInt 0 ∧
    select_quality_level (ofInt (-100) : F32) (ofInt 20) 3 5 = some 0 :=
  ⟨by decide, select_quality_level_nonpositive_bandwidth _ _ _ _ (by decide)⟩

/-- C10. In the medium-buffer regime (`5 <= buffer <= 30`), for bandwidth `> 0` and
`0 <= current_quality <= max_quality <= 5`, with `A` the affordable level:
`select_quality_level` returns `current_quality + 1` if `A > current_quality` and
bandwidth exceeds 1.2 x the bitrate of level `current_quality + 1`; otherwise `A` if
`A < current_quality`; otherwise `current_quality`. -/
theorem select_quality_level_medium_buffer (bandwidth buffer_level : F32)
    (current_quality max_quality : Int)
    (hbw : ofInt 0 < bandwidth)
    (hlow : ofDecimal 50 1 ≤ buffer_level) (hhigh : buffer_level ≤ ofDecimal 300 1)
    (hc0 : 0 ≤ current_quality) (hcm : current_quality ≤ max_quality) (hm : max_quality ≤ 5) :
    select_quality_level bandwidth buffer_level current_quality max_quality =
      some (if current_quality < affordable_level bandwidth max_quality ∧
              ofInt (ladderRate (current_quality + 1)) * ofDecimal 12 1 < bandwidth
            then current_quality + 1
            else if affordable_level bandwidth max_quality < current_quality
            then affordable_level bandwidth max_quality
            else current_quality) := by
  have hm0 : 0 ≤ max_quality := by omega
  obtain ⟨hA0, hA1⟩ := affordable_level_range bandwidth max_quality hm0
  have h1 : ¬ (bandwidth ≤ ofInt 0) := by
    rw [F32.le_def, F32.not_fle_of_flt hbw]; exact Bool.noConfusion
  have h2 : ¬ (buffer_level < ofDecimal 20 1) := by
    have : F32.le (ofDecimal 20 1) buffer_level = true :=
      F32.fle_trans (by decide : F32.le (ofDecimal 20 1) (ofDecimal 50 1) = true) hlow
    rw [F32.lt_def, F32.not_flt_of_fle this]; exact Bool.noConfusion
  have h3 : ¬ (buffer_level < ofDecimal 50 1) := by
    rw [F32.lt_def, F32.not_flt_of_fle hlow]; exact Bool.noConfusion
  have h4 : ¬ (ofDecimal 300 1 < buffer_level) := by
    rw [F32.lt_def, F32.not_flt_of_fle hhigh]; exact Bool.noConfusion
  have hmax : (if max_quality < NUM_QUALITIES then max_quality else NUM_QUALITIES - 1)
      = max_quality := by
    rw [actualMax_eq]; exact min_eq_left hm
  unfold select_quality_level
  rw [if_neg h1]
  simp only [hmax]
  clear hmax
  rw [if_neg h2, bandwidthQualityLoop_eq bandwidth max_quality hm0 hm]
  simp only []
  rw [if_neg h3, if_neg h4]
  generalize affordable_level bandwidth max_quality = A at hA0 hA1 ⊢
  have c0 : ¬ current_quality < 0 := by omega
  have c1 : ¬ max_quality < current_quality := by omega
  have a0 : ¬ A < 0 := by omega
  have a1 : ¬ max_quality < A := by omega
  by_cases hup : current_quality < A
  · obtain ⟨rate, hr⟩ := bitrateAt_some (current_quality + 1) (by omega) (by omega)
    have u0 : ¬ current_quality + 1 < 0 := by omega
    have u1 : ¬ max_quality < current_quality + 1 := by omega
    have u2 : ¬ A < current_quality := by omega
    rw [if_pos hup, hr, ladderRate_of_bitrateAt hr]
    by_cases hmargin : ofInt rate * ofDecimal 12 1 < bandwidth
    · simp only [hup, hmargin, and_self, if_true, u0, u1, if_false]
    · simp only [hup, hmargin, and_false, if_false, u2, c0, c1]
  · by_cases hdown : A < current_quality
    · simp only [hup, false_and, if_false, hdown, if_true, a0, a1]
    · simp only [hup, false_and, if_false, hdown, c0, c1]

/-- C10 at bandwidth 4000, buffer 20 s, current quality 2, maximum quality 5. -/
theorem select_quality_level_medium_buffer_witness :
    ((ofInt 0 : F32) < ofInt 4000 ∧ (ofDecimal 50 1 : F32) ≤ ofInt 20 ∧
      (ofInt 20 : F32) ≤ ofDecimal 300 1 ∧ (0 : Int) ≤ 2 ∧ (2 : Int) ≤ 5 ∧ (5 : Int) ≤ 5) ∧
    select_quality_level (ofInt 4000 : F32) (ofInt 20) 2 5 =
      some (if 2 < affordable_level (ofInt 4000 : F32) 5 ∧
              ofInt (ladderRate (2 + 1)) * ofDecimal 12 1 < (ofInt 4000 : F32)
            then 2 + 1
            else if affordable_level (ofInt 4000 : F32) 5 < 2
            then affordable_level (ofInt 4000 : F32) 5
            else 2) :=
  ⟨by decide, select_quality_level_medium_buffer _ _ _ _ (by decide) (by decide) (by decide)
    (by decide) (by decide) (by decide)⟩

/-- C11. In the low-buffer regime (`2 <= buffer < 5`), for bandwidth `> 0`,
`current_quality >= 0` and `0 <= max_quality <= 5`, `select_quality_level` returns
`min (max (current_quality - 1) 0) A`, with `A` the affordable level. -/
theorem select_quality_level_low_buffer (bandwidth buffer_level : F32)
    (current_quality max_quality : Int)
    (hbw : ofInt 0 < bandwidth)
    (hcrit : ofDecimal 20 1 ≤ buffer_level) (hlow : buffer_level < ofDecimal 50 1)
    (hc0 : 0 ≤ current_quality) (hm0 : 0 ≤ max_quality) (hm : max_quality ≤ 5) :
    select_quality_level bandwidth buffer_level current_quality max_quality =
      some (min (max (current_quality - 1) 0) (affordable_level bandwidth max_quality)) := by
  obtain ⟨hA0, hA1⟩ := affordable_level_range bandwidth max_quality hm0
  have h1 : ¬ (bandwidth ≤ ofInt 0) := by
    rw [F32.le_def, F32.not_fle_of_flt hbw]; exact Bool.noConfusion
  have h2 : ¬ (buffer_level < ofDecimal 20 1) := by
    rw [F32.lt_def, F32.not_flt_of_fle hcrit]; exact Bool.noConfusion
  have hmax : (if max_quality < NUM_QUALITIES then max_quality else NUM_QUALITIES - 1)
      = max_quality := by
    rw [actualMax_eq]; exact min_eq_left hm
  unfold select_quality_level
  rw [if_neg h1]
  simp only [hmax]
  clear hmax
  rw [if_neg h2, bandwidthQualityLoop_eq bandwidth max_quality hm0 hm]
  simp only []
  rw [if_pos hlow]
  generalize affordable_level bandwidth max_quality = A at hA0 hA1 ⊢
  simp only []
  congr 1
  split_ifs <;> omega

/-- C11 at bandwidth 4000, buffer 3 s, current quality 5, maximum quality 5. -/
theorem select_quality_level_low_buffer_witness :
    ((ofInt 0 : F32) < ofInt 4000 ∧ (ofDecimal 20 1 : F32) ≤ ofInt 3 ∧
      (ofInt 3 : F32) < ofDecimal 50 1 ∧ (0 : Int) ≤ 5 ∧ (0 : Int) ≤ 5 ∧ (5 : Int) ≤ 5) ∧
    select_quality_level (ofInt 4000 : F32) (ofInt 3) 5 5 =
      some (min (max (5 - 1) 0) (affordable_level (ofInt 4000 : F32) 5)) :=
  ⟨by decide, select_quality_level_low_buffer _ _ _ _ (by decide) (by decide) (by decide)
    (by decide) (by decide) (by decide)⟩

/-- C12. In the high-buffer regime (`buffer > 30`), for bandwidth `> 0` and
`0 <= current_quality <= max_quality <= 5`, `select_quality_level` returns
`min (min (current_quality + 1) max_quality) A`, with `A` the affordable level. -/
theorem select_quality_level_high_buffer (bandwidth buffer_level : F32)
    (current_quality max_quality : Int)
    (hbw : ofInt 0 < bandwidth) (hhigh : ofDecimal 300 1 < buffer_level)
    (hc0 : 0 ≤ current_quality) (hcm : current_quality ≤ max_quality) (hm : max_quality ≤ 5) :
    select_quality_level bandwidth buffer_level current_quality max_quality =
      some (min (min (current_quality + 1) max_quality)
        (affordable_level bandwidth max_quality)) := by
  have hm0 : 0 ≤ max_quality := by omega
  obtain ⟨hA0, hA1⟩ := affordable_level_range bandwidth max_quality hm0
  have h1 : ¬ (bandwidth ≤ ofInt 0) := by
    rw [F32.le_def, F32.not_fle_of_flt hbw]; exact Bool.noConfusion
  have h2 : ¬ (buffer_level < ofDecimal 20 1) := by
    have : F32.lt (ofDecimal 20 1) buffer_level = true :=
      F32.flt_trans (by decide : F32.lt (ofDecimal 20 1) (ofDecimal 300 1) = true) hhigh
    rw [F32.lt_def, F32.flt_asymm this]; exact Bool.noConfusion
  have h3 : ¬ (buffer_level < ofDecimal 50 1) := by
    have : F32.lt (ofDecimal 50 1) buffer_level = true :=
      F32.flt_trans (by decide : F32.lt (ofDecimal 50 1) (ofDecimal 300 1) = true) hhigh
    rw [F32.lt_def, F32.flt_asymm this]; exact Bool.noConfusion
  have hmax : (if max_quality < NUM_QUALITIES then max_quality else NUM_QUALITIES - 1)
      = max_quality := by
    rw [actualMax_eq]; exact min_eq_left hm
  unfold select_quality_level
  rw [if_neg h1]
  simp only [hmax]
  clear hmax
  rw [if_neg h2, bandwidthQualityLoop_eq bandwidth max_quality hm0 hm]
  simp only []
  rw [if_neg h3, if_pos hhigh]
  generalize affordable_level bandwidth max_quality = A at hA0 hA1 ⊢
  simp only []
  congr 1
  split_ifs <;> omega

/-- C12 at bandwidth 4000, buffer 40 s, current quality 1, maximum quality 5. -/
theorem select_quality_level_high_buffer_witness :
    ((ofInt 0 : F32) < ofInt 4000 ∧ (ofDecimal 300 1 : F32) < ofInt 40 ∧
      (0 : Int) ≤ 1 ∧ (1 : Int) ≤ 5 ∧ (5 : Int) ≤ 5) ∧
    select_quality_level (ofInt 4000 : F32) (ofInt 40) 1 5 =
      some (min (min (1 + 1) 5) (affordable_level (ofInt 4000 : F32) 5)) :=
  ⟨by decide, select_quality_level_high_buffer _ _ _ _ (by decide) (by decide)
    (by decide) (by decide) (by decide)⟩

/-- C13. For every `max_quality >= 0`, every `current_quality >= 0` (also above
`max_quality`) and every bandwidth and buffer level, `select_quality_level` returns an
index `q` with `0 <= q <= min max_quality 5`. -/
theorem select_quality_level_index_in_range (bandwidth buffer_level : F32)
    (current_quality max_quality : Int) (hm : 0 ≤ max_quality) (hc : 0 ≤ current_quality) :
    ∃ q, select_quality_level bandwidth buffer_level current_quality max_quality = some q ∧
      0 ≤ q ∧ q ≤ min max_quality 5 :=
  select_quality_level_range bandwidth buffer_level current_quality max_quality hm hc

/-- C13 at bandwidth 20000, buffer 40 s, current quality 9 above the maximum quality 7. -/
theorem select_quality_level_index_in_range_witness :
    ((0 : Int) ≤ 7 ∧ (0 : Int) ≤ 9) ∧
    ∃ q, select_quality_level (ofInt 20000 : F32) (ofInt 40) 9 7 = some q ∧
      0 ≤ q ∧ q ≤ min 7 5 :=
  ⟨by decide, select_quality_level_index_in_range _ _ _ _ (by decide) (by decide)⟩

/-- C14. A switch history of three entries, all different from the current quality 2,
and a recommendation one level above it (bandwidth 4000, buffer 20 s, maximum quality 5):
`select_quality_stable` counts no switch and returns the recommendation 3, not the
current quality. -/
theorem select_quality_stable_short_history_not_held :
    (([0, 0, 0] : List Int).filter (fun x => x ≠ 2)).length = 3 ∧
    select_quality_level (ofInt 4000 : F32) (ofInt 20) 2 5 = some 3 ∧
    recentSwitches [0, 0, 0] 2 = 0 ∧
    select_quality_stable (ofInt 4000 : F32) (ofInt 20) 2 5 [0, 0, 0] = some 3 := by
  decide

/-- C15. For every switch history and every input for which the recommendation `r` of
`select_quality_level` has `|r - current_quality| ≠ 1`, `select_quality_stable` returns
`r`. -/
theorem select_quality_stable_keeps_larger_jumps (bandwidth buffer_level : F32)
    (current_quality max_quality : Int) (switch_history : List Int) (r : Int)
    (hr : select_quality_level bandwidth buffer_level current_quality max_quality = some r)
    (h1 : |r - current_quality| ≠ 1) :
    select_quality_stable bandwidth buffer_level current_quality max_quality switch_history
      = some r :=
  select_quality_stable_passes bandwidth buffer_level current_quality max_quality
    switch_history r hr h1

/-- C15 at an emergency drop: bandwidth 1000, buffer 20 s, current quality 5, maximum
quality 5, five recorded selections that all differ from 5; the recommendation 1 is
returned. -/
theorem select_quality_stable_keeps_larger_jumps_witness :
    (select_quality_level (ofInt 1000 : F32) (ofInt 20) 5 5 = some 1 ∧
      |(1 : Int) - 5| ≠ 1 ∧ 3 ≤ recentSwitches [0, 1, 2, 3, 4] 5) ∧
    select_quality_stable (ofInt 1000 : F32) (ofInt 20) 5 5 [0, 1, 2, 3, 4] = some 1 :=
  ⟨by decide, select_quality_stable_keeps_larger_jumps _ _ _ _ _ _ (by decide) (by decide)⟩

/-- C16. Maximum quality lowered to 3 below the current quality 4, bandwidth 20000,
buffer 20 s, five recorded selections that all differ from 4: the recommendation is 3,
one level below the current quality, and `select_quality_stable` returns the current
quality 4, which is above the maximum quality. -/
theorem select_quality_stable_above_max_quality :
    select_quality_level (ofInt 20000 : F32) (ofInt 20) 4 3 = some 3 ∧
    recentSwitches [0, 1, 2, 3, 0] 4 = 5 ∧
    select_quality_stable (ofInt 20000 : F32) (ofInt 20) 4 3 [0, 1, 2, 3, 0] = some 4 := by
  decide

/-- C17. In exact arithmetic, for every non-empty constant history of value `v` (any
length `n + 1`; every `v`, so in particular every `v > 0`), `predict_bandwidth` returns
exactly `0.8 * v`. -/
theorem predict_bandwidth_constant_exact (v : ℚ) (n : Nat) :
    predict_bandwidth (List.replicate (n + 1) v) = 8 / 10 * v := by
  rw [List.replicate_succ]
  unfold predict_bandwidth
  simp only []
  rw [ewma_fold_constant_rat]
  simp only [ofDecimal_rat, mul_rat]
  norm_num
  ring

/-- C18. For every non-empty history `h`, `predict_bandwidth h` is `0.8 * e_n`, where
`e_0 = h[0]`, `e_i = 0.3 * h[i] + 0.7 * e_(i-1)` and `n` is the last index: the EWMA taken
left to right and seeded with the first sample, in binary32 with every operation
rounded. -/
theorem predict_bandwidth_is_ewma (h : List F32) (hne : h ≠ []) :
    predict_bandwidth h = ofDecimal 8 1 * ewma_spec h (h.length - 1) := by
  cases h with
  | nil => exact absurd rfl hne
  | cons h0 rest =>
    unfold predict_bandwidth
    simp only []
    rw [ewma_fold_eq_spec (by decide) h0 rest, F32.mul_def, F32.mul_def, F32.fmul_comm]
    rfl

/-- C18 at the history 1000, 2000, 4000. -/
theorem predict_bandwidth_is_ewma_witness :
    ([ofInt 1000, ofInt 2000, ofInt 4000] : List F32) ≠ [] ∧
    predict_bandwidth ([ofInt 1000, ofInt 2000, ofInt 4000] : List F32) =
      ofDecimal 8 1 * ewma_spec ([ofInt 1000, ofInt 2000, ofInt 4000] : List F32) (3 - 1) :=
  ⟨by decide, predict_bandwidth_is_ewma _ (by decide)⟩

/-- C19. For every history, `predict_bandwidth_harmonic` returns `k` divided by the sum of
`1 / x` over the samples `x > 0`, with `k` the number of those samples, and 0 when `k = 0`;
no margin is applied, and the samples that are not strictly positive do not affect the
result: dropping them from the history leaves it unchanged. -/
theorem predict_bandwidth_harmonic_is_harmonic_mean (history : List F32) :
    predict_bandwidth_harmonic history = harmonic_mean_spec history ∧
    predict_bandwidth_harmonic (history.filter (fun x => decide (ofInt 0 < x))) =
      predict_bandwidth_harmonic history := by
  refine ⟨predict_bandwidth_harmonic_eq_spec history, ?_⟩
  rw [predict_bandwidth_harmonic_eq_spec, predict_bandwidth_harmonic_eq_spec,
    harmonic_mean_spec_filter]

/-- C20, as stated, fails in binary32: the constant history 7, 7, 7 gives the float just
below 7. -/
theorem predict_bandwidth_harmonic_rounding_counterexample :
    (ofInt 0 : F32) < ofInt 7 ∧
    (ofInt 7 : F32) = F32.fin false 14680064 (-21) ∧
    predict_bandwidth_harmonic ([ofInt 7, ofInt 7, ofInt 7] : List F32)
      = F32.fin false 14680063 (-21) ∧
    predict_bandwidth_harmonic ([ofInt 7, ofInt 7, ofInt 7] : List F32) ≠ ofInt 7 := by
  decide

/-- C20, amended. In exact arithmetic, for every non-empty constant history of value
`v > 0`, `predict_bandwidth_harmonic` returns `v`; and in binary32
`predict_bandwidth_harmonic [10, 10, 10]` is exactly 10. -/
theorem predict_bandwidth_harmonic_constant :
    (∀ (v : ℚ) (n : Nat), 0 < v →
      predict_bandwidth_harmonic (List.replicate (n + 1) v) = v) ∧
    predict_bandwidth_harmonic ([ofInt 10, ofInt 10, ofInt 10] : List F32) = ofInt 10 := by
  refine ⟨?_, by decide⟩
  intro v n hv
  unfold predict_bandwidth_harmonic
  rw [if_neg (by simp)]
  simp only [harmonic_fold_constant_rat v hv]
  rw [if_neg (by omega)]
  simp only [ofDecimal_rat, ofInt_rat, div_rat, add_rat]
  have hv0 : v ≠ 0 := ne_of_gt hv
  have hn : ((n : ℚ) + 1) ≠ 0 := by positivity
  push_cast
  field_simp

/-- C20, amended, in exact arithmetic at the history 10, 10, 10. -/
theorem predict_bandwidth_harmonic_constant_witness :
    (0 : ℚ) < 10 ∧ predict_bandwidth_harmonic (List.replicate (2 + 1) (10 : ℚ)) = 10 :=
  ⟨by norm_num, predict_bandwidth_harmonic_constant.1 10 2 (by norm_num)⟩

/-- C21, as stated, fails in binary32: for the history 9000000, 10000000, 10999997 the
slope normalised by the mean is `1999997 / 19999998 < 0.1`, so the classification of the
spec is stable (0).  In the code `sum_y` rounds to 29999996, `n * sum_xy` to 95999984 and
`sum_x * sum_y` to 89999984, so the slope is 1000000, the average 9999999 and the
normalised slope `13421774 * 2^-27`, one step above `0.1f = 13421773 * 2^-27`:
`detect_bandwidth_trend` returns 1. -/
theorem detect_bandwidth_trend_rounding_counterexample :
    detect_bandwidth_trend ([ofInt 9000000, ofInt 10000000, ofInt 10999997] : List F32) = 1 ∧
    mean_spec [9000000, 10000000, 10999997] = 9999999 ∧
    ols_slope_spec [9000000, 10000000, 10999997] / mean_spec [9000000, 10000000, 10999997]
      = 1999997 / 19999998 ∧
    trend_spec [9000000, 10000000, 10999997] = 0 := by
  have hm : mean_spec [9000000, 10000000, 10999997] = 9999999 := by
    unfold mean_spec; norm_num
  have hs : ols_slope_spec [9000000, 10000000, 10999997] = 1999997 / 2 := by
    unfold ols_slope_spec
    rw [hm]
    simp only [List.length_cons, List.length_nil, Finset.sum_range_succ, Finset.sum_range_zero]
    norm_num
  refine ⟨by decide, hm, ?_, ?_⟩
  · rw [hs, hm]; norm_num
  · unfold trend_spec
    rw [hs, hm]
    norm_num

/-- C21, amended. In exact arithmetic, for every history of length `3 <= n <= 46341` with
non-zero mean, `detect_bandwidth_trend` returns 1 if `s / m > 0.1`, -1 if `s / m < -0.1`
and 0 otherwise, with `s` the ordinary least-squares slope of value against index
`0 .. n-1` (whose denominator is not zero) and `m` the arithmetic mean of the samples;
and in binary32 as in exact arithmetic it returns 0 for every history with fewer than 3
samples. -/
theorem detect_bandwidth_trend_is_ols_classification :
    (∀ h : List ℚ, 3 ≤ h.length → h.length ≤ 46341 → mean_spec h ≠ 0 →
      detect_bandwidth_trend h =
        (if ols_slope_spec h / mean_spec h > 1 / 10 then 1
          else if ols_slope_spec h / mean_spec h < -(1 / 10) then -1 else 0) ∧
      Finset.sum (Finset.range h.length) (fun i => ((i : ℚ)
        - Finset.sum (Finset.range h.length) (fun i => (i : ℚ)) / h.length) ^ 2) ≠ 0) ∧
    (∀ h : List F32, h.length < 3 → detect_bandwidth_trend h = 0) ∧
    (∀ h : List ℚ, h.length < 3 → detect_bandwidth_trend h = 0) := by
  refine ⟨?_, ?_, ?_⟩
  · intro h h3 hlen _
    refine ⟨?_, ne_of_gt (ols_denominator_pos h.length (by omega))⟩
    rw [detect_bandwidth_trend_rat h hlen]
    unfold trend_spec
    rw [if_neg (by omega)]
  · intro h h3
    unfold detect_bandwidth_trend
    rw [if_pos h3]
  · intro h h3
    unfold detect_bandwidth_trend
    rw [if_pos h3]

/-- C21, amended, at the history 1, 2, 3, 4, 5 in exact arithmetic. -/
theorem detect_bandwidth_trend_is_ols_classification_witness :
    (3 ≤ ([1, 2, 3, 4, 5] : List ℚ).length ∧ ([1, 2, 3, 4, 5] : List ℚ).length ≤ 46341 ∧
      mean_spec [1, 2, 3, 4, 5] ≠ 0) ∧
    detect_bandwidth_trend ([1, 2, 3, 4, 5] : List ℚ) =
      (if ols_slope_spec [1, 2, 3, 4, 5] / mean_spec [1, 2, 3, 4, 5] > 1 / 10 then 1
        else if ols_slope_spec [1, 2, 3, 4, 5] / mean_spec [1, 2, 3, 4, 5] < -(1 / 10) then -1
        else 0) :=
  ⟨⟨by decide, by decide, by unfold mean_spec; norm_num⟩,
    (detect_bandwidth_trend_is_ols_classification.1 [1, 2, 3, 4, 5] (by decide) (by decide)
      (by unfold mean_spec; norm_num)).1⟩

/-- C22, as stated, fails in binary32 for a constant history at the edge of overflow: on
eight samples of value `9586980 * 2^97` (about 1.5e36) the product `n * sum_xy` overflows
to infinity while `sum_x * sum_y` is the largest finite value, and `detect_bandwidth_trend`
returns 1. -/
theorem detect_bandwidth_trend_constant_overflow_counterexample :
    (F32.fin false 9586980 97).valid = true ∧
    ofInt 0 < F32.fin false 9586980 97 ∧
    detect_bandwidth_trend (List.replicate 8 (F32.fin false 9586980 97)) = 1 := by
  decide

/-- C22, amended. In binary32 `detect_bandwidth_trend` returns 1 on 1, 2, 3, 4, 5, returns
-1 on 5, 4, 3, 2, 1 and returns 0 on 3, 3, 3, 3; and in exact arithmetic every constant
history (of any value and any length, in particular non-zero and of length 3 or more) is
classified stable (0). -/
theorem detect_bandwidth_trend_examples :
    detect_bandwidth_trend ([ofInt 1, ofInt 2, ofInt 3, ofInt 4, ofInt 5] : List F32) = 1 ∧
    detect_bandwidth_trend ([ofInt 5, ofInt 4, ofInt 3, ofInt 2, ofInt 1] : List F32) = -1 ∧
    detect_bandwidth_trend ([ofInt 3, ofInt 3, ofInt 3, ofInt 3] : List F32) = 0 ∧
    (∀ (v : ℚ) (n : Nat), detect_bandwidth_trend (List.replicate n v) = 0) :=
  ⟨by decide, by decide, by decide, detect_bandwidth_trend_constant_rat⟩

/-- C23. For every history of length `n >= 2`, `calculate_bandwidth_variance` returns the
sample variance, the sum of `(h[i] - mean)^2` divided by `n - 1`: in binary32 with the sums
taken in history order, and in exact arithmetic; for every history of length below 2 it
returns 0. -/
theorem calculate_bandwidth_variance_is_sample_variance :
    (∀ history : List F32,
      calculate_bandwidth_variance history = sample_variance_spec history) ∧
    (∀ history : List ℚ, 2 ≤ history.length →
      calculate_bandwidth_variance history =
        (history.map (fun x => (x - history.sum / history.length) ^ 2)).sum
          / ((history.length : ℚ) - 1)) ∧
    (∀ history : List F32, history.length < 2 →
      calculate_bandwidth_variance history = ofInt 0) := by
  refine ⟨calculate_bandwidth_variance_eq_spec, calculate_bandwidth_variance_rat, ?_⟩
  intro history h
  unfold calculate_bandwidth_variance
  rw [if_pos h]
  decide

/-- C23 at a history of one sample. -/
theorem calculate_bandwidth_variance_is_sample_variance_witness :
    ([ofInt 7] : List F32).length < 2 ∧
    calculate_bandwidth_variance ([ofInt 7] : List F32) = ofInt 0 :=
  ⟨by decide, calculate_bandwidth_variance_is_sample_variance.2.2 _ (by decide)⟩

/-- C24, as stated, fails on "always lies in `[0, 1]`": with a NaN buffer level (segment
duration 6) and with a NaN segment duration (buffer level 12) `calculate_buffer_health`
returns NaN. -/
theorem calculate_buffer_health_nan_counterexample :
    calculate_buffer_health F32.nan (ofInt 6) = F32.nan ∧
    calculate_buffer_health (ofInt 12) F32.nan = F32.nan ∧
    ¬ ((ofInt 0 : F32) ≤ F32.nan) ∧ ¬ (F32.nan ≤ (ofInt 1 : F32)) := by
  decide

/-- C24, amended. With `5 x d` the binary32 product, for every binary32 value `d` and every
`b`: `calculate_buffer_health b d` is 0 when `d <= 0` or `b <= 0`, is `b / (5 x d)` when
`d > 0` and `0 < b < 5 x d`, and is 1 when `d > 0` and `b >= 5 x d`; hence it is 1 at
`b = 5 x d` for every `d > 0`, it is 0 at `b = 0`, and it lies in `[0, 1]` whenever neither
argument is NaN. -/
theorem calculate_buffer_health_cases (b d : F32) (hd : d.valid = true) :
    ((d ≤ ofInt 0 ∨ b ≤ ofInt 0) → calculate_buffer_health b d = ofInt 0) ∧
    (ofInt 0 < d → ofInt 0 < b → b < ofInt 5 * d →
      calculate_buffer_health b d = b / (ofInt 5 * d)) ∧
    (ofInt 0 < d → ofInt 5 * d ≤ b → calculate_buffer_health b d = ofInt 1) ∧
    (ofInt 0 < d → calculate_buffer_health (ofInt 5 * d) d = ofInt 1) ∧
    calculate_buffer_health (ofInt 0) d = ofInt 0 ∧
    (b.isNaN = false → d.isNaN = false →
      ofInt 0 ≤ calculate_buffer_health b d ∧ calculate_buffer_health b d ≤ ofInt 1) := by
  have e0 : (ofInt 0 : F32) = F32.fin false 0 (-149) := by decide
  have e1 : (ofInt 1 : F32) = F32.fin false 8388608 (-23) := by decide
  have e5 : (ofInt 5 : F32) = F32.fin false 10485760 (-21) := by decide
  have z0 : (ofDecimal 0 1 : F32) = F32.fin false 0 (-149) := by decide
  have z1 : (ofDecimal 10 1 : F32) = F32.fin false 8388608 (-23) := by decide
  have z5 : (ofDecimal 50 1 : F32) = F32.fin false 10485760 (-21) := by decide
  have hcomm : d * (F32.fin false 10485760 (-21)) = (F32.fin false 10485760 (-21)) * d := by
    rw [F32.mul_def, F32.mul_def, F32.fmul_comm]
  have hexp := F32.expOk_of_valid d hd
  have hpos : ofInt 0 < d → (F32.fin false 0 (-149)) < (F32.fin false 10485760 (-21)) * d := by
    intro h
    rw [e0, F32.lt_def] at h
    rw [← hcomm, F32.lt_def, F32.mul_def]
    exact F32.mul_five_pos d hexp h
  have main3 : ∀ b' : F32, ofInt 0 < d → ofInt 5 * d ≤ b' →
      calculate_buffer_health b' d = ofInt 1 := by
    intro b' h1 h2
    have h5 := hpos h1
    rw [e5] at h2
    have hb : F32.lt (F32.fin false 0 (-149)) b' = true := F32.flt_of_flt_of_fle h5 h2
    unfold calculate_buffer_health
    rw [e0] at h1
    rw [e0, z0, z1, z5, e1, hcomm]
    rw [if_neg (by rw [F32.le_def, F32.not_fle_of_flt h1]; exact Bool.noConfusion)]
    simp only []
    rw [if_neg (by rw [F32.le_def, F32.not_fle_of_flt hb]; exact Bool.noConfusion), if_pos h2]
  refine ⟨?_, ?_, main3 b, ?_, ?_, ?_⟩
  · intro h
    unfold calculate_buffer_health
    by_cases h1 : d ≤ ofInt 0
    · rw [if_pos h1]; decide
    · rw [if_neg h1]
      simp only []
      rcases h with h | h
      · exact absurd h h1
      · rw [if_pos h]; decide
  · intro h1 h2 h3
    unfold calculate_buffer_health
    rw [e0] at h1 h2
    rw [e5] at h3
    rw [e0, z0, z1, z5, e5, hcomm]
    rw [if_neg (by rw [F32.le_def, F32.not_fle_of_flt h1]; exact Bool.noConfusion)]
    simp only []
    rw [if_neg (by rw [F32.le_def, F32.not_fle_of_flt h2]; exact Bool.noConfusion),
      if_neg (by rw [F32.le_def, F32.not_fle_of_flt h3]; exact Bool.noConfusion)]
  · intro h1
    apply main3 _ h1
    have h5 := hpos h1
    rw [e5, F32.le_def]
    exact F32.fle_refl (F32.flt_notNaN h5).2
  · unfold calculate_buffer_health
    by_cases h1 : d ≤ ofInt 0
    · rw [if_pos h1]; decide
    · rw [if_neg h1]
      simp only []
      rw [if_pos (by decide)]
      decide
  · intro hbn hdn
    have u0 : (F32.fin false 0 (-149) : F32) ≤ F32.fin false 0 (-149) ∧
        (F32.fin false 0 (-149) : F32) ≤ F32.fin false 8388608 (-23) := by decide
    have u1 : (F32.fin false 0 (-149) : F32) ≤ F32.fin false 8388608 (-23) ∧
        (F32.fin false 8388608 (-23) : F32) ≤ F32.fin false 8388608 (-23) := by decide
    unfold calculate_buffer_health
    rw [e0, z0, z1, z5, e1]
    by_cases h1 : d ≤ F32.fin false 0 (-149)
    · rw [if_pos h1]; exact u0
    rw [if_neg h1]
    simp only []
    by_cases h2 : b ≤ F32.fin false 0 (-149)
    · rw [if_pos h2]; exact u0
    rw [if_neg h2]
    by_cases h3 : d * F32.fin false 10485760 (-21) ≤ b
    · rw [if_pos h3]; exact u1
    rw [if_neg h3]
    have h1' : F32.lt (F32.fin false 0 (-149)) d = true :=
      F32.flt_of_not_fle hdn rfl (by rw [F32.le_def] at h1; simpa using h1)
    have h2' : F32.lt (F32.fin false 0 (-149)) b = true :=
      F32.flt_of_not_fle hbn rfl (by rw [F32.le_def] at h2; simpa using h2)
    have htn : (d * F32.fin false 10485760 (-21)).isNaN = false := by
      have := hpos (by rw [e0]; exact h1')
      rw [← hcomm] at this
      exact (F32.flt_notNaN this).2
    have h3' : F32.lt b (d * F32.fin false 10485760 (-21)) = true :=
      F32.flt_of_not_fle htn hbn (by rw [F32.le_def] at h3; simpa using h3)
    exact F32.div_lt_unit b _ h2' h3'

/-- C24, amended, at a buffer of 12 s and a segment duration of 6 s. -/
theorem calculate_buffer_health_cases_witness :
    (ofInt 6 : F32).valid = true ∧
    calculate_buffer_health (ofInt 12 : F32) (ofInt 6) = ofInt 12 / (ofInt 5 * ofInt 6) :=
  ⟨by decide,
    (calculate_buffer_health_cases (ofInt 12) (ofInt 6) (by decide)).2.1
      (by decide) (by decide) (by decide)⟩

/-- C25. For every buffer `> 0`, download time `> 0` and segment duration (in particular
`> 0`), with `r = download_time / segment_duration`: `calculate_rebuffer_probability`
returns 1 if `r >= 1`; otherwise, with `T = buffer / (1 - r)`, it returns 0 if `T > 30`,
0.9 if `T < 5` and `1 - T / 30` if `5 <= T <= 30`.  For a buffer `> 0` and a download time
`<= 0` it returns 0. -/
theorem calculate_rebuffer_probability_cases (b dt sd : F32) (hb : ofInt 0 < b) :
    (ofInt 0 < dt →
      (ofInt 1 ≤ dt / sd → calculate_rebuffer_probability b dt sd = ofInt 1) ∧
      (¬ ofInt 1 ≤ dt / sd →
        (ofInt 30 < b / (ofInt 1 - dt / sd) →
          calculate_rebuffer_probability b dt sd = ofInt 0) ∧
        (b / (ofInt 1 - dt / sd) < ofInt 5 →
          calculate_rebuffer_probability b dt sd = ofDecimal 9 1) ∧
        (ofInt 5 ≤ b / (ofInt 1 - dt / sd) → b / (ofInt 1 - dt / sd) ≤ ofInt 30 →
          calculate_rebuffer_probability b dt sd =
            ofInt 1 - b / (ofInt 1 - dt / sd) / ofInt 30))) ∧
    (dt ≤ ofInt 0 → calculate_rebuffer_probability b dt sd = ofInt 0) := by
  have e1 : (ofInt 1 : F32) = ofDecimal 10 1 := by decide
  have e5 : (ofInt 5 : F32) = ofDecimal 50 1 := by decide
  have e30 : (ofInt 30 : F32) = ofDecimal 300 1 := by decide
  have e0 : (ofDecimal 0 1 : F32) = ofInt 0 := by decide
  have hb' : ¬ b ≤ ofInt 0 := by
    rw [F32.le_def, F32.not_fle_of_flt hb]; exact Bool.noConfusion
  rw [e1, e5, e30]
  refine ⟨?_, ?_⟩
  · intro hdt
    have hdt' : ¬ dt ≤ ofInt 0 := by
      rw [F32.le_def, F32.not_fle_of_flt hdt]; exact Bool.noConfusion
    refine ⟨?_, ?_⟩
    · intro hr
      unfold calculate_rebuffer_probability
      rw [if_neg hb', if_neg hdt']
      simp only []
      rw [if_pos hr]
    · intro hr
      refine ⟨?_, ?_, ?_⟩
      · intro hT
        unfold calculate_rebuffer_probability
        rw [if_neg hb', if_neg hdt']
        simp only []
        rw [if_neg hr]
        rw [if_pos hT, e0]
      · intro hT
        have h30 : ¬ ofDecimal 300 1 < b / (ofDecimal 10 1 - dt / sd) := by
          intro h
          have := F32.flt_trans h hT
          exact absurd this (by decide)
        unfold calculate_rebuffer_probability
        rw [if_neg hb', if_neg hdt']
        simp only []
        rw [if_neg hr]
        rw [if_neg h30, if_pos hT]
      · intro h5 h30
        unfold calculate_rebuffer_probability
        rw [if_neg hb', if_neg hdt']
        simp only []
        rw [if_neg hr]
        rw [if_neg (by rw [F32.lt_def, F32.not_flt_of_fle h30]; exact Bool.noConfusion),
          if_neg (by rw [F32.lt_def, F32.not_flt_of_fle h5]; exact Bool.noConfusion)]
  · intro hdt
    unfold calculate_rebuffer_probability
    rw [if_neg hb', if_pos hdt, e0]

/-- C25 at a buffer of 10 s, a download time of 3 s and a segment duration of 6 s: the
time to rebuffer is 20 s. -/
theorem calculate_rebuffer_probability_cases_witness :
    ((ofInt 0 : F32) < ofInt 10 ∧ (ofInt 0 : F32) < ofInt 3 ∧
      ¬ (ofInt 1 : F32) ≤ ofInt 3 / ofInt 6 ∧
      (ofInt 10 : F32) / (ofInt 1 - ofInt 3 / ofInt 6) = ofInt 20) ∧
    calculate_rebuffer_probability (ofInt 10 : F32) (ofInt 3) (ofInt 6) =
      ofInt 1 - (ofInt 10 : F32) / (ofInt 1 - ofInt 3 / ofInt 6) / ofInt 30 :=
  ⟨by decide,
    ((calculate_rebuffer_probability_cases (ofInt 10) (ofInt 3) (ofInt 6) (by decide)).1
      (by decide)).2 (by decide) |>.2.2 (by decide) (by decide)⟩

/-- C26. For every buffer level `<= 0` and every download time and segment duration,
`calculate_rebuffer_probability` returns 1: the empty-buffer rule is tested first. -/
theorem calculate_rebuffer_probability_empty_buffer (b dt sd : F32) (hb : b ≤ ofInt 0) :
    calculate_rebuffer_probability b dt sd = ofInt 1 := by
  unfold calculate_rebuffer_probability
  rw [if_pos hb]
  decide

/-- C26 at an empty buffer with a negative download time and segment duration. -/
theorem calculate_rebuffer_probability_empty_buffer_witness :
    (ofInt 0 : F32) ≤ ofInt 0 ∧
    calculate_rebuffer_probability (ofInt 0 : F32) (ofInt (-1)) (ofInt (-2)) = ofInt 1 :=
  ⟨by decide, calculate_rebuffer_probability_empty_buffer _ _ _ (by decide)⟩

/-- C27, as stated, fails: with a NaN buffer level (download time 1, segment duration 2)
and with an infinite download time and segment duration (buffer 1)
`calculate_rebuffer_probability` returns NaN, which is not in `[0, 1]`. -/
theorem calculate_rebuffer_probability_nan_counterexample :
    calculate_rebuffer_probability F32.nan (ofInt 1) (ofInt 2) = F32.nan ∧
    calculate_rebuffer_probability (ofInt 1) (F32.inf false) (F32.inf false) = F32.nan ∧
    ¬ ((ofInt 0 : F32) ≤ F32.nan) ∧ ¬ (F32.nan ≤ (ofInt 1 : F32)) := by
  decide

/-- C27, amended. For every finite buffer level, download time and segment duration
(positive, negative or zero), `calculate_rebuffer_probability` returns a value in
`[0, 1]`. -/
theorem calculate_rebuffer_probability_in_unit_interval (b dt sd : F32)
    (hb : b.isFinite = true) (hdt : dt.isFinite = true) (hsd : sd.isFinite = true) :
    ofInt 0 ≤ calculate_rebuffer_probability b dt sd ∧
    calculate_rebuffer_probability b dt sd ≤ ofInt 1 := by
  have e0 : (ofInt 0 : F32) = F32.fin false 0 (-149) := by decide
  have e1 : (ofInt 1 : F32) = F32.fin false 8388608 (-23) := by decide
  have hsn : sd.isNaN = false := by
    cases sd with
    | nan => exact Bool.noConfusion hsd
    | inf s => rfl
    | fin s m e => rfl
  rw [e0, e1]
  apply F32.rebuffer_unit
  cases h1 : F32.le b (F32.fin false 0 (-149))
  · cases h2 : F32.le dt (F32.fin false 0 (-149))
    · right; right; right
      exact F32.time_to_rebuffer_finite_notNaN b dt sd hb hdt hsn h1 h2
    · right; left; rfl
  · left; rfl

/-- C27, amended, at a buffer of 10 s, a download time of 2 s and a segment duration of
-2 s. -/
theorem calculate_rebuffer_probability_in_unit_interval_witness :
    ((ofInt 10 : F32).isFinite = true ∧ (ofInt 2 : F32).isFinite = true ∧
      (ofInt (-2) : F32).isFinite = true) ∧
    (ofInt 0 : F32) ≤ calculate_rebuffer_probability (ofInt 10) (ofInt 2) (ofInt (-2)) ∧
    calculate_rebuffer_probability (ofInt 10 : F32) (ofInt 2) (ofInt (-2)) ≤ ofInt 1 :=
  ⟨by decide,
    calculate_rebuffer_probability_in_unit_interval _ _ _ (by decide) (by decide) (by decide)⟩

/-- C28. `calculate_rebuffer_probability` has no test of the segment duration.  With a
buffer of 10 s and a download time of 2 s it returns 1 for the segment duration 0 and
`1 - 5/30` for the segment duration -2, not 0, whereas `calculate_buffer_health` returns 0
for both. -/
theorem calculate_rebuffer_probability_no_segment_sentinel :
    (ofInt 0 : F32) ≤ ofInt 0 ∧ (ofInt 0 : F32) < ofInt 10 ∧
    calculate_rebuffer_probability (ofInt 10 : F32) (ofInt 2) (ofInt 0) = ofInt 1 ∧
    calculate_rebuffer_probability (ofInt 10 : F32) (ofInt 2) (ofInt (-2)) =
      ofInt 1 - ofInt 5 / ofInt 30 ∧
    calculate_rebuffer_probability (ofInt 10 : F32) (ofInt 2) (ofInt (-2)) ≠ ofInt 0 ∧
    calculate_buffer_health (ofInt 10 : F32) (ofInt 0) = ofInt 0 ∧
    calculate_buffer_health (ofInt 10 : F32) (ofInt (-2)) = ofInt 0 := by
  decide

/-- C29, as stated, fails when the unclamped utility is NaN: at level 3 with a NaN rebuffer
probability, or with the rebuffer probability `+inf` and the switch penalty `-inf`,
`estimate_qoe` returns 1, and `min (1, max (0, x))` is 0. -/
theorem estimate_qoe_clamp_order_counterexample :
    estimate_qoe 3 F32.nan (ofInt 0) = ofInt 1 ∧
    qoe_spec 3 F32.nan (ofInt 0 : F32) = ofInt 0 ∧
    estimate_qoe 3 (F32.inf false) (F32.inf true) = ofInt 1 ∧
    qoe_spec 3 (F32.inf false) (F32.inf true) = ofInt 0 ∧
    (ofInt 1 : F32) ≠ ofInt 0 := by
  decide

/-- C29, amended. For every level in `0..5` and every rebuffer probability and switch
penalty, with `x = level / 5 - 0.5 * rebufferProb - 0.1 * switchPenalty`: `estimate_qoe` is
`max (0, min (1, x))`; it equals `min (1, max (0, x))` whenever `x` is not NaN, and it
is 1 when `x` is NaN. -/
theorem estimate_qoe_is_clamped_utility (level : Int) (rebufferProb switchPenalty : F32)
    (h0 : 0 ≤ level) (h5 : level ≤ 5) :
    estimate_qoe level rebufferProb switchPenalty =
      fmaxf (ofInt 0) (fminf (ofInt 1)
        (ofInt level / ofInt 5 - ofDecimal 5 1 * rebufferProb - ofDecimal 1 1 * switchPenalty)) ∧
    ((ofInt level / ofInt 5 - ofDecimal 5 1 * rebufferProb
        - ofDecimal 1 1 * switchPenalty).isNaN = false →
      estimate_qoe level rebufferProb switchPenalty = qoe_spec level rebufferProb switchPenalty) ∧
    ((ofInt level / ofInt 5 - ofDecimal 5 1 * rebufferProb
        - ofDecimal 1 1 * switchPenalty).isNaN = true →
      estimate_qoe level rebufferProb switchPenalty = ofInt 1) := by
  have e0 : (ofInt 0 : F32) = F32.fin false 0 (-149) := by decide
  have e1 : (ofInt 1 : F32) = F32.fin false 8388608 (-23) := by decide
  have z0 : (ofDecimal 0 1 : F32) = F32.fin false 0 (-149) := by decide
  have z1 : (ofDecimal 10 1 : F32) = F32.fin false 8388608 (-23) := by decide
  have c1 : rebufferProb * ofDecimal 5 1 = ofDecimal 5 1 * rebufferProb := by
    rw [F32.mul_def, F32.mul_def, F32.fmul_comm]
  have c2 : switchPenalty * ofDecimal 1 1 = ofDecimal 1 1 * switchPenalty := by
    rw [F32.mul_def, F32.mul_def, F32.fmul_comm]
  have hcode : estimate_qoe level rebufferProb switchPenalty =
      fmaxf (ofInt 0) (fminf (ofInt 1)
        (ofInt level / ofInt 5 - ofDecimal 5 1 * rebufferProb
          - ofDecimal 1 1 * switchPenalty)) := by
    unfold estimate_qoe
    rw [if_neg (by unfold NUM_QUALITIES; omega)]
    simp only []
    rw [c1, c2, e0, e1, z0, z1]
    rfl
  refine ⟨hcode, ?_, ?_⟩
  · intro hx
    rw [hcode]
    unfold qoe_spec
    rw [e0, e1, F32.fminf_def]
    exact F32.clamp_comm _ hx
  · intro hx
    rw [hcode]
    generalize ofInt level / ofInt 5 - ofDecimal 5 1 * rebufferProb
      - ofDecimal 1 1 * switchPenalty = x at hx
    cases x with
    | nan => decide
    | inf s => exact Bool.noConfusion hx
    | fin s m e => exact Bool.noConfusion hx

/-- C29, amended, at level 3, rebuffer probability 0.5 and switch penalty 1. -/
theorem estimate_qoe_is_clamped_utility_witness :
    ((0 : Int) ≤ 3 ∧ (3 : Int) ≤ 5 ∧
      ((ofInt 3 / ofInt 5 - ofDecimal 5 1 * ofDecimal 5 1 - ofDecimal 1 1 * ofInt 1 : F32)).isNaN
        = false) ∧
    estimate_qoe 3 (ofDecimal 5 1 : F32) (ofInt 1) = qoe_spec 3 (ofDecimal 5 1) (ofInt 1) :=
  ⟨by decide,
    (estimate_qoe_is_clamped_utility 3 _ _ (by decide) (by decide)).2.1 (by decide)⟩

/-- C30. For every integer quality level and every rebuffer probability and switch
penalty (negative, above 1, infinite or NaN), `estimate_qoe` returns a value in `[0, 1]`;
for a level outside `0..5` it returns 0. -/
theorem estimate_qoe_in_unit_interval :
    (∀ (quality_level : Int) (rebuffer_probability switch_penalty : F32),
      ofInt 0 ≤ estimate_qoe quality_level rebuffer_probability switch_penalty ∧
      estimate_qoe quality_level rebuffer_probability switch_penalty ≤ ofInt 1) ∧
    (∀ (quality_level : Int) (rebuffer_probability switch_penalty : F32),
      (quality_level < 0 ∨ 5 < quality_level) →
      estimate_qoe quality_level rebuffer_probability switch_penalty = ofInt 0) := by
  have e0 : (ofInt 0 : F32) = ofDecimal 0 1 := by decide
  have e1 : (ofInt 1 : F32) = ofDecimal 10 1 := by decide
  refine ⟨?_, ?_⟩
  · intro q r s
    rw [e0, e1]
    exact estimate_qoe_unit q r s
  · intro q r s h
    unfold estimate_qoe
    rw [if_pos (by unfold NUM_QUALITIES; omega), e0]

/-- C30 at level 7 with a negative rebuffer probability and a switch penalty above 1. -/
theorem estimate_qoe_in_unit_interval_witness :
    ((7 : Int) < 0 ∨ (5 : Int) < 7) ∧
    estimate_qoe 7 (ofInt (-3) : F32) (ofInt 4) = ofInt 0 :=
  ⟨by decide, estimate_qoe_in_unit_interval.2 7 _ _ (by decide)⟩

/-- C31. Divisions with a zero denominator are reached.  In `calculate_rebuffer_probability`
with buffer 10, download time 2 and segment duration 0 both early returns are passed and
`download_time / segment_duration` is `2 / 0`; in `detect_bandwidth_trend` on the history
0, 0, 0 the average is `0 / 3 = 0` and `slope / avg` is `0 / 0`; in
`select_quality_maximize_qoe` with bandwidth 0 the download time of level 0 is
`400 * 6 / 0`; in `get_comprehensive_recommendation` on the empty history the bandwidth
that divides is 0. -/
theorem zero_denominator_divisions :
    (¬ ((ofInt 10 : F32) ≤ ofInt 0) ∧ ¬ ((ofInt 2 : F32) ≤ ofInt 0) ∧
      (ofInt 2 : F32) / ofInt 0 = F32.inf false ∧
      calculate_rebuffer_probability (ofInt 10 : F32) (ofInt 2) (ofInt 0) = ofInt 1) ∧
    (¬ ([ofInt 0, ofInt 0, ofInt 0] : List F32).length < 3 ∧
      (([ofInt 0, ofInt 0, ofInt 0] : List F32).foldl trendStep
        { i := 0, sum_x := ofInt 0, sum_y := ofInt 0, sum_xy := ofInt 0,
          sum_xx := ofInt 0 }).sum_y / ofInt 3 = ofInt 0 ∧
      (ofInt 0 : F32) / ofInt 0 = F32.nan ∧
      detect_bandwidth_trend ([ofInt 0, ofInt 0, ofInt 0] : List F32) = 0) ∧
    (candidateQoe (ofInt 0 : F32) (ofInt 10) (ofInt 6) 0 0 400 = ofInt 0 ∧
      (ofInt 400 * ofInt 6 : F32) / ofInt 0 = F32.inf false ∧
      select_quality_maximize_qoe (ofInt 0 : F32) (ofInt 10) (ofInt 6) 0 5 = some 5) ∧
    (adjusted_bandwidth ([] : List F32) = ofInt 0 ∧
      (get_comprehensive_recommendation ([] : List F32) (ofInt 10) (ofInt 6) 0 5).map
        (fun r => r.quality) = some (ofInt 5)) := by
  decide

/-- C32. For the empty history `predict_bandwidth`, `predict_bandwidth_harmonic` and
`calculate_bandwidth_variance` each return 0 and `detect_bandwidth_trend` returns 0
(stable). -/
theorem empty_history_sentinels :
    predict_bandwidth ([] : List F32) = ofInt 0 ∧
    predict_bandwidth_harmonic ([] : List F32) = ofInt 0 ∧
    calculate_bandwidth_variance ([] : List F32) = ofInt 0 ∧
    detect_bandwidth_trend ([] : List F32) = 0 := by
  decide

/-- C33, as stated, fails.  At the top of the ladder in the medium-buffer regime
(`current_quality = max_quality = 5`, buffer 20 s) `select_quality_level` performs no read
outside `0..5` and returns level 5 with the bandwidths 20000 and `+inf`, for which the
highest level is affordable, and level 3 and 0 with the bandwidths 4000 and 400: the
affordable level is at most 5, so the test `bandwidth_quality > current_quality` fails and
the lookup at index 6 is not evaluated. -/
theorem select_quality_level_no_read_past_top :
    select_quality_level (ofInt 20000 : F32) (ofInt 20) 5 5 = some 5 ∧
    select_quality_level (F32.inf false) (ofInt 20) 5 5 = some 5 ∧
    select_quality_level (ofInt 4000 : F32) (ofInt 20) 5 5 = some 3 ∧
    select_quality_level (ofInt 400 : F32) (ofInt 20) 5 5 = some 0 ∧
    bandwidthQualityLoop (ofInt 20000 : F32) 6 0 0 = some 5 := by
  decide

/-- C33, amended. For every bandwidth, buffer level and maximum quality and every current
quality of at least -1, `select_quality_level` reads `QUALITY_BITRATES` inside `0..5` only:
the lookup at `current_quality + 1` is reached only when the current quality is below the
affordable level, which is at most 5.  A read outside the ladder does occur for a current
quality of -2: in the medium-buffer regime (bandwidth 4000, buffer 20 s) the lookup is at
index -1. -/
theorem select_quality_level_reads_in_bounds :
    (∀ (bandwidth buffer_level : F32) (current_quality max_quality : Int),
      -1 ≤ current_quality →
      select_quality_level bandwidth buffer_level current_quality max_quality ≠ none) ∧
    select_quality_level (ofInt 4000 : F32) (ofInt 20) (-2) 5 = none := by
  refine ⟨?_, by decide⟩
  intro bandwidth buffer_level current_quality max_quality hc
  obtain ⟨q, hq, _⟩ := select_quality_level_step bandwidth buffer_level current_quality
    max_quality hc
  rw [hq]
  exact Option.noConfusion

/-- C33, amended, at the top of the ladder: bandwidth 20000, buffer 20 s, current and
maximum quality 5. -/
theorem select_quality_level_reads_in_bounds_witness :
    (-1 : Int) ≤ 5 ∧ select_quality_level (ofInt 20000 : F32) (ofInt 20) 5 5 ≠ none :=
  ⟨by decide, select_quality_level_reads_in_bounds.1 _ _ _ _ (by decide)⟩

/-- C34. For every buffer level `<= 0`, every maximum quality `>= 4` and every bandwidth,
segment duration and current quality, `select_quality_maximize_qoe` returns the top
candidate level `min max_quality 5`. -/
theorem select_quality_maximize_qoe_empty_buffer
    (bandwidth buffer_seconds segment_duration : F32) (current_quality max_quality : Int)
    (hb : buffer_seconds ≤ ofInt 0) (hm : 4 ≤ max_quality) :
    select_quality_maximize_qoe bandwidth buffer_seconds segment_duration current_quality
      max_quality = some (min max_quality 5) := by
  obtain ⟨q, hq, hq0, hq1, hbest, _⟩ := select_quality_maximize_qoe_best bandwidth
    buffer_seconds segment_duration current_quality max_quality (by omega)
  rw [hq]
  congr 1
  have hM : min max_quality 5 = 4 ∨ min max_quality 5 = 5 := by
    rcases le_total max_quality 5 with h | h
    · rw [min_eq_left h]; omega
    · rw [min_eq_right h]; right; rfl
  by_contra hne
  have hlt : q < min max_quality 5 := lt_of_le_of_ne hq1 hne
  have h1 := hbest (min max_quality 5) (by omega) (le_refl _)
  rw [utility_empty_buffer _ _ _ _ _ hb, utility_empty_buffer _ _ _ _ _ hb,
    qoe_top_wins (min max_quality 5) q hM hq0 hlt] at h1
  exact Bool.noConfusion h1

/-- C34 at an empty buffer with bandwidth 4000, segment duration 6 s, current quality 0
and maximum quality 5. -/
theorem select_quality_maximize_qoe_empty_buffer_witness :
    ((ofInt 0 : F32) ≤ ofInt 0 ∧ (4 : Int) ≤ 5) ∧
    select_quality_maximize_qoe (ofInt 4000 : F32) (ofInt 0) (ofInt 6) 0 5 = some (min 5 5) :=
  ⟨by decide, select_quality_maximize_qoe_empty_buffer _ _ _ _ _ (by decide) (by decide)⟩

/-- C35. For every switch history of length less than 5 and every other input,
`select_quality_stable` returns exactly what `select_quality_level` returns: the guard
counts no switch and never suppresses. -/
theorem select_quality_stable_short_history (bandwidth buffer_level : F32)
    (current_quality max_quality : Int) (switch_history : List Int)
    (h : switch_history.length < 5) :
    recentSwitches switch_history current_quality = 0 ∧
    select_quality_stable bandwidth buffer_level current_quality max_quality switch_history
      = select_quality_level bandwidth buffer_level current_quality max_quality :=
  ⟨recentSwitches_of_short switch_history current_quality h,
    select_quality_stable_of_short bandwidth buffer_level current_quality max_quality
      switch_history h⟩

/-- C35 at a history of four entries that all differ from the current quality 2, with a
recommendation one level above it. -/
theorem select_quality_stable_short_history_witness :
    ([0, 1, 0, 1] : List Int).length < 5 ∧
    select_quality_stable (ofInt 4000 : F32) (ofInt 20) 2 5 [0, 1, 0, 1]
      = select_quality_level (ofInt 4000 : F32) (ofInt 20) 2 5 :=
  ⟨by decide, (select_quality_stable_short_history _ _ _ _ _ (by decide)).2⟩

/-- C36. For every bandwidth with `0.9 x bandwidth >= 400` (which makes it `> 0`), every
buffer level, every current quality `>= 0` and every maximum quality `>= 0`, the level `q`
returned by `select_quality_level` is at most the affordable level, and its bitrate is at
most `0.9 x bandwidth`. -/
theorem select_quality_level_within_bandwidth (bandwidth buffer_level : F32)
    (current_quality max_quality : Int) (h400 : ofInt 400 ≤ bandwidth * ofDecimal 9 1)
    (hc : 0 ≤ current_quality) (hm : 0 ≤ max_quality) :
    ∃ q, select_quality_level bandwidth buffer_level current_quality max_quality = some q ∧
      q ≤ affordable_level bandwidth (min max_quality 5) ∧
      ofInt (ladderRate q) ≤ bandwidth * ofDecimal 9 1 := by
  obtain ⟨q, hq, hq0, hqA⟩ := select_quality_level_le_affordable bandwidth buffer_level
    current_quality max_quality hm hc
  refine ⟨q, hq, hqA, ?_⟩
  have hM5 : min max_quality 5 ≤ 5 := min_le_right _ _
  have hM0 : 0 ≤ min max_quality 5 := le_min hm (by norm_num)
  have hA := affordable_level_range bandwidth (min max_quality 5) hM0
  have hspec := affordableFrom_spec bandwidth (min max_quality 5).toNat
  unfold affordable_level at hqA hA
  generalize affordableFrom bandwidth (min max_quality 5).toNat = A at hqA hA hspec
  rcases hspec with ⟨hz, _⟩ | ⟨_, _, hfit, _⟩
  · have : q = 0 := by omega
    subst this
    exact h400
  · rw [F32.le_def] at hfit ⊢
    exact F32.fle_trans (ladderRate_mono q A hq0 hqA (by omega)) hfit

/-- C36 at bandwidth 4000, buffer 40 s, current quality 4, maximum quality 5. -/
theorem select_quality_level_within_bandwidth_witness :
    ((ofInt 0 : F32) < ofInt 4000 ∧ (ofInt 400 : F32) ≤ ofInt 4000 * ofDecimal 9 1 ∧
      (0 : Int) ≤ 4 ∧ (0 : Int) ≤ 5) ∧
    ∃ q, select_quality_level (ofInt 4000 : F32) (ofInt 40) 4 5 = some q ∧
      q ≤ affordable_level (ofInt 4000 : F32) (min 5 5) ∧
      ofInt (ladderRate q) ≤ (ofInt 4000 : F32) * ofDecimal 9 1 :=
  ⟨by decide,
    select_quality_level_within_bandwidth _ _ _ _ (by decide) (by decide) (by decide)⟩

/-- C37. For every current quality `>= 0` and every bandwidth, buffer level and maximum
quality, `select_quality_level` returns a level of at most `current_quality + 1`. -/
theorem select_quality_level_one_step_up (bandwidth buffer_level : F32)
    (current_quality max_quality : Int) (hc : 0 ≤ current_quality) :
    ∃ q, select_quality_level bandwidth buffer_level current_quality max_quality = some q ∧
      q ≤ current_quality + 1 := by
  obtain ⟨q, hq, h⟩ := select_quality_level_step bandwidth buffer_level current_quality
    max_quality (by omega)
  exact ⟨q, hq, h hc⟩

/-- C37 at bandwidth 20000, buffer 40 s, current quality 1, maximum quality 5. -/
theorem select_quality_level_one_step_up_witness :
    (0 : Int) ≤ 1 ∧
    ∃ q, select_quality_level (ofInt 20000 : F32) (ofInt 40) 1 5 = some q ∧ q ≤ 1 + 1 :=
  ⟨by decide, select_quality_level_one_step_up _ _ _ _ (by decide)⟩

/-- C38. `calculate_rebuffer_probability` is not monotone in the download time: with a
buffer of 4 s and a segment duration of 6 s, the download time 0.6 s gives 0.9 and the
longer download time 3 s gives `1 - 8/30`, which is smaller. -/
theorem calculate_rebuffer_probability_not_monotone :
    (ofInt 0 : F32) < ofInt 4 ∧ (ofInt 0 : F32) < ofInt 6 ∧
    (ofInt 0 : F32) < ofDecimal 6 1 ∧ (ofDecimal 6 1 : F32) < ofInt 3 ∧
    (ofInt 3 : F32) < ofInt 6 ∧
    calculate_rebuffer_probability (ofInt 4 : F32) (ofDecimal 6 1) (ofInt 6) = ofDecimal 9 1 ∧
    calculate_rebuffer_probability (ofInt 4 : F32) (ofInt 3) (ofInt 6)
      = ofInt 1 - ofInt 8 / ofInt 30 ∧
    calculate_rebuffer_probability (ofInt 4 : F32) (ofInt 3) (ofInt 6)
      < calculate_rebuffer_probability (ofInt 4 : F32) (ofDecimal 6 1) (ofInt 6) := by
  decide

/-- C39, as stated, fails in binary32: on the history of the single sample 7 the harmonic
predictor returns `1 / (1 / 7)`, which rounds to the float just below 7, the minimum
sample. -/
theorem predict_bandwidth_harmonic_below_minimum_counterexample :
    (ofInt 0 : F32) < ofInt 7 ∧
    predict_bandwidth_harmonic ([ofInt 7] : List F32) = F32.fin false 14680063 (-21) ∧
    (ofInt 7 : F32) = F32.fin false 14680064 (-21) ∧
    predict_bandwidth_harmonic ([ofInt 7] : List F32) < ofInt 7 := by
  decide

/-- C39, amended. In exact arithmetic, for every non-empty history whose samples are all
strictly positive, `predict_bandwidth_harmonic` is at most the arithmetic mean of the
history, at least every lower bound of the samples and at most every upper bound of them,
so it lies between the minimum and the maximum sample. -/
theorem predict_bandwidth_harmonic_mean_bounds (h : List ℚ) (hne : h ≠ [])
    (hpos : ∀ x ∈ h, 0 < x) :
    predict_bandwidth_harmonic h ≤ mean_spec h ∧
    (∀ lo : ℚ, (∀ x ∈ h, lo ≤ x) → lo ≤ predict_bandwidth_harmonic h) ∧
    (∀ hi : ℚ, (∀ x ∈ h, x ≤ hi) → predict_bandwidth_harmonic h ≤ hi) := by
  have hR := sum_inv_pos h hne hpos
  have hn : (0 : ℚ) < (h.length : ℚ) := by
    have : h.length ≠ 0 := fun h0 => hne (List.length_eq_zero.mp h0)
    exact_mod_cast Nat.pos_of_ne_zero this
  rw [predict_bandwidth_harmonic_rat h hne hpos]
  refine ⟨?_, ?_, ?_⟩
  · unfold mean_spec
    rw [div_le_div_iff₀ hR hn]
    exact sq_length_le_sum_mul h hpos
  · intro lo hlo
    rcases le_or_lt lo 0 with h0 | h0
    · exact le_trans h0 (div_pos hn hR).le
    · have := sum_inv_le h lo h0 hlo
      rw [le_div_iff₀ hR]
      rw [le_div_iff₀ h0] at this
      linarith
  · intro hi hhi
    have hhi0 : 0 < hi := by
      cases h with
      | nil => exact absurd rfl hne
      | cons a l =>
        exact lt_of_lt_of_le (hpos a (List.mem_cons_self a l)) (hhi a (List.mem_cons_self a l))
    have := le_sum_inv h hi hpos hhi
    rw [div_le_iff₀ hR]
    rw [div_le_iff₀ hhi0] at this
    linarith

/-- C39, amended, at the history 2, 6 in exact arithmetic: the harmonic mean is 3, the
arithmetic mean 4. -/
theorem predict_bandwidth_harmonic_mean_bounds_witness :
    (([2, 6] : List ℚ) ≠ [] ∧ ∀ x ∈ ([2, 6] : List ℚ), 0 < x) ∧
    predict_bandwidth_harmonic ([2, 6] : List ℚ) ≤ mean_spec [2, 6] :=
  ⟨⟨by simp, by simp⟩,
    (predict_bandwidth_harmonic_mean_bounds [2, 6] (by simp) (by simp)).1⟩

/-- C40, as stated, fails in binary32: on the constant history 7.9, 7.9 the EWMA step
rounds up, and `predict_bandwidth` returns `13254002 * 2^-21`, above
`0.8 x 7.9 = 13254001 * 2^-21`. -/
theorem predict_bandwidth_above_maximum_counterexample :
    predict_bandwidth ([ofDecimal 79 1, ofDecimal 79 1] : List F32)
      = F32.fin false 13254002 (-21) ∧
    (ofDecimal 8 1 * ofDecimal 79 1 : F32) = F32.fin false 13254001 (-21) ∧
    (ofDecimal 8 1 * ofDecimal 79 1 : F32)
      < predict_bandwidth ([ofDecimal 79 1, ofDecimal 79 1] : List F32) := by
  decide

/-- C40, amended. In exact arithmetic, for every non-empty history and all bounds
`lo <= sample <= hi` on its samples (in particular the minimum and the maximum sample),
`predict_bandwidth` lies between `0.8 x lo` and `0.8 x hi`. -/
theorem predict_bandwidth_bounds (h : List ℚ) (lo hi : ℚ) (hne : h ≠ [])
    (hb : ∀ x ∈ h, lo ≤ x ∧ x ≤ hi) :
    8 / 10 * lo ≤ predict_bandwidth h ∧ predict_bandwidth h ≤ 8 / 10 * hi := by
  cases h with
  | nil => exact absurd rfl hne
  | cons h0 rest =>
    obtain ⟨h1, h2⟩ := hb h0 (List.mem_cons_self h0 rest)
    obtain ⟨e1, e2⟩ := ewma_fold_bounds_rat lo hi rest
      (fun y hy => hb y (List.mem_cons_of_mem h0 hy)) h0 h1 h2
    unfold predict_bandwidth
    simp only []
    generalize rest.foldl
      (fun ewma h => (ofDecimal 3 1 : ℚ) * h + (ofDecimal 10 1 - ofDecimal 3 1) * ewma) h0
      = e at e1 e2
    simp only [ofDecimal_rat, mul_rat]
    constructor
    · norm_num; linarith
    · norm_num; linarith

/-- C40, amended, at the history 1000, 2000, 4000 in exact arithmetic. -/
theorem predict_bandwidth_bounds_witness :
    (([1000, 2000, 4000] : List ℚ) ≠ [] ∧
      ∀ x ∈ ([1000, 2000, 4000] : List ℚ), 1000 ≤ x ∧ x ≤ 4000) ∧
    8 / 10 * 1000 ≤ predict_bandwidth ([1000, 2000, 4000] : List ℚ) ∧
    predict_bandwidth ([1000, 2000, 4000] : List ℚ) ≤ 8 / 10 * 4000 :=
  ⟨⟨by simp, by simp; norm_num⟩,
    predict_bandwidth_bounds _ _ _ (by simp) (by simp; norm_num)⟩

end Abr
